import Mathlib

/-!
# Verification of the typeit schema-derivation and codec-execution engine

This development shallowly embeds the core of the `typeit` library
(`typeit/schema/primitives.py`, `typeit/schema/types.py`, `typeit/schema/errors.py`,
`typeit/parser/__init__.py`, `typeit/combinator/constructor.py`,
`typeit/combinator/combinator.py`) and settles the specification claims about it.

Python runtime values are modelled by the inductive `Value`; the colander
`null` sentinel is kept distinct from Python `None` via `CV`.  Schema nodes of
the static fragment (primitives, unions, record structures) are modelled by
`CNode` with structurally recursive `deserialize`/`serialize`; the full
dispatcher fragment (which additionally has forward references and tuples) is
modelled by `FNode` with a fuel-indexed evaluator, mirroring that a forward
reference defers to a registry lookup at call time.

Floats carry an opaque `Rat` payload: no claim depends on float arithmetic,
only on runtime type tags and value identity.  `str()` coercions of container
values (`pyStrOf` on lists/dicts) are deterministic placeholders; they are
exercised only on non-strict coercion paths that no claim touches.
-/

namespace Typeit

/-! ## Python runtime values -/

/-- Runtime type tags, as compared by Python's `type(x) is T` checks. -/
inductive PyType where
  | pyNone
  | pybool
  | pyint
  | pyfloat
  | pystr
  | pybytes
  | pylist
  | pytuple
  | pydict
  | pyrec (name : String)
  | pycolnull
  deriving DecidableEq, Repr

/-- Python values as they occur in raw (wire) data and decoded structures.
`vrecord` models a NamedTuple instance: class name plus fields in declaration
order.  `vcolnull` is the `colander.null` singleton in the rare positions
where it can leak *inside* a container (it is an ordinary Python object);
at codec interface positions the sentinel is tracked by `CV.null`. -/
inductive Value where
  | vnone
  | vbool (b : Bool)
  | vint (n : Int)
  | vfloat (q : Rat)
  | vstr (s : String)
  | vbytes (bs : List Nat)
  | vlist (xs : List Value)
  | vtuple (xs : List Value)
  | vdict (kvs : List (String × Value))
  | vrecord (typName : String) (fields : List (String × Value))
  | vcolnull

/-- Colander cstruct/appstruct domain: a Python value or the `colander.null`
sentinel. -/
inductive CV where
  | null
  | val (v : Value)

def Value.typeOf : Value → PyType
  | .vnone => .pyNone
  | .vbool _ => .pybool
  | .vint _ => .pyint
  | .vfloat _ => .pyfloat
  | .vstr _ => .pystr
  | .vbytes _ => .pybytes
  | .vlist _ => .pylist
  | .vtuple _ => .pytuple
  | .vdict _ => .pydict
  | .vrecord n _ => .pyrec n
  | .vcolnull => .pycolnull

/-- Python truthiness (`not x` is `!truthy x`). -/
def Value.truthy : Value → Bool
  | .vnone => false
  | .vbool b => b
  | .vint n => n != 0
  | .vfloat q => q != 0
  | .vstr s => !s.isEmpty
  | .vbytes bs => !bs.isEmpty
  | .vlist xs => !xs.isEmpty
  | .vtuple xs => !xs.isEmpty
  | .vdict kvs => !kvs.isEmpty
  | .vrecord _ fs => !fs.isEmpty
  | .vcolnull => false

/-- Python `x == 0` (numeric cross-type equality with the literal `0`). -/
def Value.eqZero : Value → Bool
  | .vint n => n == 0
  | .vbool b => !b
  | .vfloat q => q == 0
  | _ => false

/-- Python `str(x)`.  Faithful for the scalar values the claims exercise;
container renderings are deterministic placeholders (only reachable through
non-strict coercions outside every claim). -/
def Value.pyStr : Value → String
  | .vnone => "None"
  | .vbool true => "True"
  | .vbool false => "False"
  | .vint n => toString n
  | .vfloat q => toString q
  | .vstr s => s
  | .vbytes _ => "<bytes>"
  | .vlist _ => "<list>"
  | .vtuple _ => "<tuple>"
  | .vdict _ => "<dict>"
  | .vrecord n _ => n
  | .vcolnull => "<colander.null>"

def digitVal (c : Char) : Option Nat :=
  if 48 ≤ c.toNat && c.toNat ≤ 57 then some (c.toNat - 48) else none

def parseDigits : List Char → Option Nat
  | [] => none
  | cs => cs.foldl (fun acc c => acc.bind fun n => (digitVal c).map (fun d => n * 10 + d)) (some 0)

/-- Python `int(s)` on strings, restricted to the plain decimal forms that
occur in the claims (no surrounding whitespace, no underscores, no `+` sign). -/
def pyParseInt (s : String) : Option Int :=
  match s.data with
  | '-' :: ds => (parseDigits ds).map (fun n => -(n : Int))
  | ds => (parseDigits ds).map (fun n => (n : Int))

/-- ASCII lower-casing (`str.lower()` on the strings the claims reach). -/
def pyLower (s : String) : String :=
  .mk (s.data.map (fun c =>
    if 65 ≤ c.toNat && c.toNat ≤ 90 then Char.ofNat (c.toNat + 32) else c))

/-- Python `int(x)`: `none` models an uncaught `TypeError`/`ValueError` from the
constructor. -/
def pyToInt : Value → Option Int
  | .vint n => some n
  | .vbool b => some (if b then 1 else 0)
  | .vfloat q => some (Int.tdiv q.num q.den)
  | .vstr s => pyParseInt s
  | _ => none

/-- Python `float(x)` (string parsing restricted to integral literals, which is
the only form any claim can reach). -/
def pyToFloat : Value → Option Rat
  | .vfloat q => some q
  | .vint n => some (n : Rat)
  | .vbool b => some (if b then 1 else 0)
  | .vstr s => (pyParseInt s).map (fun n => (n : Rat))
  | _ => none

/-- Python `dict` insertion semantics: updating an existing key keeps its
position, a new key is appended. -/
def dinsert {α : Type} (l : List (String × α)) (k : String) (v : α) :
    List (String × α) :=
  if l.any (fun p => p.1 == k) then
    l.map (fun p => if p.1 == k then (k, v) else p)
  else
    l ++ [(k, v)]

/-! ## Errors

`Inv` is `colander.Invalid`: a message, the offending value, and sub-errors
added via `Invalid.add` (the textual reprs that typeit interpolates from
sub-error nodes into aggregate messages are elided; the children carry the
sub-errors themselves).  `PyErr` distinguishes `Invalid` from the uncaught
Python exceptions that some code paths can raise. -/

inductive Inv where
  | mk (msg : String) (val : CV) (children : List Inv)

def Inv.msg : Inv → String
  | .mk m _ _ => m

def Inv.val : Inv → CV
  | .mk _ v _ => v

def Inv.children : Inv → List Inv
  | .mk _ _ cs => cs

inductive PyErr where
  | invalid (e : Inv)
  | typeError
  | valueError
  | indexError
  | keyError
  | attributeError

/-! ## Primitive schema types

Direct translations of `typeit/schema/primitives.py` together with the
colander base class behaviour they invoke through `super()`:
`colander.Number.deserialize` returns `null` on falsy non-zero input and
otherwise applies the numeric constructor; `colander.Boolean` stringifies and
compares against `false_choices = ('false', '0')`; `colander.String` (with
`allow_empty=True`, as registered by typeit) passes `''` through and returns
`null` on other falsy input. -/

/-- `_strict_deserialize` (primitives.py line 11): `null`/`None` pass through,
any other value must have exactly the allowed runtime type. -/
def strictCheck (allowed : PyType) (c : CV) : Except PyErr Unit :=
  match c with
  | .null => .ok ()
  | .val .vnone => .ok ()
  | .val v =>
      if v.typeOf = allowed then .ok ()
      else .error (.invalid (.mk "Primitive values should adhere strict type semantics" c []))

/-- `colander.Number.deserialize`: `if cstruct != 0 and not cstruct: return null`
then the numeric constructor. -/
def numberDes (toNum : Value → Option Value) (c : CV) : Except PyErr CV :=
  match c with
  | .null => .ok .null
  | .val v =>
      if !v.eqZero && !v.truthy then .ok .null
      else match toNum v with
        | some w => .ok (.val w)
        | none => .error (.invalid (.mk "is not a number" c []))

/-- `NonStrictInt.serialize` / `NonStrictFloat.serialize`: colander serializes
`null`/`None` to `null`, which typeit maps back to Python `None`; numbers are
re-parsed so the original representation is returned. -/
def numberSer (toNum : Value → Option Value) (c : CV) : Except PyErr CV :=
  match c with
  | .null => .ok (.val .vnone)
  | .val .vnone => .ok (.val .vnone)
  | .val v =>
      match toNum v with
      | some w => .ok (.val w)
      | none => .error (.invalid (.mk "is not a number" c []))

def intDes (strict : Bool) (c : CV) : Except PyErr CV :=
  let go := numberDes (fun v => (pyToInt v).map Value.vint)
  if strict then (strictCheck .pyint c).bind fun _ => go c else go c

def intSer (strict : Bool) (c : CV) : Except PyErr CV :=
  let go := numberSer (fun v => (pyToInt v).map Value.vint)
  if strict then (strictCheck .pyint c).bind fun _ => go c else go c

def floatDes (strict : Bool) (c : CV) : Except PyErr CV :=
  let go := numberDes (fun v => (pyToFloat v).map Value.vfloat)
  if strict then (strictCheck .pyfloat c).bind fun _ => go c else go c

def floatSer (strict : Bool) (c : CV) : Except PyErr CV :=
  let go := numberSer (fun v => (pyToFloat v).map Value.vfloat)
  if strict then (strictCheck .pyfloat c).bind fun _ => go c else go c

/-- `colander.Boolean.deserialize` with the default
`false_choices = ('false', '0')` and empty `true_choices`. -/
def boolDesCore (c : CV) : Except PyErr CV :=
  match c with
  | .null => .ok .null
  | .val v =>
      if !v.eqZero && !v.truthy then .ok .null
      else
        let r := pyLower v.pyStr
        .ok (.val (.vbool (!(r == "false" || r == "0"))))

def boolDes (strict : Bool) (c : CV) : Except PyErr CV :=
  if strict then (strictCheck .pybool c).bind fun _ => boolDesCore c else boolDesCore c

/-- `NonStrictBool.serialize`: colander renders `null` to `null` (mapped to
`None` by typeit) and any other value to `'true'`/`'false'` by truthiness,
which typeit maps back to a Python bool. -/
def boolSerCore (c : CV) : Except PyErr CV :=
  match c with
  | .null => .ok (.val .vnone)
  | .val v => .ok (.val (.vbool v.truthy))

def boolSer (strict : Bool) (c : CV) : Except PyErr CV :=
  if strict then (strictCheck .pybool c).bind fun _ => boolSerCore c else boolSerCore c

/-- `colander.String.deserialize` with `allow_empty=True` (as typeit registers
it): `''` passes through, other falsy input becomes `null`, anything else is
coerced with `str()`. -/
def strDesCore (c : CV) : Except PyErr CV :=
  match c with
  | .null => .ok .null
  | .val (.vstr "") => .ok (.val (.vstr ""))
  | .val v =>
      if !v.truthy then .ok .null
      else .ok (.val (.vstr v.pyStr))

def strDes (strict : Bool) (c : CV) : Except PyErr CV :=
  if strict then (strictCheck .pystr c).bind fun _ => strDesCore c else strDesCore c

/-- `NonStrictStr.serialize`: the colander result is passed through except that
`null` and the string `'None'` are both mapped to Python `None` — so the
string value `"None"` does not survive serialization. -/
def strSerCore (c : CV) : Except PyErr CV :=
  match c with
  | .null => .ok (.val .vnone)
  | .val .vnone => .ok (.val .vnone)
  | .val v =>
      let r := v.pyStr
      if r = "None" then .ok (.val .vnone) else .ok (.val (.vstr r))

def strSer (strict : Bool) (c : CV) : Except PyErr CV :=
  if strict then (strictCheck .pystr c).bind fun _ => strSerCore c else strSerCore c

/-- `AcceptEverything`: both directions are the identity. -/
def anyDes (c : CV) : Except PyErr CV := .ok c

def anySer (c : CV) : Except PyErr CV := .ok c

/-! ### Bytes (primitives.py `Bytes`, lines 110-140)

`deserialize` is aliased to `serialize`.  `supported_conversions` is checked
with `isinstance`, so `bool` values also match an `int` entry. -/

/-- Python `isinstance(v, tuple(convs))`, with `bool` a subclass of `int`. -/
def isinstanceAny (v : Value) (convs : List PyType) : Bool :=
  convs.any (fun t =>
    v.typeOf == t || (v.typeOf == .pybool && t == .pyint))

/-- Byte payload of Python `bytes(s, encoding='utf-8')`. -/
def utf8Bytes (s : String) : List Nat := s.toUTF8.toList.map (fun b => b.toNat)

/-- `Bytes.serialize` (= `Bytes.deserialize`).  Note the guard
`appstruct in (Null, 'None')`: the literal string `'None'` is treated as the
null sentinel and mapped to Python `None` instead of being converted.
`bytes(n)` for a negative `n` raises an uncaught `ValueError`. -/
def bytesConv (convs : List PyType) (c : CV) : Except PyErr CV :=
  match c with
  | .null => .ok (.val .vnone)
  | .val (.vstr s) =>
      if s = "None" then .ok (.val .vnone)
      else if !isinstanceAny (.vstr s) convs then
        .error (.invalid (.mk "Cannot convert a source value to bytes" c []))
      else .ok (.val (.vbytes (utf8Bytes s)))
  | .val v =>
      if !isinstanceAny v convs then
        .error (.invalid (.mk "Cannot convert a source value to bytes" c []))
      else match v with
        | .vbytes bs => .ok (.val (.vbytes bs))
        | .vint n =>
            if n < 0 then .error .valueError
            else .ok (.val (.vbytes (List.replicate n.toNat 0)))
        | .vbool b => .ok (.val (.vbytes (List.replicate (if b then 1 else 0) 0)))
        | _ => .error .typeError

/-- The default `supported_conversions` of `Bytes()` (used by the non-strict
registry); the strict registry uses `Bytes(supported_conversions=(bytes,))`. -/
def bytesDefaultConvs : List PyType := [.pyint, .pybool, .pystr, .pybytes]

/-! ## Schema nodes of the static fragment

`CNode` models a built colander `SchemaNode`: a wire name, a schema type, and
a `missing` behaviour.  `CTyp` covers the node kinds reachable without forward
references: the primitives registry, `typeit.schema.types.Union` and
`typeit.schema.types.Structure`.  Deserialization and serialization are direct
translations of `types.py` plus the colander base-class behaviour invoked via
`super()`. -/

/-- `missing` behaviour of a node: colander's `required` marker or a
substitute value (e.g. `None` for optional fields, or a declared default). -/
inductive Missing where
  | required
  | miss (v : Value)

/-- The `var_type` component of `Union.variant_nodes`: the type object from
the signature, used by `Union.serialize` for runtime-type matching. -/
inductive VarTyp where
  | vtAny
  | vtInt
  | vtBool
  | vtStr
  | vtFloat
  | vtBytes
  | vtRec (name : String)
  | vtFRef (name : String)

mutual
inductive CTyp where
  | anyT
  | intT (strict : Bool)
  | boolT (strict : Bool)
  | strT (strict : Bool)
  | floatT (strict : Bool)
  | bytesT (convs : List PyType)
  | unionT (variants : List (VarTyp × CNode)) (nonStrict : Bool)
  | structureT (typName : String) (attrs : List String)
      (dOv : List (String × String)) (children : List CNode)
inductive CNode where
  | mk (name : String) (typ : CTyp) (missing : Missing)
end

def CNode.name : CNode → String
  | .mk n _ _ => n

def CNode.typ : CNode → CTyp
  | .mk _ t _ => t

def CNode.missing : CNode → Missing
  | .mk _ _ m => m

/-- `clone_schema_node` followed by `node.name = ...` (parser, lines 595-596). -/
def CNode.withName (n : CNode) (nm : String) : CNode :=
  .mk nm n.typ n.missing

/-- `clone_schema_node` followed by `node.missing = ...` (parser, lines 186-187). -/
def CNode.withMissing (n : CNode) (m : Missing) : CNode :=
  .mk n.name n.typ m

/-- `PRIMITIVES_REGISTRY[non_strict][type(x)]` as used by `Union` at run time:
the schema-type instance registered for a runtime type, if any. -/
def primLookup (nonStrict : Bool) : PyType → Option CTyp
  | .pyint => some (.intT (!nonStrict))
  | .pybool => some (.boolT (!nonStrict))
  | .pystr => some (.strT (!nonStrict))
  | .pyfloat => some (.floatT (!nonStrict))
  | .pybytes => some (.bytesT (if nonStrict then bytesDefaultConvs else [.pybytes]))
  | _ => none

/-- Identity comparison with a primitives-registry singleton (`x.typ is
prim_schema_type`).  Registry entries are one instance per (type, strictness),
so identity coincides with equality of the primitive schema-type description;
composite schema types are never registry members. -/
def primTypEq : CTyp → CTyp → Bool
  | .anyT, .anyT => true
  | .intT a, .intT b => a == b
  | .boolT a, .boolT b => a == b
  | .strT a, .strT b => a == b
  | .floatT a, .floatT b => a == b
  | .bytesT a, .bytesT b => a == b
  | _, _ => false

/-- Deserialize through a primitive schema type (registry members only;
composite types are not registry members, so that case is unreachable). -/
def primTypDes (t : CTyp) (c : CV) : Except PyErr CV :=
  match t with
  | .anyT => anyDes c
  | .intT s => intDes s c
  | .boolT s => boolDes s c
  | .strT s => strDes s c
  | .floatT s => floatDes s c
  | .bytesT convs => bytesConv convs c
  | _ => .error .typeError

/-- Serialize through a primitive schema type (registry members only). -/
def primTypSer (t : CTyp) (c : CV) : Except PyErr CV :=
  match t with
  | .anyT => anySer c
  | .intT s => intSer s c
  | .boolT s => boolSer s c
  | .strT s => strSer s c
  | .floatT s => floatSer s c
  | .bytesT convs => bytesConv convs c
  | _ => .error .typeError

/-- The filter of `remaining_variants`: a variant is skipped when its schema
type `is` the registry primitive already tried (`x.typ is not prim_schema_type`
in the source, with `skip = None` when the raw type has no registry entry). -/
def skipMatch (skip : Option CTyp) (t : CTyp) : Bool :=
  match skip with
  | some pt => primTypEq t pt
  | none => false

/-- `typ(**kwargs)` for a NamedTuple: every declared field must be supplied
exactly, extra keywords raise `TypeError`; the resulting instance holds the
fields in declaration order. -/
def constructRecord (tn : String) (attrs : List String)
    (kwargs : List (String × Value)) : Except PyErr Value :=
  match attrs.mapM (fun a => kwargs.lookup a) with
  | none => .error .typeError
  | some vs =>
      if kwargs.length = attrs.length then .ok (.vrecord tn (attrs.zip vs))
      else .error .typeError

/-- Aggregate message of `Union.deserialize` on exhaustion (the interpolated
sub-error node reprs are elided; the sub-errors themselves are carried as
children, mirroring the `error.add(e)` loop). -/
def unionAggMsg : String := "No suitable variant among tried"

def CV.toVal : CV → Value
  | .null => .vcolnull
  | .val v => v

/-- `Union.serialize` variant matching for non-primitive-matched variants:
`struct_type in matching_types or isinstance(var_type, ForwardRef) or
issubclass(struct_type, var_type)`.  `bool` is a subclass of `int`; `Any` as a
union variant is normalized away by `typing` before the parser ever sees it. -/
def varMatches : VarTyp → Value → Bool
  | .vtFRef _, _ => true
  | .vtInt, v => v.typeOf == .pyint || v.typeOf == .pybool
  | .vtBool, v => v.typeOf == .pybool
  | .vtStr, v => v.typeOf == .pystr
  | .vtFloat, v => v.typeOf == .pyfloat
  | .vtBytes, v => v.typeOf == .pybytes
  | .vtRec n, v => v.typeOf == .pyrec n
  | .vtAny, _ => false

/-- `getattr(appstruct, attr)` (structure serialization reads declared
attributes off the value; anything without that attribute raises
`AttributeError`). -/
def pyGetattrStr (v : Value) (a : String) : Option Value :=
  match v with
  | .vrecord _ fs => fs.lookup a
  | _ => none

/-- `serialize_overrides` lookup: the source builds `{v: k for k, v in
deserialize_overrides.items()}`, so on duplicate wire targets the last pair
wins. -/
def revLookup (l : List (String × String)) (a : String) : Option String :=
  l.foldl (fun acc p => if p.2 == a then some p.1 else acc) none

/-- The dict comprehension of `Structure.serialize`:
`{serialize_overrides.get(attr, attr): getattr(appstruct, attr) for attr in attrs}`. -/
def structAppDict (v : Value) (dOv : List (String × String)) (attrs : List String)
    (acc : List (String × Value)) : Except PyErr (List (String × Value)) :=
  match attrs with
  | [] => .ok acc
  | a :: rest =>
      match pyGetattrStr v a with
      | none => .error .attributeError
      | some w => structAppDict v dOv rest (dinsert acc ((revLookup dOv a).getD a) w)

/-! ## The static descriptor fragment and its builder

`Desc1` is the sub-language of type descriptors for which construction needs
no memoization and no forward references: `int`, `bool`, `Optional[int]` and
(nested) NamedTuple records.  `mkCNode` is `decide_node_type` restricted to
this fragment: `_maybe_node_for_primitive`, `_maybe_node_for_union` (for the
`Optional` case) and `_maybe_node_for_user_type`, with the per-field override
map keyed by `(record name, field name)` and the global name transform `g`
(`flags.GlobalNameOverride`). -/

inductive Desc1 where
  | d1Int
  | d1Bool
  | d1OptInt
  | d1Rec (typName : String) (fields : List (String × Desc1))

/-- Per-field wire-name overrides, keyed by `(record type, field name)`. -/
abbrev FieldOv := List ((String × String) × String)

mutual

def mkCNode (ov : FieldOv) (g : String → String) (ns : Bool) : Desc1 → CNode
  | .d1Int => .mk "" (.intT (!ns)) .required
  | .d1Bool => .mk "" (.boolT (!ns)) .required
  | .d1OptInt =>
      -- `_maybe_node_for_union` on Optional[int]: the int node is cloned with
      -- missing=None; the union node also carries missing=None
      .mk "" (.unionT [(.vtInt, .mk "" (.intT (!ns)) (.miss .vnone))] ns) (.miss .vnone)
  | .d1Rec n fs =>
      -- `_maybe_node_for_user_type`
      let wire := fun f => ((ov.lookup (n, f)).getD (g f))
      let dOvFull := fs.foldl (fun acc p => dinsert acc (wire p.1) p.1) []
      -- the source discards `deserialize_overrides` when it is the identity map
      let dOv := if fs.all (fun p => wire p.1 == p.1) then [] else dOvFull
      .mk "" (.structureT n (fs.map (fun p => p.1)) dOv
                (mkChildren ov g ns n dOv.isEmpty fs)) .required

/-- The child-construction loop of `_maybe_node_for_user_type`: each field
node is cloned, renamed to its serialized (wire) name — the specific override
when `deserialize_overrides` is non-empty, otherwise just the global
transform — and keeps its own `missing` (the fragment has no defaults). -/
def mkChildren (ov : FieldOv) (g : String → String) (ns : Bool) (rn : String)
    (dOvEmpty : Bool) : List (String × Desc1) → List CNode
  | [] => []
  | (f, fd) :: rest =>
      let serName := if dOvEmpty then g f else (ov.lookup (rn, f)).getD (g f)
      ((mkCNode ov g ns fd).withName serName) :: mkChildren ov g ns rn dOvEmpty rest

end

mutual

/-- `colander.SchemaNode.deserialize`: apply the schema type; a `null` result
is replaced by the node's `missing` (raising `Required` when unset). -/
def cnodeDes (n : CNode) (c : CV) : Except PyErr Value :=
  match n with
  | .mk _ t m =>
      match ctypDes t c with
      | .error e => .error e
      | .ok (.val v) => .ok v
      | .ok .null =>
          match m with
          | .required => .error (.invalid (.mk "Required" .null []))
          | .miss v => .ok v

def ctypDes (t : CTyp) (c : CV) : Except PyErr CV :=
  match t with
  | .anyT => anyDes c
  | .intT s => intDes s c
  | .boolT s => boolDes s c
  | .strT s => strDes s c
  | .floatT s => floatDes s c
  | .bytesT convs => bytesConv convs c
  | .unionT variants ns =>
      -- types.py `Union.deserialize` (lines 308-352)
      match c with
      | .null => .ok .null
      | .val .vnone => .ok (.val .vnone)
      | .val v =>
          let primT := primLookup ns v.typeOf
          let tryPrim : Option CTyp :=
            match primT with
            | some pt =>
                if variants.any (fun p => primTypEq p.2.typ pt) then some pt else none
            | none => none
          match tryPrim with
          | some pt =>
              match primTypDes pt c with
              | .ok r => .ok r
              | .error (.invalid i) =>
                  match unionLoopDes variants primT v [i] with
                  | .error e => .error e
                  | .ok (.ok w) => .ok (.val w)
                  | .ok (.error errs) => .error (.invalid (.mk unionAggMsg c errs))
              | .error e => .error e
          | none =>
              match unionLoopDes variants primT v [] with
              | .error e => .error e
              | .ok (.ok w) => .ok (.val w)
              | .ok (.error errs) => .error (.invalid (.mk unionAggMsg c errs))
  | .structureT tn attrs dOv children =>
      -- colander Mapping.deserialize + types.py `Structure.deserialize`
      match c with
      | .null => .ok .null
      | .val (.vdict kvs) =>
          match structChildrenDes children kvs [] [] with
          | .error e => .error e
          | .ok (res, []) =>
              let kwargs :=
                res.foldl (fun acc p => dinsert acc ((dOv.lookup p.1).getD p.1) p.2) []
              match constructRecord tn attrs kwargs with
              | .ok v => .ok (.val v)
              | .error e => .error e
          | .ok (_, errs) => .error (.invalid (.mk "" c errs))
      | .val _ => .error (.invalid (.mk "is not a mapping type" c []))

/-- The `for variant in remaining_variants` loop of `Union.deserialize`:
variants whose schema type is the already-tried registry primitive are
skipped; the first successful node-level deserialize wins; `Invalid` errors
are collected, anything else propagates. -/
def unionLoopDes (vars : List (VarTyp × CNode)) (skip : Option CTyp) (v : Value)
    (acc : List Inv) : Except PyErr (Except (List Inv) Value) :=
  match vars with
  | [] => .ok (.error acc)
  | (_, vn) :: rest =>
      if skipMatch skip vn.typ then
        unionLoopDes rest skip v acc
      else
        match cnodeDes vn (.val v) with
        | .ok w => .ok (.ok w)
        | .error (.invalid i) => unionLoopDes rest skip v (acc ++ [i])
        | .error e => .error e

/-- `colander.Mapping._impl` over the children, deserialize direction:
`subval = value.pop(name, null)`, child errors are collected (with the
result dict keyed by child name, Python-dict update semantics). -/
def structChildrenDes (children : List CNode) (kvs : List (String × Value))
    (res : List (String × Value)) (errs : List Inv) :
    Except PyErr (List (String × Value) × List Inv) :=
  match children with
  | [] => .ok (res, errs)
  | ch :: rest =>
      let subval : CV :=
        match kvs.lookup ch.name with
        | some w => .val w
        | none => .null
      match cnodeDes ch subval with
      | .ok w => structChildrenDes rest kvs (dinsert res ch.name w) errs
      | .error (.invalid i) => structChildrenDes rest kvs res (errs ++ [i])
      | .error e => .error e

end

mutual

/-- `colander.SchemaNode.serialize`: typeit never sets a node `default`, so
the schema type's serializer is applied to the argument unchanged. -/
def cnodeSer (n : CNode) (c : CV) : Except PyErr CV :=
  match n with
  | .mk _ t _ => ctypSer t c

def ctypSer (t : CTyp) (c : CV) : Except PyErr CV :=
  match t with
  | .anyT => anySer c
  | .intT s => intSer s c
  | .boolT s => boolSer s c
  | .strT s => strSer s c
  | .floatT s => floatSer s c
  | .bytesT convs => bytesConv convs c
  | .unionT variants ns =>
      -- types.py `Union.serialize` (lines 354-433)
      match c with
      | .null => .ok (.val .vnone)
      | .val .vnone => .ok (.val .vnone)
      | .val v =>
          let primT := primLookup ns v.typeOf
          let tryPrim : Option CTyp :=
            match primT with
            | some pt =>
                if variants.any (fun p => primTypEq p.2.typ pt) then some pt else none
            | none => none
          match tryPrim with
          | some pt =>
              match primTypSer pt c with
              | .ok r => .ok r
              | .error (.invalid _) =>
                  -- `except Invalid: pass` — the primitive's error is discarded
                  match unionLoopSer variants primT v [] with
                  | .error e => .error e
                  | .ok (.ok w) => .ok w
                  | .ok (.error _) =>
                      .error (.invalid (.mk "None of the expected variants matches provided structure" c []))
              | .error e => .error e
          | none =>
              match unionLoopSer variants primT v [] with
              | .error e => .error e
              | .ok (.ok w) => .ok w
              | .ok (.error _) =>
                  .error (.invalid (.mk "None of the expected variants matches provided structure" c []))
  | .structureT _tn attrs dOv children =>
      -- types.py `Structure.serialize` + colander Mapping.serialize
      match c with
      | .null =>
          -- colander Mapping.serialize replaces a null appstruct with `{}`
          match structChildrenSer children [] [] [] with
          | .error e => .error e
          | .ok (res, []) => .ok (.val (.vdict res))
          | .ok (_, errs) => .error (.invalid (.mk "" c errs))
      | .val v =>
          match structAppDict v dOv attrs [] with
          | .error e => .error e
          | .ok appdict =>
              match structChildrenSer children appdict [] [] with
              | .error e => .error e
              | .ok (res, []) => .ok (.val (.vdict res))
              | .ok (_, errs) => .error (.invalid (.mk "" c errs))

/-- The variant loop of `Union.serialize` restricted to the node kinds present
in this static fragment: there are no `TypedMapping`, `SequenceSchema` or
`TupleSchema` nodes here, so only the final runtime-type-matching branch
applies.  Unmatched variants are skipped silently; `Invalid` errors from
matched variants are collected. -/
def unionLoopSer (vars : List (VarTyp × CNode)) (skip : Option CTyp) (v : Value)
    (acc : List Inv) : Except PyErr (Except (List Inv) CV) :=
  match vars with
  | [] => .ok (.error acc)
  | (vt, vn) :: rest =>
      if skipMatch skip vn.typ then
        unionLoopSer rest skip v acc
      else if varMatches vt v then
        match cnodeSer vn (.val v) with
        | .ok w => .ok (.ok w)
        | .error (.invalid i) => unionLoopSer rest skip v (acc ++ [i])
        | .error e => .error e
      else
        unionLoopSer rest skip v acc

/-- `colander.Mapping._impl` over the children, serialize direction. -/
def structChildrenSer (children : List CNode) (kvs : List (String × Value))
    (res : List (String × Value)) (errs : List Inv) :
    Except PyErr (List (String × Value) × List Inv) :=
  match children with
  | [] => .ok (res, errs)
  | ch :: rest =>
      let subval : CV :=
        match kvs.lookup ch.name with
        | some w => .val w
        | none => .null
      match cnodeSer ch subval with
      | .ok w => structChildrenSer rest kvs (dinsert res ch.name w.toVal) errs
      | .error (.invalid i) => structChildrenSer rest kvs res (errs ++ [i])
      | .error e => .error e

end

/-- The body of `Union.deserialize` on a non-`None` Python value (used to
state facts about the union algorithm without case-splitting on the value's
constructor each time; `ctypDes_union_val` proves it is what `ctypDes`
computes). -/
def unionDesVal (variants : List (VarTyp × CNode)) (ns : Bool) (v : Value) :
    Except PyErr CV :=
  let primT := primLookup ns v.typeOf
  let tryPrim : Option CTyp :=
    match primT with
    | some pt =>
        if variants.any (fun p => primTypEq p.2.typ pt) then some pt else none
    | none => none
  match tryPrim with
  | some pt =>
      match primTypDes pt (.val v) with
      | .ok r => .ok r
      | .error (.invalid i) =>
          match unionLoopDes variants primT v [i] with
          | .error e => .error e
          | .ok (.ok w) => .ok (.val w)
          | .ok (.error errs) => .error (.invalid (.mk unionAggMsg (.val v) errs))
      | .error e => .error e
  | none =>
      match unionLoopDes variants primT v [] with
      | .error e => .error e
      | .ok (.ok w) => .ok (.val w)
      | .ok (.error errs) => .error (.invalid (.mk unionAggMsg (.val v) errs))

/-! ## Error iteration (`typeit/schema/errors.py`)

`Error.__iter__` delegates to `iter_invalid(validation_error, sample_data)`,
which walks `error.asdict().items()` — a flat list of `(dotted path, message)`
pairs — and re-traverses the original input along each path.  The embedding
takes the flattened pairs as the input interface of `iter_invalid`. -/

/-- `InvalidData` (errors.py line 12). -/
structure InvalidData where
  path : String
  reason : String
  sample : Option Value

/-- A path component after `int(x)` has been attempted: a list index or a
dict key (errors.py lines 46-52). -/
inductive PathKey where
  | ik (n : Int)
  | sk (s : String)

def toKey (x : String) : PathKey :=
  match pyParseInt x with
  | some n => .ik n
  | none => .sk x

/-- Python truthiness of a path component: `if not i: break` treats the int
`0` and the empty string as the root marker. -/
def keyFalsy : PathKey → Bool
  | .ik n => n == 0
  | .sk s => s == ""

/-- `str.split('.')` (empty pieces preserved, as in Python). -/
def splitDot (s : String) : List String :=
  go s.data []
where
  go : List Char → List Char → List String
    | [], acc => [String.mk acc.reverse]
    | '.' :: rest, acc => String.mk acc.reverse :: go rest []
    | c :: rest, acc => go rest (c :: acc)

/-- Python sequence indexing with negative-index wrap-around; out of range
raises `IndexError`. -/
def pyIndex {α : Type} (xs : List α) (n : Int) : Except PyErr α :=
  let i : Int := if n < 0 then n + xs.length else n
  if h : 0 ≤ i ∧ i.toNat < xs.length then .ok (xs.get ⟨i.toNat, h.2⟩)
  else .error .indexError

/-- `traversed_value[i]` with Python's exception taxonomy: missing dict keys
raise `KeyError`, out-of-range sequence indices raise `IndexError`, and
type-mismatched subscripts raise `TypeError`. -/
def pygetitem (v : Value) (k : PathKey) : Except PyErr Value :=
  match v, k with
  | .vdict kvs, .sk s =>
      (match kvs.lookup s with
       | some w => .ok w
       | none => .error .keyError)
  | .vdict _, .ik _ => .error .keyError
  | .vlist xs, .ik n => pyIndex xs n
  | .vlist _, .sk _ => .error .typeError
  | .vtuple xs, .ik n => pyIndex xs n
  | .vtuple _, .sk _ => .error .typeError
  | .vrecord _ fs, .ik n => pyIndex (fs.map (fun p => p.2)) n
  | .vrecord _ _, .sk _ => .error .typeError
  | .vstr s, .ik n => (pyIndex s.data n).map (fun c => .vstr (.mk [c]))
  | .vstr _, .sk _ => .error .typeError
  | .vbytes bs, .ik n => (pyIndex bs n).map (fun b => .vint b)
  | .vbytes _, .sk _ => .error .typeError
  | _, _ => .error .typeError

/-- `getattr(traversed_value, i)`: a non-string attribute name raises
`TypeError` (uncaught by `iter_invalid`); NamedTuple fields resolve; anything
else raises `AttributeError` (the tolerated case). -/
def pygetattrKey (v : Value) (k : PathKey) : Except PyErr Value :=
  match k with
  | .ik _ => .error .typeError
  | .sk s =>
      match pyGetattrStr v s with
      | some w => .ok w
      | none => .error .attributeError

/-- The traversal loop of `iter_invalid`: falsy components stop the walk at
the current value; `KeyError`/`TypeError` from subscription fall back to
`getattr` (on success the walk continues; `AttributeError` sets
`traversed_value = None` and stops, yielding `sample = None`); every other
exception (notably `IndexError`) propagates. -/
def walkPath (tv : Value) : List PathKey → Except PyErr (Option Value)
  | [] => .ok (some tv)
  | i :: rest =>
      if keyFalsy i then .ok (some tv)
      else
        match pygetitem tv i with
        | .ok w => walkPath w rest
        | .error .keyError =>
            (match pygetattrKey tv i with
             | .ok w => walkPath w rest
             | .error .attributeError => .ok none
             | .error e => .error e)
        | .error .typeError =>
            (match pygetattrKey tv i with
             | .ok w => walkPath w rest
             | .error .attributeError => .ok none
             | .error e => .error e)
        | .error e => .error e

/-- `iter_invalid` (errors.py lines 31-71) over the flattened
`error.asdict()` items, re-walking each reported path against the original
input.  The Python generator yields lazily; the embedding produces the whole
sequence, or the exception the walk raises. -/
def iterInvalid (entries : List (String × String)) (data : Value) :
    Except PyErr (List InvalidData) :=
  match entries with
  | [] => .ok []
  | pm :: rest =>
      match walkPath data ((splitDot pm.1).map toKey) with
      | .error e => .error e
      | .ok sample =>
          match iterInvalid rest data with
          | .error e => .error e
          | .ok l => .ok (⟨pm.1, pm.2, sample⟩ :: l)

/-! ## The dispatcher fragment

Direct translation of `typeit/parser/__init__.py` (`decide_node_type` and the
`PARSING_ORDER` recognizers applicable to the descriptor fragment) and
`typeit/combinator/constructor.py` (`_TypeConstructor`).  `Desc` covers the
descriptors needed by the construction-time claims: primitives, `Optional`,
forward references, tuples and records. -/

inductive Desc where
  | dAny
  | dInt
  | dBool
  | dStr
  | dFloat
  | dOpt (inner : Desc)
  | dFRef (name : String)
  | dTuple (elems : List Desc) (variadic : Bool)
  | dRec (typName : String) (fields : List (String × Desc))

mutual

/-- Identity/equality of type descriptors, as used for memoization keys
(Python type objects compare by identity; structurally equal descriptors model
the same type object). -/
def Desc.beq : Desc → Desc → Bool
  | .dAny, .dAny => true
  | .dInt, .dInt => true
  | .dBool, .dBool => true
  | .dStr, .dStr => true
  | .dFloat, .dFloat => true
  | .dOpt a, .dOpt b => Desc.beq a b
  | .dFRef a, .dFRef b => a == b
  | .dTuple xs u, .dTuple ys w => Desc.beqList xs ys && u == w
  | .dRec n fs, .dRec m gs => n == m && Desc.beqFields fs gs
  | _, _ => false

def Desc.beqList : List Desc → List Desc → Bool
  | [], [] => true
  | x :: xs, y :: ys => Desc.beq x y && Desc.beqList xs ys
  | _, _ => false

def Desc.beqFields : List (String × Desc) → List (String × Desc) → Bool
  | [], [] => true
  | (k, x) :: xs, (l, y) :: ys => k == l && Desc.beq x y && Desc.beqFields xs ys
  | _, _ => false

end

mutual
inductive FTyp where
  | anyT
  | intT (strict : Bool)
  | boolT (strict : Bool)
  | strT (strict : Bool)
  | floatT (strict : Bool)
  | bytesT (convs : List PyType)
  | unionT (variants : List (VarTyp × FNode)) (ns : Bool)
  | structureT (typName : String) (attrs : List String)
      (dOv : List (String × String)) (children : List FNode)
  | tupleT (children : List FNode)
  | frefT (ref : String)
inductive FNode where
  | mk (name : String) (typ : FTyp) (missing : Missing)
end

def FNode.name : FNode → String
  | .mk n _ _ => n

def FNode.typ : FNode → FTyp
  | .mk _ t _ => t

def FNode.missing : FNode → Missing
  | .mk _ _ m => m

def FNode.withName (n : FNode) (nm : String) : FNode :=
  .mk nm n.typ n.missing

def FNode.withMissing (n : FNode) (m : Missing) : FNode :=
  .mk n.name n.typ m

/-- The `var_type` recorded for a union variant (the type from the
signature). -/
def varTypOf : Desc → VarTyp
  | .dAny => .vtAny
  | .dInt => .vtInt
  | .dBool => .vtBool
  | .dStr => .vtStr
  | .dFloat => .vtFloat
  | .dOpt _ => .vtAny
  | .dFRef n => .vtFRef n
  | .dTuple _ _ => .vtAny
  | .dRec n _ => .vtRec n

/-! ### Overrides (`typeit/flags.py`, `typeit/combinator/*`)

An override set is a persistent map (`pyrsistent.pmap`) from heterogeneous
keys — flags, `(record type, field)` pairs, extended types — to values.  It is
modelled as a function to `Option`, with `set`/`update` as functional
updates. -/

inductive FlagK where
  | nonStrictPrimitives
  | sumTypeDict
  | globalNameOverride
  deriving DecidableEq

inductive OvKey where
  | flagK (f : FlagK)
  | fieldK (rn fld : String)
  | typeK (d : Desc)

def OvKey.beq : OvKey → OvKey → Bool
  | .flagK a, .flagK b => a == b
  | .fieldK r1 f1, .fieldK r2 f2 => r1 == r2 && f1 == f2
  | .typeK d1, .typeK d2 => Desc.beq d1 d2
  | _, _ => false

inductive OvVal where
  | boolV (b : Bool)
  | strV (s : String)
  | funV (g : String → String)
  | extV (n : FNode)

/-- `default_setting` of each flag (flags.py lines 38-44). -/
def flagDefault : FlagK → OvVal
  | .nonStrictPrimitives => .boolV true
  | .sumTypeDict => .strV "type"
  | .globalNameOverride => .funV id

def Overrides : Type := OvKey → Option OvVal

/-- `pmap.set`. -/
def psetOv (m : Overrides) (k : OvKey) (v : OvVal) : Overrides :=
  fun k' => if OvKey.beq k' k then some v else m k'

/-- A Python dict/pmap built from a list of entries (later entries win). -/
def pupdateFrom (base : Overrides) (entries : List (OvKey × OvVal)) : Overrides :=
  entries.foldl (fun acc p => psetOv acc p.1 p.2) base

/-- `pmap.update`: the right map's entries win; since every `upd` built by
`__and__` is a modification of a base map, a key is in `upd`'s support exactly
when `upd` yields `some`. -/
def updateOv (f g : Overrides) : Overrides :=
  fun k => match g k with
           | some v => some v
           | none => f k

def emptyOv : Overrides := fun _ => none

/-- One override argument (`OverrideT`): a flag, a flag called with a new
value, a `TypeExtension`, or a field-name mapping. -/
inductive Ov where
  | flagO (f : FlagK)
  | modFlagO (f : FlagK) (v : OvVal)
  | extO (t : Desc) (n : FNode)
  | mapO (m : List ((String × String) × String))

/-- The entries one override contributes (for stating the merge law). -/
def ovEntries : Ov → List (OvKey × OvVal)
  | .flagO f => [(.flagK f, flagDefault f)]
  | .modFlagO f v => [(.flagK f, v)]
  | .extO t n => [(.typeK t, .extV n)]
  | .mapO m => m.map (fun p => (.fieldK p.1.1 p.1.2, .strV p.2))

/-- Right-biased lookup in an entry list (later entries win, matching Python
dict construction). -/
def lookupPairs (l : List (OvKey × OvVal)) (k : OvKey) : Option OvVal :=
  l.foldl (fun acc p => if OvKey.beq k p.1 then some p.2 else acc) none

/-- `_TypeConstructor`: the accumulated override map and the memo cache
(both `pmap()` at `__init__`). -/
structure Ctor where
  overrides : Overrides
  memo : List (Desc × FNode)

/-- `_TypeConstructor.__and__` (constructor.py lines 59-82): normalize the
argument through `Combinator() & override` into a list of overrides, build
`upd` from `self.overrides` for each, fold with `pmap.update`, and return a
fresh constructor (whose `__init__` starts a fresh empty memo). -/
def andOp (c : Ctor) (combined : List Ov) : Ctor :=
  let overrides := combined.foldl
    (fun acc ov =>
      let upd : Overrides :=
        match ov with
        | .flagO f => psetOv c.overrides (.flagK f) (flagDefault f)
        | .modFlagO f v => psetOv c.overrides (.flagK f) v
        | .extO t n => psetOv c.overrides (.typeK t) (.extV n)
        | .mapO m =>
            pupdateFrom c.overrides
              (m.map (fun p => (OvKey.fieldK p.1.1 p.1.2, OvVal.strV p.2)))
      updateOv acc upd)
    emptyOv
  { overrides := overrides, memo := [] }

/-- Construction-time failures: `TypeError` raised by a recognizer (wrapped by
`__call__`), and `otherErr` for paths the runtime would crash on (an override
value that is not a `TypeExtension`) or for fuel exhaustion of the fixup loop
(modelling nontermination). -/
inductive BuildErr where
  | typeErr (msg : String)
  | otherErr

abbrev Memo := List (Desc × FNode)

/-- Forward-reference table: placeholder name ↦ resolved node (`None` until
the fixup loop fills it in). -/
abbrev Refs := List (String × Option FNode)

/-- Memo lookup by descriptor identity. -/
def mlookup (m : Memo) (d : Desc) : Option FNode :=
  match m with
  | [] => none
  | (k, n) :: rest => if Desc.beq d k then some n else mlookup rest d

/-- `get_global_name_overrider(overrides)`. -/
def getGlobal (ov : Overrides) : String → String :=
  match ov (.flagK .globalNameOverride) with
  | some (.funV g) => g
  | _ => id

mutual

/-- `decide_node_type` (parser, lines 643-670) restricted to the fragment:
consult the memo by descriptor identity, then run the `PARSING_ORDER`
recognizers (forward-ref, overridden, primitive, union, tuple, user type) and
memoize the built node.  Recursion is step-indexed by fuel (the Python
recursion is unbounded; fuel exhaustion is `otherErr`, and every claim is
stated either hypothetically in a successful run or at a concrete fuel that
suffices). -/
def decideD (fuel : Nat) (ov : Overrides) (memo : Memo) (refs : Refs)
    (d : Desc) : Except BuildErr (FNode × Memo × Refs) :=
  match fuel with
  | 0 => .error .otherErr
  | fuel' + 1 =>
      match mlookup memo d with
      | some n => .ok (n, memo, refs)
      | none =>
          match decideCore fuel' ov memo refs d with
          | .error e => .error e
          | .ok (n, memo', refs') => .ok (n, (d, n) :: memo', refs')

/-- The ordered recognizer chain (`PARSING_ORDER`), restricted to the
constructors of `Desc`.  `_maybe_node_for_forward_ref` fires first (and
re-registers the placeholder as unresolved); `_maybe_node_for_overridden`
fires next when the override set holds a `TypeExtension` for the descriptor;
then primitives, `Optional` (union), tuple, and the user-type fallback. -/
def decideCore (fuel : Nat) (ov : Overrides) (memo : Memo) (refs : Refs)
    (d : Desc) : Except BuildErr (FNode × Memo × Refs) :=
  match fuel with
  | 0 => .error .otherErr
  | fuel' + 1 =>
      match d with
      | .dFRef name =>
          .ok (.mk "" (.frefT name) .required, memo, dinsert refs name none)
      | _ =>
          match ov (.typeK d) with
          | some (.extV n) => .ok (n, memo, refs)
          | some _ => .error .otherErr
          | none =>
              let ns := (ov (.flagK .nonStrictPrimitives)).isSome
              match d with
              | .dFRef name =>
                  .ok (.mk "" (.frefT name) .required, memo,
                      dinsert refs name none)
              | .dAny => .ok (.mk "" .anyT .required, memo, refs)
              | .dInt => .ok (.mk "" (.intT (!ns)) .required, memo, refs)
              | .dBool => .ok (.mk "" (.boolT (!ns)) .required, memo, refs)
              | .dStr => .ok (.mk "" (.strT (!ns)) .required, memo, refs)
              | .dFloat => .ok (.mk "" (.floatT (!ns)) .required, memo, refs)
              | .dOpt inner =>
                  -- the `Optional[Any]`/`Union[None, Any]` special case of
                  -- `_maybe_node_for_union` (identity check on `typing.Any`)
                  if Desc.beq inner .dAny then
                    .ok (.mk "" .anyT (.miss .vnone), memo, refs)
                  else
                    match decideD fuel' ov memo refs inner with
                    | .error e => .error e
                    | .ok (n, memo', refs') =>
                        .ok (.mk ""
                              (.unionT [(varTypOf inner, n.withMissing (.miss .vnone))] ns)
                              (.miss .vnone),
                            memo', refs')
              | .dTuple elems variadic =>
                  if variadic then
                    .error (.typeErr "variable-length tuples are not supported by typeit")
                  else
                    match decideElems fuel' ov memo refs elems with
                    | .error e => .error e
                    | .ok (children, memo', refs') =>
                        .ok (.mk "" (.tupleT children) .required, memo', refs')
              | .dRec n fs =>
                  let g := getGlobal ov
                  match decideFields fuel' ov memo refs fs with
                  | .error e => .error e
                  | .ok (fnodes, memo', refs') =>
                      let wire := fun f =>
                        match ov (.fieldK n f) with
                        | some (.strV w) => w
                        | _ => g f
                      let dOvFull :=
                        fs.foldl (fun acc p => dinsert acc (wire p.1) p.1) []
                      let dOv :=
                        if fs.all (fun p => wire p.1 == p.1) then [] else dOvFull
                      let children := (fs.zip fnodes).map (fun pq =>
                        pq.2.withName
                          (if dOv.isEmpty then g pq.1.1 else wire pq.1.1))
                      .ok (.mk ""
                            (.structureT n (fs.map (fun p => p.1)) dOv children)
                            .required,
                          memo', refs')

def decideElems (fuel : Nat) (ov : Overrides) (memo : Memo) (refs : Refs) :
    List Desc → Except BuildErr (List FNode × Memo × Refs)
  | [] => .ok ([], memo, refs)
  | e :: rest =>
      match fuel with
      | 0 => .error .otherErr
      | fuel' + 1 =>
          match decideD fuel' ov memo refs e with
          | .error err => .error err
          | .ok (n, memo', refs') =>
              match decideElems fuel' ov memo' refs' rest with
              | .error err => .error err
              | .ok (ns', memo'', refs'') => .ok (n :: ns', memo'', refs'')

def decideFields (fuel : Nat) (ov : Overrides) (memo : Memo) (refs : Refs) :
    List (String × Desc) → Except BuildErr (List FNode × Memo × Refs)
  | [] => .ok ([], memo, refs)
  | (_, fd) :: rest =>
      match fuel with
      | 0 => .error .otherErr
      | fuel' + 1 =>
          match decideD fuel' ov memo refs fd with
          | .error err => .error err
          | .ok (n, memo', refs') =>
              match decideFields fuel' ov memo' refs' rest with
              | .error err => .error err
              | .ok (ns', memo'', refs'') => .ok (n :: ns', memo'', refs'')

end

/-- One pass of the fixup loop body: for each currently-unresolved reference,
point it at the main node when the `ForwardRef` carries no resolved value
(`__forward_value__ is None`), otherwise re-resolve its target descriptor
through the dispatcher, sharing the memo. -/
def resolveRefs (fuel : Nat) (env : List (String × Desc)) (ov : Overrides)
    (main : FNode) :
    List String → Memo → Refs → Except BuildErr (Memo × Refs)
  | [], m, r => .ok (m, r)
  | ref :: rest, m, r =>
      match env.lookup ref with
      | none => resolveRefs fuel env ov main rest m (dinsert r ref (some main))
      | some target =>
          match decideD fuel ov m r target with
          | .error e => .error e
          | .ok (node, m', r') =>
              resolveRefs fuel env ov main rest m' (dinsert r' ref (some node))

/-- The `while True` fixup loop of `_TypeConstructor.__call__` (lines 41-51):
repeat until no placeholder is unresolved.  Fuel models the unbounded loop;
running out is reported as `otherErr` (the Python loop would spin forever). -/
def refLoop (fuel : Nat) (env : List (String × Desc)) (ov : Overrides)
    (main : FNode) (memo : Memo) (refs : Refs) :
    Except BuildErr (Memo × Refs) :=
  match fuel with
  | 0 => .error .otherErr
  | fuel' + 1 =>
      let unresolved := (refs.filter (fun p => p.2.isNone)).map (fun p => p.1)
      if unresolved.isEmpty then .ok (memo, refs)
      else
        match resolveRefs fuel' env ov main unresolved memo refs with
        | .error e => .error e
        | .ok (memo', refs') => refLoop fuel' env ov main memo' refs'

/-- `_TypeConstructor.__call__` (constructor.py lines 25-57): a fresh (empty)
forward-reference table per call, dispatch on the root descriptor, run the
fixup loop, then store the final memo back on the constructor
(`self.memo = memo`) and hand out the root node (whose bound
deserialize/serialize the returned closures wrap). -/
def callF (fuel : Nat) (env : List (String × Desc)) (ov : Overrides)
    (c : Ctor) (d : Desc) : Except BuildErr (FNode × Refs × Ctor) :=
  match decideD fuel ov c.memo [] d with
  | .error (.typeErr m) =>
      .error (.typeErr ("Cannot create a type constructor: " ++ m))
  | .error e => .error e
  | .ok (root, memo1, refs1) =>
      match refLoop fuel env ov root memo1 refs1 with
      | .error e => .error e
      | .ok (memo2, refs2) =>
          .ok (root, refs2, { overrides := c.overrides, memo := memo2 })

/-- `_TypeConstructor.__xor__` / `apply_on`: apply the constructor with its
own accumulated overrides. -/
def applyOnF (fuel : Nat) (env : List (String × Desc)) (c : Ctor) (d : Desc) :
    Except BuildErr (FNode × Refs × Ctor) :=
  callF fuel env c.overrides c d

/-! ### Evaluation of dispatcher-built nodes

The same node semantics as the `CNode` evaluator, extended with tuple schemas
and forward-reference nodes; the latter make evaluation recursive through the
forward-reference table, so the evaluator is step-indexed by fuel (fuel
exhaustion is the `otherErr`-like `typeError`; every claim evaluates at a
concrete sufficient fuel). -/

def primLookupF (nonStrict : Bool) : PyType → Option FTyp
  | .pyint => some (.intT (!nonStrict))
  | .pybool => some (.boolT (!nonStrict))
  | .pystr => some (.strT (!nonStrict))
  | .pyfloat => some (.floatT (!nonStrict))
  | .pybytes => some (.bytesT (if nonStrict then bytesDefaultConvs else [.pybytes]))
  | _ => none

def primTypEqF : FTyp → FTyp → Bool
  | .anyT, .anyT => true
  | .intT a, .intT b => a == b
  | .boolT a, .boolT b => a == b
  | .strT a, .strT b => a == b
  | .floatT a, .floatT b => a == b
  | .bytesT a, .bytesT b => a == b
  | _, _ => false

def skipMatchF (skip : Option FTyp) (t : FTyp) : Bool :=
  match skip with
  | some pt => primTypEqF t pt
  | none => false

def primTypDesF (t : FTyp) (c : CV) : Except PyErr CV :=
  match t with
  | .anyT => anyDes c
  | .intT s => intDes s c
  | .boolT s => boolDes s c
  | .strT s => strDes s c
  | .floatT s => floatDes s c
  | .bytesT convs => bytesConv convs c
  | _ => .error .typeError

def primTypSerF (t : FTyp) (c : CV) : Except PyErr CV :=
  match t with
  | .anyT => anySer c
  | .intT s => intSer s c
  | .boolT s => boolSer s c
  | .strT s => strSer s c
  | .floatT s => floatSer s c
  | .bytesT convs => bytesConv convs c
  | _ => .error .typeError

mutual

/-- Node-level deserialize (colander `SchemaNode.deserialize` with `missing`
substitution), dispatcher-built nodes. -/
def evalDes (fuel : Nat) (refs : Refs) (n : FNode) (c : CV) :
    Except PyErr Value :=
  match fuel with
  | 0 => .error .typeError
  | fuel' + 1 =>
      match evalTypDes fuel' refs n.typ c with
      | .error e => .error e
      | .ok (.val v) => .ok v
      | .ok .null =>
          match n.missing with
          | .required => .error (.invalid (.mk "Required" .null []))
          | .miss v => .ok v

def evalTypDes (fuel : Nat) (refs : Refs) (t : FTyp) (c : CV) :
    Except PyErr CV :=
  match fuel with
  | 0 => .error .typeError
  | fuel' + 1 =>
      match t with
      | .anyT => anyDes c
      | .intT s => intDes s c
      | .boolT s => boolDes s c
      | .strT s => strDes s c
      | .floatT s => floatDes s c
      | .bytesT convs => bytesConv convs c
      | .frefT name =>
          -- `ForwardReferenceType.deserialize`: call-time registry lookup,
          -- delegating to the target node's own deserialize
          (match refs.lookup name with
           | some (some target) =>
               match evalDes fuel' refs target c with
               | .ok v => .ok (.val v)
               | .error e => .error e
           | some none => .error .attributeError
           | none => .error .keyError)
      | .unionT variants ns =>
          match c with
          | .null => .ok .null
          | .val .vnone => .ok (.val .vnone)
          | .val v =>
              let primT := primLookupF ns v.typeOf
              let tryPrim : Option FTyp :=
                match primT with
                | some pt =>
                    if variants.any (fun p => primTypEqF p.2.typ pt) then some pt
                    else none
                | none => none
              match tryPrim with
              | some pt =>
                  match primTypDesF pt c with
                  | .ok r => .ok r
                  | .error (.invalid i) =>
                      (match evalUnionLoopDes fuel' refs variants primT v [i] with
                       | .error e => .error e
                       | .ok (.ok w) => .ok (.val w)
                       | .ok (.error errs) =>
                           .error (.invalid (.mk unionAggMsg c errs)))
                  | .error e => .error e
              | none =>
                  match evalUnionLoopDes fuel' refs variants primT v [] with
                  | .error e => .error e
                  | .ok (.ok w) => .ok (.val w)
                  | .ok (.error errs) =>
                      .error (.invalid (.mk unionAggMsg c errs))
      | .structureT tn attrs dOv children =>
          match c with
          | .null => .ok .null
          | .val (.vdict kvs) =>
              (match evalStructChildrenDes fuel' refs children kvs [] [] with
               | .error e => .error e
               | .ok (res, []) =>
                   let kwargs :=
                     res.foldl
                       (fun acc p => dinsert acc ((dOv.lookup p.1).getD p.1) p.2) []
                   (match constructRecord tn attrs kwargs with
                    | .ok v => .ok (.val v)
                    | .error e => .error e)
               | .ok (_, errs) => .error (.invalid (.mk "" c errs)))
          | .val _ => .error (.invalid (.mk "is not a mapping type" c []))
      | .tupleT children =>
          -- colander Tuple (Positional): sequence shape and exact arity
          match c with
          | .null => .ok .null
          | .val (.vlist xs) =>
              (if xs.length = children.length then
                match evalTupleChildrenDes fuel' refs children xs [] [] with
                | .error e => .error e
                | .ok (res, []) => .ok (.val (.vtuple res))
                | .ok (_, errs) => .error (.invalid (.mk "" c errs))
              else .error (.invalid (.mk "has an incorrect number of elements" c [])))
          | .val (.vtuple xs) =>
              (if xs.length = children.length then
                match evalTupleChildrenDes fuel' refs children xs [] [] with
                | .error e => .error e
                | .ok (res, []) => .ok (.val (.vtuple res))
                | .ok (_, errs) => .error (.invalid (.mk "" c errs))
              else .error (.invalid (.mk "has an incorrect number of elements" c [])))
          | .val _ => .error (.invalid (.mk "is not iterable" c []))

def evalUnionLoopDes (fuel : Nat) (refs : Refs) (vars : List (VarTyp × FNode))
    (skip : Option FTyp) (v : Value) (acc : List Inv) :
    Except PyErr (Except (List Inv) Value) :=
  match fuel with
  | 0 => .error .typeError
  | fuel' + 1 =>
      match vars with
      | [] => .ok (.error acc)
      | (_, vn) :: rest =>
          if skipMatchF skip vn.typ then
            evalUnionLoopDes fuel' refs rest skip v acc
          else
            match evalDes fuel' refs vn (.val v) with
            | .ok w => .ok (.ok w)
            | .error (.invalid i) => evalUnionLoopDes fuel' refs rest skip v (acc ++ [i])
            | .error e => .error e

def evalStructChildrenDes (fuel : Nat) (refs : Refs) (children : List FNode)
    (kvs : List (String × Value)) (res : List (String × Value))
    (errs : List Inv) :
    Except PyErr (List (String × Value) × List Inv) :=
  match fuel with
  | 0 => .error .typeError
  | fuel' + 1 =>
      match children with
      | [] => .ok (res, errs)
      | ch :: rest =>
          let subval : CV :=
            match kvs.lookup ch.name with
            | some w => .val w
            | none => .null
          match evalDes fuel' refs ch subval with
          | .ok w => evalStructChildrenDes fuel' refs rest kvs (dinsert res ch.name w) errs
          | .error (.invalid i) => evalStructChildrenDes fuel' refs rest kvs res (errs ++ [i])
          | .error e => .error e

def evalTupleChildrenDes (fuel : Nat) (refs : Refs) (children : List FNode)
    (xs : List Value) (res : List Value) (errs : List Inv) :
    Except PyErr (List Value × List Inv) :=
  match fuel with
  | 0 => .error .typeError
  | fuel' + 1 =>
      match children, xs with
      | [], _ => .ok (res, errs)
      | _, [] => .ok (res, errs)
      | ch :: crest, x :: xrest =>
          match evalDes fuel' refs ch (.val x) with
          | .ok w => evalTupleChildrenDes fuel' refs crest xrest (res ++ [w]) errs
          | .error (.invalid i) => evalTupleChildrenDes fuel' refs crest xrest res (errs ++ [i])
          | .error e => .error e

end

mutual

/-- Node-level serialize for dispatcher-built nodes. -/
def evalSer (fuel : Nat) (refs : Refs) (n : FNode) (c : CV) :
    Except PyErr CV :=
  match fuel with
  | 0 => .error .typeError
  | fuel' + 1 => evalTypSer fuel' refs n.typ c

def evalTypSer (fuel : Nat) (refs : Refs) (t : FTyp) (c : CV) :
    Except PyErr CV :=
  match fuel with
  | 0 => .error .typeError
  | fuel' + 1 =>
      match t with
      | .anyT => anySer c
      | .intT s => intSer s c
      | .boolT s => boolSer s c
      | .strT s => strSer s c
      | .floatT s => floatSer s c
      | .bytesT convs => bytesConv convs c
      | .frefT name =>
          (match refs.lookup name with
           | some (some target) => evalSer fuel' refs target c
           | some none => .error .attributeError
           | none => .error .keyError)
      | .unionT variants ns =>
          match c with
          | .null => .ok (.val .vnone)
          | .val .vnone => .ok (.val .vnone)
          | .val v =>
              let primT := primLookupF ns v.typeOf
              let tryPrim : Option FTyp :=
                match primT with
                | some pt =>
                    if variants.any (fun p => primTypEqF p.2.typ pt) then some pt
                    else none
                | none => none
              match tryPrim with
              | some pt =>
                  match primTypSerF pt c with
                  | .ok r => .ok r
                  | .error (.invalid _) =>
                      (match evalUnionLoopSer fuel' refs variants primT v [] with
                       | .error e => .error e
                       | .ok (.ok w) => .ok w
                       | .ok (.error _) =>
                           .error (.invalid
                             (.mk "None of the expected variants matches provided structure" c [])))
                  | .error e => .error e
              | none =>
                  match evalUnionLoopSer fuel' refs variants primT v [] with
                  | .error e => .error e
                  | .ok (.ok w) => .ok w
                  | .ok (.error _) =>
                      .error (.invalid
                        (.mk "None of the expected variants matches provided structure" c []))
      | .structureT _tn attrs dOv children =>
          match c with
          | .null =>
              (match evalStructChildrenSer fuel' refs children [] [] [] with
               | .error e => .error e
               | .ok (res, []) => .ok (.val (.vdict res))
               | .ok (_, errs) => .error (.invalid (.mk "" c errs)))
          | .val v =>
              match structAppDict v dOv attrs [] with
              | .error e => .error e
              | .ok appdict =>
                  match evalStructChildrenSer fuel' refs children appdict [] [] with
                  | .error e => .error e
                  | .ok (res, []) => .ok (.val (.vdict res))
                  | .ok (_, errs) => .error (.invalid (.mk "" c errs))
      | .tupleT children =>
          match c with
          | .null => .ok .null
          | .val (.vtuple xs) =>
              (if xs.length = children.length then
                match evalTupleChildrenSer fuel' refs children xs [] [] with
                | .error e => .error e
                | .ok (res, []) => .ok (.val (.vlist res))
                | .ok (_, errs) => .error (.invalid (.mk "" c errs))
              else .error (.invalid (.mk "has an incorrect number of elements" c [])))
          | .val (.vlist xs) =>
              (if xs.length = children.length then
                match evalTupleChildrenSer fuel' refs children xs [] [] with
                | .error e => .error e
                | .ok (res, []) => .ok (.val (.vlist res))
                | .ok (_, errs) => .error (.invalid (.mk "" c errs))
              else .error (.invalid (.mk "has an incorrect number of elements" c [])))
          | .val _ => .error (.invalid (.mk "is not iterable" c []))

/-- The variant loop of `Union.serialize` over dispatcher-built nodes: the
`TypedMapping` and `SequenceSchema` branches have no node kinds in this
fragment; `TupleSchema` variants serialize tuple-shaped values; all other
variants use the runtime-type matching criterion. -/
def evalUnionLoopSer (fuel : Nat) (refs : Refs) (vars : List (VarTyp × FNode))
    (skip : Option FTyp) (v : Value) (acc : List Inv) :
    Except PyErr (Except (List Inv) CV) :=
  match fuel with
  | 0 => .error .typeError
  | fuel' + 1 =>
      match vars with
      | [] => .ok (.error acc)
      | (vt, vn) :: rest =>
          if skipMatchF skip vn.typ then
            evalUnionLoopSer fuel' refs rest skip v acc
          else
            match vn.typ with
            | .tupleT _ =>
                (match v with
                 | .vtuple _ =>
                     (match evalSer fuel' refs vn (.val v) with
                      | .ok w => .ok (.ok w)
                      | .error (.invalid i) =>
                          evalUnionLoopSer fuel' refs rest skip v (acc ++ [i])
                      | .error e => .error e)
                 | _ => evalUnionLoopSer fuel' refs rest skip v acc)
            | _ =>
                if varMatches vt v then
                  match evalSer fuel' refs vn (.val v) with
                  | .ok w => .ok (.ok w)
                  | .error (.invalid i) =>
                      evalUnionLoopSer fuel' refs rest skip v (acc ++ [i])
                  | .error e => .error e
                else
                  evalUnionLoopSer fuel' refs rest skip v acc

def evalStructChildrenSer (fuel : Nat) (refs : Refs) (children : List FNode)
    (kvs : List (String × Value)) (res : List (String × Value))
    (errs : List Inv) :
    Except PyErr (List (String × Value) × List Inv) :=
  match fuel with
  | 0 => .error .typeError
  | fuel' + 1 =>
      match children with
      | [] => .ok (res, errs)
      | ch :: rest =>
          let subval : CV :=
            match kvs.lookup ch.name with
            | some w => .val w
            | none => .null
          match evalSer fuel' refs ch subval with
          | .ok w => evalStructChildrenSer fuel' refs rest kvs (dinsert res ch.name w.toVal) errs
          | .error (.invalid i) => evalStructChildrenSer fuel' refs rest kvs res (errs ++ [i])
          | .error e => .error e

def evalTupleChildrenSer (fuel : Nat) (refs : Refs) (children : List FNode)
    (xs : List Value) (res : List Value) (errs : List Inv) :
    Except PyErr (List Value × List Inv) :=
  match fuel with
  | 0 => .error .typeError
  | fuel' + 1 =>
      match children, xs with
      | [], _ => .ok (res, errs)
      | _, [] => .ok (res, errs)
      | ch :: crest, x :: xrest =>
          match evalSer fuel' refs ch (.val x) with
          | .ok w =>
              evalTupleChildrenSer fuel' refs crest xrest (res ++ [w.toVal]) errs
          | .error (.invalid i) =>
              evalTupleChildrenSer fuel' refs crest xrest res (errs ++ [i])
          | .error e => .error e

end

/-- A fresh `_TypeConstructor()` (no overrides, empty memo). -/
def ctorEmpty : Ctor := { overrides := emptyOv, memo := [] }

/-- `Tree{left: Optional[Tree], right: Optional[Tree], value: Any}` with
self-references through `ForwardRef('Tree')`. -/
def treeDesc : Desc :=
  .dRec "Tree"
    [("left", .dOpt (.dFRef "Tree")),
     ("right", .dOpt (.dFRef "Tree")),
     ("value", .dAny)]

/-- The module environment in which `ForwardRef('Tree')` evaluates
(`__forward_value__` resolves to the `Tree` class itself). -/
def treeEnv : List (String × Desc) := [("Tree", treeDesc)]

/-- The raw input of the recursive-type scenario. -/
def rawTree : Value :=
  .vdict
    [("left", .vdict [("left", .vnone), ("right", .vnone), ("value", .vint 1)]),
     ("right", .vnone), ("value", .vint 0)]

/-- The expected decoded two-level tree. -/
def treeVal : Value :=
  .vrecord "Tree"
    [("left", .vrecord "Tree"
        [("left", .vnone), ("right", .vnone), ("value", .vint 1)]),
     ("right", .vnone), ("value", .vint 0)]

/-- The union `Union[str, int, float]` built with strict primitives (the
default): three variants in declared order, each a registry primitive. -/
def strIntFloat : List (VarTyp × CNode) :=
  [(.vtStr, .mk "" (.strT true) .required),
   (.vtInt, .mk "" (.intT true) .required),
   (.vtFloat, .mk "" (.floatT true) .required)]

/-! ## Round-trip statement vocabulary (claim C1)

`pyEq` models Python `==` on the values the codecs exchange (dict equality is
key-set plus per-key value equality, insertion order ignored; numeric
cross-type equality as in CPython).  `conforms1` is the set of appstruct
values a `Desc1` schema accepts, `wf1` the well-formedness of a schema/override
configuration, and `exactKeys1` the raw inputs that carry exactly the wire
keys of every record level. -/

/-- Key-set inclusion between association lists (helper of dict equality). -/
def keysSubB (b a : List (String × Value)) : Bool :=
  b.all (fun q => a.any (fun p => p.1 == q.1))

mutual

/-- Python `==` on runtime values, on the wire-value fragment the codecs
exchange (scalars, `None`, byte strings, lists/tuples and dicts; dict
equality is key-set plus per-key value equality with insertion order ignored,
numeric cross-type equality as in CPython).  NamedTuple instances never occur
inside raw wire structures in this fragment, so they are left to the
catch-all. -/
def pyEq : Value → Value → Bool
  | .vnone, .vnone => true
  | .vcolnull, .vcolnull => true
  | .vbool a, .vbool b => a == b
  | .vbool a, .vint m => (if a then (1 : Int) else 0) == m
  | .vbool a, .vfloat q => ((if a then (1 : Int) else 0) : Rat) == q
  | .vint n, .vint m => n == m
  | .vint n, .vbool b => n == (if b then (1 : Int) else 0)
  | .vint n, .vfloat q => ((n : Rat)) == q
  | .vfloat p, .vfloat q => p == q
  | .vfloat p, .vint m => p == ((m : Rat))
  | .vfloat p, .vbool b => p == (((if b then (1 : Int) else 0)) : Rat)
  | .vstr a, .vstr b => a == b
  | .vbytes a, .vbytes b => a == b
  | .vlist a, .vlist b => pyEqList a b
  | .vtuple a, .vtuple b => pyEqList a b
  | .vdict a, .vdict b => pyEqDictSub a b && keysSubB b a
  | _, _ => false

def pyEqList : List Value → List Value → Bool
  | [], [] => true
  | x :: xs, y :: ys => pyEq x y && pyEqList xs ys
  | _, _ => false

/-- Forward dict inclusion: every entry of `a` is matched by key in `b`. -/
def pyEqDictSub : List (String × Value) → List (String × Value) → Bool
  | [], _ => true
  | (k, v) :: rest, b =>
      (match b.lookup k with
       | some w => pyEq v w
       | none => false)
      && pyEqDictSub rest b

end

mutual

/-- The appstruct values accepted by a `Desc1` schema: exact runtime types
for the primitives, `None` also allowed for `Optional[int]`, and NamedTuple
instances with the declared fields in declaration order. -/
def conforms1 : Desc1 → Value → Bool
  | .d1Int, .vint _ => true
  | .d1Bool, .vbool _ => true
  | .d1OptInt, .vint _ => true
  | .d1OptInt, .vnone => true
  | .d1Rec tn fs, .vrecord tn2 fvs => tn == tn2 && fieldsConform1 fs fvs
  | _, _ => false

def fieldsConform1 : List (String × Desc1) → List (String × Value) → Bool
  | [], [] => true
  | (f, fd) :: rest, (f2, v) :: rest2 =>
      f == f2 && conforms1 fd v && fieldsConform1 rest rest2
  | _, _ => false

end

/-- No duplicates in a list of names. -/
def nodupB : List String → Bool
  | [] => true
  | k :: ks => !(ks.any (fun x => x == k)) && nodupB ks

/-- The serialized (wire) name of a record field: the per-field override if
present, otherwise the global transform. -/
def wireName (ov : FieldOv) (g : String → String) (tn f : String) : String :=
  ((ov.lookup (tn, f)).getD (g f))

/-- The `deserialize_overrides` map built by `_maybe_node_for_user_type`
(discarded when it is the identity on the field names). -/
def dOvOf (ov : FieldOv) (g : String → String) (tn : String)
    (fs : List (String × Desc1)) : List (String × String) :=
  if fs.all (fun p => wireName ov g tn p.1 == p.1) then []
  else fs.foldl (fun acc p => dinsert acc (wireName ov g tn p.1) p.1) []

mutual

/-- Well-formedness of a schema/override configuration: distinct field names,
distinct wire names, and — because the identity-discard optimisation drops
`deserialize_overrides` while the children are still renamed with the global
transform alone — whenever every wire name equals its field name, the global
transform must also be the identity on those fields. -/
def wf1 (ov : FieldOv) (g : String → String) : Desc1 → Bool
  | .d1Int => true
  | .d1Bool => true
  | .d1OptInt => true
  | .d1Rec tn fs =>
      nodupB (fs.map (fun p => p.1))
      && nodupB (fs.map (fun p => wireName ov g tn p.1))
      && (if fs.all (fun p => wireName ov g tn p.1 == p.1)
          then fs.all (fun p => g p.1 == p.1) else true)
      && wfFields1 ov g fs

def wfFields1 (ov : FieldOv) (g : String → String) :
    List (String × Desc1) → Bool
  | [] => true
  | (_, fd) :: rest => wf1 ov g fd && wfFields1 ov g rest

end

mutual

/-- Raw inputs carrying exactly the wire keys of every record level: no
unknown keys, no duplicate keys, every wire key present (recursively). -/
def exactKeys1 (ov : FieldOv) (g : String → String) : Desc1 → Value → Bool
  | .d1Int, _ => true
  | .d1Bool, _ => true
  | .d1OptInt, _ => true
  | .d1Rec tn fs, .vdict kvs =>
      nodupB (kvs.map (fun p => p.1))
      && kvs.all (fun q =>
           (fs.map (fun p => wireName ov g tn p.1)).any (fun w => w == q.1))
      && exactKeysF ov g tn fs kvs
  | .d1Rec _ _, _ => false

def exactKeysF (ov : FieldOv) (g : String → String) (tn : String) :
    List (String × Desc1) → List (String × Value) → Bool
  | [], _ => true
  | (f, fd) :: rest, kvs =>
      (match kvs.lookup (wireName ov g tn f) with
       | some rv => exactKeys1 ov g fd rv
       | none => false)
      && exactKeysF ov g tn rest kvs

end

/-! ### Aligned-list predicates used to state the loop lemmas -/

/-- Pointwise lookups: the `i`-th key resolves to the `i`-th value in `kvs`. -/
def lookAll (kvs : List (String × Value)) : List String → List Value → Prop
  | [], [] => True
  | k :: ks, v :: vs => kvs.lookup k = some v ∧ lookAll kvs ks vs
  | _, _ => False

/-- Pointwise node serialization facts. -/
def serAll : List CNode → List Value → List Value → Prop
  | [], [], [] => True
  | c :: cs, w :: ws, r :: rs =>
      cnodeSer c (.val w) = .ok (.val r) ∧ serAll cs ws rs
  | _, _, _ => False

/-- Pointwise node deserialization facts. -/
def desAll : List CNode → List Value → List Value → Prop
  | [], [], [] => True
  | c :: cs, r :: rs, v :: vs =>
      cnodeDes c (.val r) = .ok v ∧ desAll cs rs vs
  | _, _, _ => False

/-- Pointwise Python equality. -/
def pyEqAll : List Value → List Value → Prop
  | [], [] => True
  | a :: as', b :: bs => pyEq a b = true ∧ pyEqAll as' bs
  | _, _ => False

/-- Pointwise exact-keys facts for field raw values. -/
def ekAll (ov : FieldOv) (g : String → String) :
    List (String × Desc1) → List Value → Prop
  | [], [] => True
  | (_, fd) :: rest, r :: rs => exactKeys1 ov g fd r = true ∧ ekAll ov g rest rs
  | _, _ => False

/-- Pointwise field round trips: each field value serializes to the matching
raw value, which deserializes back to the field value. -/
def fieldsRT (ov : FieldOv) (g : String → String) :
    List (String × Desc1) → List (String × Value) → List Value → Prop
  | [], [], [] => True
  | (_, fd) :: fs, (_, v) :: fvs, r :: rs =>
      cnodeSer (mkCNode ov g false fd) (.val v) = .ok (.val r)
      ∧ cnodeDes (mkCNode ov g false fd) (.val r) = .ok v
      ∧ fieldsRT ov g fs fvs rs
  | _, _, _ => False

/-! ## Theorems -/

theorem ctypDes_union_val (variants : List (VarTyp × CNode)) (ns : Bool)
    (v : Value) (hv : v ≠ .vnone) :
    ctypDes (.unionT variants ns) (.val v) = unionDesVal variants ns v := by
  cases v <;> first
    | exact absurd rfl hv
    | rfl

/-- The `remaining_variants` loop returns the first variant that deserializes
successfully, skipping variants whose schema type is the registry primitive
and collecting the `Invalid` errors of the failing variants before it. -/
theorem unionLoopDes_first_ok (pre : List (VarTyp × CNode)) (vt : VarTyp)
    (n : CNode) (post : List (VarTyp × CNode)) (skip : Option CTyp) (v : Value)
    (w : Value) (acc : List Inv)
    (hskip : ∀ p ∈ pre ++ (vt, n) :: post, skipMatch skip p.2.typ = false)
    (hpre : ∀ p ∈ pre, ∃ e, cnodeDes p.2 (.val v) = .error (.invalid e))
    (hok : cnodeDes n (.val v) = .ok w) :
    unionLoopDes (pre ++ (vt, n) :: post) skip v acc = .ok (.ok w) := by
  induction pre generalizing acc with
  | nil =>
      have h0 := hskip (vt, n) (by simp)
      simp [unionLoopDes, h0, hok]
  | cons p rest ih =>
      obtain ⟨e, he⟩ := hpre p (by simp)
      have h0 := hskip p (by simp)
      obtain ⟨vt0, n0⟩ := p
      simp only [List.cons_append, unionLoopDes, h0, Bool.false_eq_true, if_false, he]
      exact ih (acc ++ [e]) (fun q hq => hskip q (List.mem_cons_of_mem _ hq))
        (fun q hq => hpre q (List.mem_cons_of_mem _ hq))

/-- When every non-skipped variant fails with `Invalid`, the loop returns all
the collected sub-errors in declared order. -/
theorem unionLoopDes_exhaust (variants : List (VarTyp × CNode))
    (skip : Option CTyp) (v : Value) (acc es : List Inv)
    (hm : (variants.filter (fun p => !skipMatch skip p.2.typ)).mapM
          (fun p => match cnodeDes p.2 (.val v) with
                    | .error (.invalid e) => some e
                    | _ => none) = some es) :
    unionLoopDes variants skip v acc = .ok (.error (acc ++ es)) := by
  induction variants generalizing acc es with
  | nil =>
      simp only [List.filter_nil, List.mapM_nil, Option.pure_def,
        Option.some.injEq] at hm
      simp [unionLoopDes, ← hm]
  | cons p rest ih =>
      obtain ⟨vt0, n0⟩ := p
      cases hsk : skipMatch skip n0.typ with
      | true =>
          simp only [List.filter_cons, hsk, Bool.not_true, Bool.false_eq_true,
            if_false] at hm
          simp only [unionLoopDes, hsk, if_true]
          exact ih acc es hm
      | false =>
          simp only [List.filter_cons, hsk, Bool.not_false, if_true,
            List.mapM_cons] at hm
          cases hdes : cnodeDes n0 (.val v) with
          | ok w => simp [hdes] at hm
          | error e =>
              cases e with
              | invalid i =>
                  simp only [hdes, Option.pure_def, Option.bind_eq_bind,
                    Option.bind_eq_some, Option.some.injEq] at hm
                  obtain ⟨e1, he1, es2, hes2, hcons⟩ := hm
                  subst he1
                  rw [← hcons]
                  simp only [unionLoopDes, hsk, Bool.false_eq_true, if_false, hdes]
                  have := ih (acc ++ [i]) es2 hes2
                  simpa [List.append_assoc] using this
              | typeError => simp [hdes] at hm
              | valueError => simp [hdes] at hm
              | indexError => simp [hdes] at hm
              | keyError => simp [hdes] at hm
              | attributeError => simp [hdes] at hm

/-- C2: the `Union.deserialize` algorithm.
(1) If the raw value's runtime type has a registry primitive that is among the
    union's variant schema types, that primitive's decode is tried first and
    its result is returned on success.
(2) Otherwise every remaining variant is tried in declared order and the first
    successful node decode is returned (variants before it may fail with
    `Invalid`).
(3) If no variant succeeds, decode fails with a single aggregated `Invalid`
    that carries the sub-error of every attempted variant, in order.
(4) Concretely, `Union[str, int, float]` decodes any float as `float`, any int
    as `int` and any string as `str`. -/
theorem c2_union_decode_algorithm :
    (∀ (variants : List (VarTyp × CNode)) (ns : Bool) (v : Value) (pt : CTyp) (w : CV),
        primLookup ns v.typeOf = some pt →
        variants.any (fun p => primTypEq p.2.typ pt) = true →
        primTypDes pt (.val v) = .ok w →
        ctypDes (.unionT variants ns) (.val v) = .ok w)
  ∧ (∀ (pre post : List (VarTyp × CNode)) (vt : VarTyp) (n : CNode) (ns : Bool)
        (v : Value) (w : Value),
        v ≠ .vnone →
        (∀ pt, primLookup ns v.typeOf = some pt →
          (pre ++ (vt, n) :: post).any (fun p => primTypEq p.2.typ pt) = false) →
        (∀ p ∈ pre, ∃ e, cnodeDes p.2 (.val v) = .error (.invalid e)) →
        cnodeDes n (.val v) = .ok w →
        ctypDes (.unionT (pre ++ (vt, n) :: post) ns) (.val v) = .ok (.val w))
  ∧ (∀ (variants : List (VarTyp × CNode)) (ns : Bool) (v : Value) (es : List Inv),
        v ≠ .vnone →
        (∀ pt, primLookup ns v.typeOf = some pt →
          variants.any (fun p => primTypEq p.2.typ pt) = false) →
        variants.mapM (fun p => match cnodeDes p.2 (.val v) with
          | .error (.invalid e) => some e
          | _ => none) = some es →
        ctypDes (.unionT variants ns) (.val v)
          = .error (.invalid (.mk unionAggMsg (.val v) es)))
  ∧ (∀ q : Rat,
      ctypDes (.unionT strIntFloat false) (.val (.vfloat q)) = .ok (.val (.vfloat q)))
  ∧ (∀ n : Int,
      ctypDes (.unionT strIntFloat false) (.val (.vint n)) = .ok (.val (.vint n)))
  ∧ (∀ s : String,
      ctypDes (.unionT strIntFloat false) (.val (.vstr s)) = .ok (.val (.vstr s))) := by
  have part1 : ∀ (variants : List (VarTyp × CNode)) (ns : Bool) (v : Value)
      (pt : CTyp) (w : CV),
      primLookup ns v.typeOf = some pt →
      variants.any (fun p => primTypEq p.2.typ pt) = true →
      primTypDes pt (.val v) = .ok w →
      ctypDes (.unionT variants ns) (.val v) = .ok w := by
    intro variants ns v pt w hlk hany hdes
    have hv : v ≠ .vnone := by
      intro h; subst h; simp [primLookup, Value.typeOf] at hlk
    rw [ctypDes_union_val _ _ _ hv]
    simp only [unionDesVal, hlk, hany, if_true, hdes]
  have hfloat : ∀ q : Rat,
      primTypDes (.floatT true) (.val (.vfloat q)) = .ok (.val (.vfloat q)) := by
    intro q
    by_cases hq : q = 0 <;>
      simp [primTypDes, floatDes, strictCheck, Value.typeOf, numberDes,
        Value.eqZero, Value.truthy, pyToFloat, Except.bind, hq]
  have hint : ∀ n : Int,
      primTypDes (.intT true) (.val (.vint n)) = .ok (.val (.vint n)) := by
    intro n
    by_cases hn : n = 0 <;>
      simp [primTypDes, intDes, strictCheck, Value.typeOf, numberDes,
        Value.eqZero, Value.truthy, pyToInt, Except.bind, hn]
  have hstr : ∀ s : String,
      primTypDes (.strT true) (.val (.vstr s)) = .ok (.val (.vstr s)) := by
    intro s
    by_cases hs : s = ""
    · subst hs; rfl
    · simp [primTypDes, strDes, strictCheck, Value.typeOf, strDesCore,
        Value.truthy, Value.pyStr, Except.bind, hs, String.isEmpty_iff]
  refine ⟨part1, ?_, ?_, ?_, ?_, ?_⟩
  · intro pre post vt n ns v w hv hnp hpre hok
    rw [ctypDes_union_val _ _ _ hv]
    have hskip : ∀ p ∈ pre ++ (vt, n) :: post,
        skipMatch (primLookup ns v.typeOf) p.2.typ = false := by
      intro p hp
      cases hlk : primLookup ns v.typeOf with
      | none => rfl
      | some pt =>
          have hany := hnp pt hlk
          simp only [List.any_eq_false] at hany
          have := hany p hp
          simp only [skipMatch]
          cases h : primTypEq p.2.typ pt
          · rfl
          · exact absurd h this
    cases hlk : primLookup ns v.typeOf with
    | none =>
        simp only [unionDesVal, hlk]
        rw [unionLoopDes_first_ok pre vt n post none v w []
          (by rw [hlk] at hskip; exact hskip) hpre hok]
    | some pt =>
        have hany := hnp pt hlk
        simp only [unionDesVal, hlk, hany, Bool.false_eq_true, if_false]
        rw [unionLoopDes_first_ok pre vt n post (some pt) v w []
          (by rw [hlk] at hskip; exact hskip) hpre hok]
  · intro variants ns v es hv hnp hm
    rw [ctypDes_union_val _ _ _ hv]
    have hskip : ∀ p ∈ variants,
        skipMatch (primLookup ns v.typeOf) p.2.typ = false := by
      intro p hp
      cases hlk : primLookup ns v.typeOf with
      | none => rfl
      | some pt =>
          have hany := hnp pt hlk
          simp only [List.any_eq_false] at hany
          have := hany p hp
          simp only [skipMatch]
          cases h : primTypEq p.2.typ pt
          · rfl
          · exact absurd h this
    have hfilter : variants.filter
        (fun p => !skipMatch (primLookup ns v.typeOf) p.2.typ) = variants := by
      rw [List.filter_eq_self]
      intro p hp
      simp [hskip p hp]
    cases hlk : primLookup ns v.typeOf with
    | none =>
        simp only [unionDesVal, hlk]
        rw [unionLoopDes_exhaust variants none v [] es
          (by rw [hlk] at hfilter; rw [hfilter]; exact hm)]
        simp
    | some pt =>
        have hany := hnp pt hlk
        simp only [unionDesVal, hlk, hany, Bool.false_eq_true, if_false]
        rw [unionLoopDes_exhaust variants (some pt) v [] es
          (by rw [hlk] at hfilter; rw [hfilter]; exact hm)]
        simp
  · exact fun q => part1 strIntFloat false (.vfloat q) (.floatT true)
      (.val (.vfloat q)) rfl rfl (hfloat q)
  · exact fun n => part1 strIntFloat false (.vint n) (.intT true)
      (.val (.vint n)) rfl rfl (hint n)
  · exact fun s => part1 strIntFloat false (.vstr s) (.strT true)
      (.val (.vstr s)) rfl rfl (hstr s)

/-- Witness for `c2_union_decode_algorithm` at concrete inputs: the primitive
fast path on `1`-like ints, the declared-order fallback for a list raw value
against `Union[str, Any]`, and the aggregated failure of `Union[int]` on a
list raw value. -/
theorem c2_union_decode_algorithm_witness :
    ctypDes (.unionT strIntFloat false) (.val (.vint 3)) = .ok (.val (.vint 3))
    ∧ ctypDes (.unionT [(.vtStr, .mk "" (.strT true) .required),
                        (.vtAny, .mk "" .anyT .required)] false)
        (.val (.vlist [])) = .ok (.val (.vlist []))
    ∧ ctypDes (.unionT [(.vtInt, .mk "" (.intT true) .required)] false)
        (.val (.vlist [.vint 1]))
        = .error (.invalid (.mk unionAggMsg (.val (.vlist [.vint 1]))
            [.mk "Primitive values should adhere strict type semantics"
                (.val (.vlist [.vint 1])) []])) := by
  refine ⟨?_, ?_, ?_⟩
  · exact c2_union_decode_algorithm.1 strIntFloat false (.vint 3) (.intT true)
      (.val (.vint 3)) rfl rfl rfl
  · exact c2_union_decode_algorithm.2.1 [(.vtStr, .mk "" (.strT true) .required)] []
      .vtAny (.mk "" .anyT .required) false (.vlist []) (.vlist [])
      (by simp)
      (by intro pt h; simp [primLookup, Value.typeOf] at h)
      (by intro p hp
          simp only [List.mem_singleton] at hp
          subst hp
          exact ⟨_, rfl⟩)
      rfl
  · exact c2_union_decode_algorithm.2.2.1 [(.vtInt, .mk "" (.intT true) .required)]
      false (.vlist [.vint 1])
      [.mk "Primitive values should adhere strict type semantics"
          (.val (.vlist [.vint 1])) []]
      (by simp)
      (by intro pt h; simp [primLookup, Value.typeOf] at h)
      rfl

/-- C3: with strict primitives (the default), decoding `{"a": "1"}` against a
record `{a: int}` fails with the strict-type-semantics violation raised by
`_strict_deserialize` (wrapped in the mapping's aggregate `Invalid`); with
`NonStrictPrimitives` the same input succeeds and yields `a == 1`; and for any
primitive node, `null`/`None` raw input passes through as the node's
configured `missing` value (raising `Required` when the node has none). -/
theorem c3_primitive_strictness :
    (cnodeDes (mkCNode [] id false (.d1Rec "X" [("a", .d1Int)]))
        (.val (.vdict [("a", .vstr "1")]))
      = .error (.invalid (.mk "" (.val (.vdict [("a", .vstr "1")]))
          [.mk "Primitive values should adhere strict type semantics"
              (.val (.vstr "1")) []])))
  ∧ (cnodeDes (mkCNode [] id true (.d1Rec "X" [("a", .d1Int)]))
        (.val (.vdict [("a", .vstr "1")]))
      = .ok (.vrecord "X" [("a", .vint 1)]))
  ∧ (∀ (m : Missing) (s : Bool),
      cnodeDes (.mk "" (.intT s) m) .null
        = (match m with
           | .required => .error (.invalid (.mk "Required" .null []))
           | .miss v => .ok v)
      ∧ cnodeDes (.mk "" (.intT s) m) (.val .vnone)
        = (match m with
           | .required => .error (.invalid (.mk "Required" .null []))
           | .miss v => .ok v)) := by
  refine ⟨rfl, rfl, ?_⟩
  intro m s
  cases m <;> cases s <;> exact ⟨rfl, rfl⟩

/-- C9: every `Union` node — whether or not `None` is among its declared
variants — maps an explicit `None` (and the `null` sentinel) to `None` in both
directions without consulting any variant: `Union.deserialize` returns the
input unchanged, `Union.serialize` returns `None`.  Quantification over
arbitrary variant lists shows no variant is ever consulted. -/
theorem c9_union_none_passthrough :
    ∀ (variants : List (VarTyp × CNode)) (ns : Bool),
      ctypDes (.unionT variants ns) .null = .ok .null
      ∧ ctypDes (.unionT variants ns) (.val .vnone) = .ok (.val .vnone)
      ∧ ctypSer (.unionT variants ns) .null = .ok (.val .vnone)
      ∧ ctypSer (.unionT variants ns) (.val .vnone) = .ok (.val .vnone) := by
  intro variants ns
  exact ⟨rfl, rfl, rfl, rfl⟩

/-- With a whitelist drawn from the source's conversion types, an `isinstance`
match pins the runtime type to one of the four whitelisted ones. -/
theorem isinstance_mem_types {v : Value} {convs : List PyType}
    (hsub : convs.all (fun t => t ∈ bytesDefaultConvs) = true)
    (h : isinstanceAny v convs = true) :
    v.typeOf = .pyint ∨ v.typeOf = .pybool ∨ v.typeOf = .pystr ∨ v.typeOf = .pybytes := by
  simp only [isinstanceAny, List.any_eq_true, Bool.or_eq_true, Bool.and_eq_true,
    beq_iff_eq] at h
  obtain ⟨t, ht, hc⟩ := h
  simp only [List.all_eq_true, decide_eq_true_eq] at hsub
  have hmem := hsub t ht
  simp [bytesDefaultConvs] at hmem
  rcases hc with h1 | h2
  · rcases hmem with rfl | rfl | rfl | rfl
    · exact Or.inl h1
    · exact Or.inr (Or.inl h1)
    · exact Or.inr (Or.inr (Or.inl h1))
    · exact Or.inr (Or.inr (Or.inr h1))
  · exact Or.inr (Or.inl h2.1)

/-- C7 counterexample: the raw string `'None'` has type `str`, which is inside
the default whitelist, yet the bytes codec does not convert it to bytes — it
returns Python `None` (the guard `appstruct in (Null, 'None')` treats the
literal string `'None'` as the null sentinel).  This refutes the claim that
every whitelisted value is converted to bytes. -/
theorem c7_bytes_whitelist_cex :
    bytesConv bytesDefaultConvs (.val (.vstr "None")) = .ok (.val .vnone)
    ∧ isinstanceAny (.vstr "None") bytesDefaultConvs = true := ⟨rfl, rfl⟩

/-- C7 (amended): for a whitelist drawn from the declared source
representations (numeric, boolean, string, byte-sequence), the bytes codec
(`deserialize` is aliased to `serialize`):
(1) fails with a validation `Invalid` on every value outside the whitelist
    other than the literal string `'None'`;
(2) converts every whitelisted value to bytes, except that a negative integer
    raises an uncaught `ValueError`;
(3) passes the `null` sentinel and the literal string `'None'` through as
    Python `None` instead of converting them. -/
theorem c7_bytes_whitelist :
    (∀ (convs : List PyType) (v : Value),
        isinstanceAny v convs = false → v ≠ .vstr "None" →
        bytesConv convs (.val v)
          = .error (.invalid (.mk "Cannot convert a source value to bytes" (.val v) [])))
  ∧ (∀ (convs : List PyType) (v : Value),
        convs.all (fun t => t ∈ bytesDefaultConvs) = true →
        isinstanceAny v convs = true → v ≠ .vstr "None" →
        (∃ bs, bytesConv convs (.val v) = .ok (.val (.vbytes bs)))
        ∨ (∃ n, v = .vint n ∧ n < 0 ∧ bytesConv convs (.val v) = .error .valueError))
  ∧ (∀ convs : List PyType,
        bytesConv convs (.val (.vstr "None")) = .ok (.val .vnone)
        ∧ bytesConv convs .null = .ok (.val .vnone)) := by
  refine ⟨?_, ?_, ?_⟩
  · intro convs v hinst hne
    cases v <;> simp_all [bytesConv]
  · intro convs v hsub hinst hne
    cases v with
    | vint n =>
        by_cases hn : n < 0
        · exact Or.inr ⟨n, rfl, hn, by simp [bytesConv, hinst, hn]⟩
        · exact Or.inl ⟨List.replicate n.toNat 0, by simp [bytesConv, hinst, hn]⟩
    | vbool b =>
        exact Or.inl ⟨List.replicate (if b then 1 else 0) 0, by simp [bytesConv, hinst]⟩
    | vstr s =>
        have hs : s ≠ "None" := by intro hs; exact hne (by rw [hs])
        exact Or.inl ⟨utf8Bytes s, by simp [bytesConv, hs, hinst]⟩
    | vbytes bs =>
        exact Or.inl ⟨bs, by simp [bytesConv, hinst]⟩
    | vnone =>
        exact absurd (isinstance_mem_types hsub hinst) (by simp [Value.typeOf])
    | vfloat q =>
        exact absurd (isinstance_mem_types hsub hinst) (by simp [Value.typeOf])
    | vlist xs =>
        exact absurd (isinstance_mem_types hsub hinst) (by simp [Value.typeOf])
    | vtuple xs =>
        exact absurd (isinstance_mem_types hsub hinst) (by simp [Value.typeOf])
    | vdict kvs =>
        exact absurd (isinstance_mem_types hsub hinst) (by simp [Value.typeOf])
    | vrecord n fs =>
        exact absurd (isinstance_mem_types hsub hinst) (by simp [Value.typeOf])
    | vcolnull =>
        exact absurd (isinstance_mem_types hsub hinst) (by simp [Value.typeOf])
  · intro convs
    exact ⟨rfl, rfl⟩

/-- Witness for `c7_bytes_whitelist`: a concrete rejection (a string against
the strict whitelist `(bytes,)`), a concrete conversion (`2` against the
default whitelist), and the concrete `'None'` pass-through. -/
theorem c7_bytes_whitelist_witness :
    bytesConv [PyType.pybytes] (.val (.vstr "a"))
      = .error (.invalid (.mk "Cannot convert a source value to bytes" (.val (.vstr "a")) []))
    ∧ ((∃ bs, bytesConv bytesDefaultConvs (.val (.vint 2)) = .ok (.val (.vbytes bs)))
        ∨ (∃ n, Value.vint 2 = .vint n ∧ n < 0
            ∧ bytesConv bytesDefaultConvs (.val (.vint 2)) = .error .valueError))
    ∧ bytesConv bytesDefaultConvs (.val (.vstr "None")) = .ok (.val .vnone) :=
  ⟨c7_bytes_whitelist.1 [PyType.pybytes] (.vstr "a") rfl (by simp),
   c7_bytes_whitelist.2.1 bytesDefaultConvs (.vint 2) rfl rfl (by simp),
   (c7_bytes_whitelist.2.2 bytesDefaultConvs).1⟩

/-- C8 counterexample: against the original input `[7]`, re-walking the error
path `"1"` (an in-principle list index that is out of range) raises
`IndexError` — `iter_invalid` only catches `KeyError`/`TypeError` at
subscription and `AttributeError` at the fallback, so a missing *index* is not
tolerated with `sample = None` as the claim states. -/
theorem c8_error_iteration_cex :
    iterInvalid [("1", "boom")] (.vlist [.vint 7]) = .error .indexError := rfl

/-- C8 (amended): iterating an `Error` re-walks each reported `asdict` path
against the original input and yields exactly one `InvalidData` per reported
failure, preserving paths and messages; a missing intermediate *mapping key*
is tolerated through the `getattr` fallback and yields that entry with
`sample = None`; but an out-of-range *sequence index* raises `IndexError`
instead of being tolerated. -/
theorem c8_error_iteration :
    (∀ (entries : List (String × String)) (data : Value) (l : List InvalidData),
        iterInvalid entries data = .ok l →
        l.map InvalidData.path = entries.map Prod.fst
        ∧ l.map InvalidData.reason = entries.map Prod.snd)
  ∧ (∀ (kvs : List (String × Value)) (k m : String),
        splitDot k = [k] → pyParseInt k = none → k ≠ "" → kvs.lookup k = none →
        iterInvalid [(k, m)] (.vdict kvs) = .ok [⟨k, m, none⟩])
  ∧ (∀ (k : String) (n : Int) (xs : List Value) (m : String),
        splitDot k = [k] → pyParseInt k = some n → 0 < n → (xs.length : Int) ≤ n →
        iterInvalid [(k, m)] (.vlist xs) = .error .indexError) := by
  refine ⟨?_, ?_, ?_⟩
  · intro entries data l h
    induction entries generalizing l with
    | nil =>
        simp only [iterInvalid, Except.ok.injEq] at h
        subst h
        simp
    | cons pm rest ih =>
        simp only [iterInvalid] at h
        cases hw : walkPath data ((splitDot pm.1).map toKey) with
        | error e => rw [hw] at h; exact absurd h (by simp)
        | ok sample =>
            rw [hw] at h
            cases hrest : iterInvalid rest data with
            | error e => rw [hrest] at h; exact absurd h (by simp)
            | ok l' =>
                rw [hrest] at h
                simp only [Except.ok.injEq] at h
                subst h
                have := ih l' hrest
                simp [this.1, this.2]
  · intro kvs k m hsplit hparse hne hlk
    have hne' : (k == "") = false := by
      cases h : k == "" with
      | true => exact absurd (by simpa using h) hne
      | false => rfl
    simp [iterInvalid, hsplit, toKey, hparse, walkPath, keyFalsy, hne', pygetitem,
      hlk, pygetattrKey, pyGetattrStr]
  · intro k n xs m hsplit hparse hn hlen
    have hn' : (n == 0) = false := by
      cases h : n == 0 with
      | true => exact absurd (by simpa using h) (by omega)
      | false => rfl
    have hlt : ¬ (n < 0) := by omega
    have hcond : ¬ (0 ≤ n ∧ n.toNat < xs.length) := by
      intro hc
      omega
    simp [iterInvalid, hsplit, toKey, hparse, walkPath, keyFalsy, hn', pygetitem,
      pyIndex, hlt, hcond]

/-- Witness for `c8_error_iteration` at concrete inputs: a successful
iteration preserving the reported path, a missing mapping key yielding
`sample = None`, and an out-of-range index raising `IndexError`. -/
theorem c8_error_iteration_witness :
    ([(⟨"a", "r", some (.vint 1)⟩ : InvalidData)].map InvalidData.path
        = [("a", "r")].map Prod.fst
      ∧ [(⟨"a", "r", some (.vint 1)⟩ : InvalidData)].map InvalidData.reason
        = [("a", "r")].map Prod.snd)
    ∧ iterInvalid [("a", "r")] (.vdict []) = .ok [⟨"a", "r", none⟩]
    ∧ iterInvalid [("1", "r")] (.vlist []) = .error .indexError :=
  ⟨c8_error_iteration.1 [("a", "r")] (.vdict [("a", .vint 1)])
      [⟨"a", "r", some (.vint 1)⟩] rfl,
   c8_error_iteration.2.1 [] "a" "r" rfl rfl (by simp) rfl,
   c8_error_iteration.2.2 "1" 1 [] "r" rfl rfl (by omega) (by simp)⟩

/-! ### Descriptor identity is a lawful equality -/

mutual

theorem Desc.beq_refl : ∀ d : Desc, Desc.beq d d = true
  | .dAny => rfl
  | .dInt => rfl
  | .dBool => rfl
  | .dStr => rfl
  | .dFloat => rfl
  | .dOpt a => by simp [Desc.beq, Desc.beq_refl a]
  | .dFRef n => by simp [Desc.beq]
  | .dTuple xs u => by simp [Desc.beq, Desc.beqList_refl xs]
  | .dRec n fs => by simp [Desc.beq, Desc.beqFields_refl fs]

theorem Desc.beqList_refl : ∀ l : List Desc, Desc.beqList l l = true
  | [] => rfl
  | x :: xs => by simp [Desc.beqList, Desc.beq_refl x, Desc.beqList_refl xs]

theorem Desc.beqFields_refl : ∀ l : List (String × Desc), Desc.beqFields l l = true
  | [] => rfl
  | (k, x) :: xs => by
      simp [Desc.beqFields, Desc.beq_refl x, Desc.beqFields_refl xs]

end

mutual

theorem Desc.eq_of_beq : ∀ (a b : Desc), Desc.beq a b = true → a = b
  | .dAny, b, h => by cases b <;> simp_all [Desc.beq]
  | .dInt, b, h => by cases b <;> simp_all [Desc.beq]
  | .dBool, b, h => by cases b <;> simp_all [Desc.beq]
  | .dStr, b, h => by cases b <;> simp_all [Desc.beq]
  | .dFloat, b, h => by cases b <;> simp_all [Desc.beq]
  | .dOpt a, b, h => by
      cases b <;> simp_all [Desc.beq]
      exact Desc.eq_of_beq _ _ h
  | .dFRef n, b, h => by cases b <;> simp_all [Desc.beq]
  | .dTuple xs u, b, h => by
      cases b <;> simp_all [Desc.beq]
      exact Desc.eqList_of_beq _ _ h.1
  | .dRec n fs, b, h => by
      cases b <;> simp_all [Desc.beq]
      exact Desc.eqFields_of_beq _ _ h.2

theorem Desc.eqList_of_beq : ∀ (a b : List Desc), Desc.beqList a b = true → a = b
  | [], b, h => by cases b <;> simp_all [Desc.beqList]
  | x :: xs, b, h => by
      cases b <;> simp_all [Desc.beqList]
      exact ⟨Desc.eq_of_beq _ _ h.1, Desc.eqList_of_beq _ _ h.2⟩

theorem Desc.eqFields_of_beq :
    ∀ (a b : List (String × Desc)), Desc.beqFields a b = true → a = b
  | [], b, h => by cases b <;> simp_all [Desc.beqFields]
  | (k, x) :: xs, b, h => by
      cases b with
      | nil => simp_all [Desc.beqFields]
      | cons p rest =>
          obtain ⟨l, y⟩ := p
          simp only [Desc.beqFields, Bool.and_eq_true, beq_iff_eq] at h
          obtain ⟨⟨hk, hx⟩, hrest⟩ := h
          subst hk
          rw [Desc.eq_of_beq _ _ hx, Desc.eqFields_of_beq _ _ hrest]

end

theorem mlookup_cons (d : Desc) (n : FNode) (m : Memo) (k : Desc) :
    mlookup ((d, n) :: m) k = if Desc.beq k d then some n else mlookup m k := rfl

/-- Memo bindings established earlier in a construction session survive it:
the dispatcher only adds bindings for descriptors not yet memoized. -/
theorem decide_preserve (fuel : Nat) :
    (∀ ov memo refs d n memo' refs',
        decideD fuel ov memo refs d = .ok (n, memo', refs') →
        ∀ k v, mlookup memo k = some v → mlookup memo' k = some v)
    ∧ (∀ ov memo refs d n memo' refs',
        decideCore fuel ov memo refs d = .ok (n, memo', refs') →
        ∀ k v, mlookup memo k = some v → mlookup memo' k = some v)
    ∧ (∀ ov memo refs l (out : List FNode × Memo × Refs),
        decideElems fuel ov memo refs l = .ok out →
        ∀ k v, mlookup memo k = some v → mlookup out.2.1 k = some v)
    ∧ (∀ ov memo refs l (out : List FNode × Memo × Refs),
        decideFields fuel ov memo refs l = .ok out →
        ∀ k v, mlookup memo k = some v → mlookup out.2.1 k = some v) := by
  induction fuel with
  | zero =>
      refine ⟨?_, ?_, ?_, ?_⟩
      · intro ov memo refs d n memo' refs' h; simp [decideD] at h
      · intro ov memo refs d n memo' refs' h; simp [decideCore] at h
      · intro ov memo refs l out h k v hk
        cases l with
        | nil =>
            simp only [decideElems, Except.ok.injEq] at h
            rw [← h]
            exact hk
        | cons e rest => simp [decideElems] at h
      · intro ov memo refs l out h k v hk
        cases l with
        | nil =>
            simp only [decideFields, Except.ok.injEq] at h
            rw [← h]
            exact hk
        | cons e rest =>
            obtain ⟨f0, fd⟩ := e
            simp [decideFields] at h
  | succ fuel ih =>
      obtain ⟨ihD, ihC, ihE, ihF⟩ := ih
      refine ⟨?_, ?_, ?_, ?_⟩
      · intro ov memo refs d n memo' refs' h k v hk
        simp only [decideD] at h
        cases hm : mlookup memo d with
        | some n0 =>
            simp only [hm, Except.ok.injEq, Prod.mk.injEq] at h
            rw [← h.2.1]
            exact hk
        | none =>
            simp only [hm] at h
            cases hc : decideCore fuel ov memo refs d with
            | error e => simp [hc] at h
            | ok res =>
                obtain ⟨n0, m0, r0⟩ := res
                simp only [hc, Except.ok.injEq, Prod.mk.injEq] at h
                rw [← h.2.1, mlookup_cons]
                cases hb : Desc.beq k d with
                | true =>
                    exact absurd hk (by rw [Desc.eq_of_beq _ _ hb, hm]; simp)
                | false =>
                    rw [if_neg Bool.false_ne_true]
                    exact ihC ov memo refs d n0 m0 r0 hc k v hk
      · intro ov memo refs d n memo' refs' h k v hk
        cases d with
        | dFRef name =>
            simp only [decideCore, Except.ok.injEq, Prod.mk.injEq] at h
            rw [← h.2.1]
            exact hk
        | dAny =>
            simp only [decideCore] at h
            cases hov : ov (.typeK .dAny) with
            | none =>
                simp only [hov, Except.ok.injEq, Prod.mk.injEq] at h
                rw [← h.2.1]; exact hk
            | some val =>
                cases val with
                | extV n2 =>
                    simp only [hov, Except.ok.injEq, Prod.mk.injEq] at h
                    rw [← h.2.1]; exact hk
                | boolV b => simp [hov] at h
                | strV s => simp [hov] at h
                | funV f => simp [hov] at h
        | dInt =>
            simp only [decideCore] at h
            cases hov : ov (.typeK .dInt) with
            | none =>
                simp only [hov, Except.ok.injEq, Prod.mk.injEq] at h
                rw [← h.2.1]; exact hk
            | some val =>
                cases val with
                | extV n2 =>
                    simp only [hov, Except.ok.injEq, Prod.mk.injEq] at h
                    rw [← h.2.1]; exact hk
                | boolV b => simp [hov] at h
                | strV s => simp [hov] at h
                | funV f => simp [hov] at h
        | dBool =>
            simp only [decideCore] at h
            cases hov : ov (.typeK .dBool) with
            | none =>
                simp only [hov, Except.ok.injEq, Prod.mk.injEq] at h
                rw [← h.2.1]; exact hk
            | some val =>
                cases val with
                | extV n2 =>
                    simp only [hov, Except.ok.injEq, Prod.mk.injEq] at h
                    rw [← h.2.1]; exact hk
                | boolV b => simp [hov] at h
                | strV s => simp [hov] at h
                | funV f => simp [hov] at h
        | dStr =>
            simp only [decideCore] at h
            cases hov : ov (.typeK .dStr) with
            | none =>
                simp only [hov, Except.ok.injEq, Prod.mk.injEq] at h
                rw [← h.2.1]; exact hk
            | some val =>
                cases val with
                | extV n2 =>
                    simp only [hov, Except.ok.injEq, Prod.mk.injEq] at h
                    rw [← h.2.1]; exact hk
                | boolV b => simp [hov] at h
                | strV s => simp [hov] at h
                | funV f => simp [hov] at h
        | dFloat =>
            simp only [decideCore] at h
            cases hov : ov (.typeK .dFloat) with
            | none =>
                simp only [hov, Except.ok.injEq, Prod.mk.injEq] at h
                rw [← h.2.1]; exact hk
            | some val =>
                cases val with
                | extV n2 =>
                    simp only [hov, Except.ok.injEq, Prod.mk.injEq] at h
                    rw [← h.2.1]; exact hk
                | boolV b => simp [hov] at h
                | strV s => simp [hov] at h
                | funV f => simp [hov] at h
        | dOpt inner =>
            simp only [decideCore] at h
            cases hov : ov (.typeK (.dOpt inner)) with
            | none =>
                cases hb : Desc.beq inner .dAny with
                | true =>
                    simp only [hov, hb, if_true, Except.ok.injEq,
                      Prod.mk.injEq] at h
                    rw [← h.2.1]; exact hk
                | false =>
                    simp only [hov, hb, Bool.false_eq_true, if_false] at h
                    cases hdi : decideD fuel ov memo refs inner with
                    | error e => simp [hdi] at h
                    | ok res =>
                        obtain ⟨n0, m0, r0⟩ := res
                        simp only [hdi, Except.ok.injEq, Prod.mk.injEq] at h
                        rw [← h.2.1]
                        exact ihD ov memo refs inner n0 m0 r0 hdi k v hk
            | some val =>
                cases val with
                | extV n2 =>
                    simp only [hov, Except.ok.injEq, Prod.mk.injEq] at h
                    rw [← h.2.1]; exact hk
                | boolV b => simp [hov] at h
                | strV s => simp [hov] at h
                | funV f => simp [hov] at h
        | dTuple elems variadic =>
            simp only [decideCore] at h
            cases hov : ov (.typeK (.dTuple elems variadic)) with
            | none =>
                cases variadic with
                | true => simp [hov] at h
                | false =>
                    simp only [hov, Bool.false_eq_true, if_false] at h
                    cases he : decideElems fuel ov memo refs elems with
                    | error e => simp [he] at h
                    | ok res =>
                        obtain ⟨cs, m0, r0⟩ := res
                        simp only [he, Except.ok.injEq, Prod.mk.injEq] at h
                        rw [← h.2.1]
                        exact ihE ov memo refs elems (cs, m0, r0) he k v hk
            | some val =>
                cases val with
                | extV n2 =>
                    simp only [hov, Except.ok.injEq, Prod.mk.injEq] at h
                    rw [← h.2.1]; exact hk
                | boolV b => simp [hov] at h
                | strV s => simp [hov] at h
                | funV f => simp [hov] at h
        | dRec nm fs =>
            simp only [decideCore] at h
            cases hov : ov (.typeK (.dRec nm fs)) with
            | none =>
                cases hf : decideFields fuel ov memo refs fs with
                | error e => simp [hov, hf] at h
                | ok res =>
                    obtain ⟨fnodes, m0, r0⟩ := res
                    simp only [hov, hf, Except.ok.injEq, Prod.mk.injEq] at h
                    rw [← h.2.1]
                    exact ihF ov memo refs fs (fnodes, m0, r0) hf k v hk
            | some val =>
                cases val with
                | extV n2 =>
                    simp only [hov, Except.ok.injEq, Prod.mk.injEq] at h
                    rw [← h.2.1]; exact hk
                | boolV b => simp [hov] at h
                | strV s => simp [hov] at h
                | funV f => simp [hov] at h
      · intro ov memo refs l out h k v hk
        cases l with
        | nil =>
            simp only [decideElems, Except.ok.injEq] at h
            rw [← h]
            exact hk
        | cons e rest =>
            simp only [decideElems] at h
            cases hd : decideD fuel ov memo refs e with
            | error err => simp [hd] at h
            | ok res =>
                obtain ⟨n0, m0, r0⟩ := res
                simp only [hd] at h
                cases hrest : decideElems fuel ov m0 r0 rest with
                | error err => simp [hrest] at h
                | ok res2 =>
                    obtain ⟨ns2, m1, r1⟩ := res2
                    simp only [hrest, Except.ok.injEq] at h
                    rw [← h]
                    exact ihE ov m0 r0 rest (ns2, m1, r1) hrest k v
                      (ihD ov memo refs e n0 m0 r0 hd k v hk)
      · intro ov memo refs l out h k v hk
        cases l with
        | nil =>
            simp only [decideFields, Except.ok.injEq] at h
            rw [← h]
            exact hk
        | cons e rest =>
            obtain ⟨f0, fd⟩ := e
            simp only [decideFields] at h
            cases hd : decideD fuel ov memo refs fd with
            | error err => simp [hd] at h
            | ok res =>
                obtain ⟨n0, m0, r0⟩ := res
                simp only [hd] at h
                cases hrest : decideFields fuel ov m0 r0 rest with
                | error err => simp [hrest] at h
                | ok res2 =>
                    obtain ⟨ns2, m1, r1⟩ := res2
                    simp only [hrest, Except.ok.injEq] at h
                    rw [← h]
                    exact ihF ov m0 r0 rest (ns2, m1, r1) hrest k v
                      (ihD ov memo refs fd n0 m0 r0 hd k v hk)

/-- A successful dispatch leaves its own result memoized under the dispatched
descriptor. -/
theorem decideD_memoizes (fuel : Nat) (ov : Overrides) (memo : Memo)
    (refs : Refs) (d : Desc) (n : FNode) (memo' : Memo) (refs' : Refs)
    (h : decideD fuel ov memo refs d = .ok (n, memo', refs')) :
    mlookup memo' d = some n := by
  cases fuel with
  | zero => simp [decideD] at h
  | succ f =>
      simp only [decideD] at h
      cases hm : mlookup memo d with
      | some n0 =>
          simp only [hm, Except.ok.injEq, Prod.mk.injEq] at h
          rw [← h.2.1, ← h.1]
          exact hm
      | none =>
          simp only [hm] at h
          cases hc : decideCore f ov memo refs d with
          | error e => simp [hc] at h
          | ok res =>
              obtain ⟨n0, m0, r0⟩ := res
              simp only [hc, Except.ok.injEq, Prod.mk.injEq] at h
              rw [← h.2.1, ← h.1, mlookup_cons, if_pos (Desc.beq_refl d)]

/-- The per-pass resolution of unresolved placeholders only grows the memo. -/
theorem resolveRefs_preserve (refsL : List String) :
    ∀ (fuel : Nat) env ov main m r m' r',
      resolveRefs fuel env ov main refsL m r = .ok (m', r') →
      ∀ k v, mlookup m k = some v → mlookup m' k = some v := by
  induction refsL with
  | nil =>
      intro fuel env ov main m r m' r' h k v hk
      simp only [resolveRefs, Except.ok.injEq, Prod.mk.injEq] at h
      rw [← h.1]
      exact hk
  | cons ref rest ih =>
      intro fuel env ov main m r m' r' h k v hk
      simp only [resolveRefs] at h
      cases he : env.lookup ref with
      | none =>
          simp only [he] at h
          exact ih fuel env ov main m _ m' r' h k v hk
      | some target =>
          simp only [he] at h
          cases hd : decideD fuel ov m r target with
          | error e => simp [hd] at h
          | ok res =>
              obtain ⟨n0, m0, r0⟩ := res
              simp only [hd] at h
              exact ih fuel env ov main m0 _ m' r' h k v
                ((decide_preserve fuel).1 ov m r target n0 m0 r0 hd k v hk)

/-- The fixup loop only grows the memo. -/
theorem refLoop_preserve (fuel : Nat) :
    ∀ env ov main m r m' r',
      refLoop fuel env ov main m r = .ok (m', r') →
      ∀ k v, mlookup m k = some v → mlookup m' k = some v := by
  induction fuel with
  | zero => intro env ov main m r m' r' h; simp [refLoop] at h
  | succ f ih =>
      intro env ov main m r m' r' h k v hk
      simp only [refLoop] at h
      by_cases hu : ((r.filter (fun p => p.2.isNone)).map (fun p => p.1)).isEmpty = true
      · rw [if_pos hu] at h
        simp only [Except.ok.injEq, Prod.mk.injEq] at h
        rw [← h.1]
        exact hk
      · rw [if_neg hu] at h
        cases hr : resolveRefs f env ov main
            ((r.filter (fun p => p.2.isNone)).map (fun p => p.1)) m r with
        | error e => simp [hr] at h
        | ok res =>
            obtain ⟨m0, r0⟩ := res
            simp only [hr] at h
            exact ih env ov main m0 r0 m' r' h k v
              (resolveRefs_preserve _ f env ov main m r m0 r0 hr k v hk)

/-- C4 counterexample: the Memoization Cache is not discarded when the root
node is returned — `__call__` ends with `self.memo = memo`, so after a single
application the builder object holds a non-empty memo. -/
theorem c4_construction_scoping_cex :
    ((applyOnF 5 [] ctorEmpty .dInt).map (fun r => r.2.2.memo.isEmpty))
      = .ok false := rfl

/-- C4 (amended): the Forward-Reference Table is per call (each `__call__`
starts from a fresh empty table, visible in `callF`), but the Memoization
Cache persists on the builder across calls: after a successful application
the root node stays memoized under its descriptor in the returned builder
state, and re-applying the returned builder to the same descriptor
short-circuits through the retained memo, returning the identical root node
with the state unchanged — so construction state *is* shared across the
(decode, encode) pairs produced by one builder. -/
theorem c4_construction_scoping :
    ∀ (fuel : Nat) (env : List (String × Desc)) (c : Ctor) (d : Desc)
      (root : FNode) (refs : Refs) (c' : Ctor),
      applyOnF fuel env c d = .ok (root, refs, c') →
      c'.overrides = c.overrides
      ∧ mlookup c'.memo d = some root
      ∧ applyOnF fuel env c' d = .ok (root, [], c') := by
  intro fuel env c d root refs c' h
  simp only [applyOnF, callF] at h
  cases hd : decideD fuel c.overrides c.memo [] d with
  | error e => cases e <;> simp [hd] at h
  | ok res =>
      obtain ⟨r0, m1, r1⟩ := res
      simp only [hd] at h
      cases hl : refLoop fuel env c.overrides r0 m1 r1 with
      | error e => simp [hl] at h
      | ok mr =>
          obtain ⟨m2, r2⟩ := mr
          simp only [hl, Except.ok.injEq, Prod.mk.injEq] at h
          obtain ⟨hroot, hrefs, hc'⟩ := h
          subst hroot
          subst hc'
          have hm1 : mlookup m1 d = some r0 :=
            decideD_memoizes fuel c.overrides c.memo [] d r0 m1 r1 hd
          have hm2 : mlookup m2 d = some r0 :=
            refLoop_preserve fuel env c.overrides r0 m1 r1 m2 r2 hl d r0 hm1
          refine ⟨rfl, hm2, ?_⟩
          cases fuel with
          | zero => simp [decideD] at hd
          | succ f =>
              simp [applyOnF, callF, decideD, hm2, refLoop]

/-- Witness for `c4_construction_scoping`: a fresh builder applied to `int`
returns a builder whose memo holds the int node, and the second application
short-circuits to the identical result. -/
theorem c4_construction_scoping_witness :
    Ctor.overrides
        { overrides := emptyOv,
          memo := [(Desc.dInt, FNode.mk "" (.intT true) .required)] }
      = Ctor.overrides ctorEmpty
    ∧ mlookup [(Desc.dInt, FNode.mk "" (.intT true) .required)] .dInt
      = some (.mk "" (.intT true) .required)
    ∧ applyOnF 5 []
        { overrides := emptyOv,
          memo := [(Desc.dInt, FNode.mk "" (.intT true) .required)] }
        .dInt
      = .ok (.mk "" (.intT true) .required, [],
          { overrides := emptyOv,
            memo := [(Desc.dInt, FNode.mk "" (.intT true) .required)] }) :=
  c4_construction_scoping 5 [] ctorEmpty .dInt (.mk "" (.intT true) .required)
    []
    { overrides := emptyOv,
      memo := [(Desc.dInt, FNode.mk "" (.intT true) .required)] }
    rfl

/-- C5: the recursive `Tree` record is constructible without infinite
recursion — the forward reference is emitted as a call-time lookup node, and
after the top-level dispatch the fixup loop resolves every placeholder (here
via the memo-shared re-resolution of the `Tree` descriptor).  The resulting
codec decodes the two-level raw tree and re-encodes the decoded value to the
identical raw structure; the final table contains no unresolved
placeholder. -/
theorem c5_forward_reference_resolution :
    ((applyOnF 20 treeEnv ctorEmpty treeDesc).map
      (fun r => (evalDes 32 r.2.1 r.1 (.val rawTree),
                 evalSer 32 r.2.1 r.1 (.val treeVal),
                 r.2.1.all (fun p => p.2.isSome))))
    = .ok (.ok treeVal, .ok (.val rawTree), true) := rfl

/-- C6: declaring a variable-length tuple (`Tuple[X, ...]`, the Ellipsis
form) fails at construction time — for every builder state that has not
memoized and not overridden that descriptor, application returns the
construction-time `TypeError` raised by `_maybe_node_for_tuple` and wrapped
by `__call__`, before any decode or encode exists; a fixed-arity tuple
declaration constructs successfully. -/
theorem c6_variadic_tuple_rejection :
    (∀ (fuel : Nat) (env : List (String × Desc)) (c : Ctor)
        (elems : List Desc),
      2 ≤ fuel →
      mlookup c.memo (.dTuple elems true) = none →
      c.overrides (.typeK (.dTuple elems true)) = none →
      applyOnF fuel env c (.dTuple elems true)
        = .error (.typeErr
            "Cannot create a type constructor: variable-length tuples are not supported by typeit"))
    ∧ (applyOnF 8 [] ctorEmpty (.dTuple [.dInt, .dStr] false)).toOption.isSome
        = true := by
  constructor
  · intro fuel env c elems hfuel hmiss hov
    obtain ⟨f, rfl⟩ : ∃ f, fuel = f + 2 := ⟨fuel - 2, by omega⟩
    simp [applyOnF, callF, decideD, hmiss, decideCore, hov]
  · rfl

/-- Witness for `c6_variadic_tuple_rejection`: the fresh builder rejects
`Tuple[int, ...]` at fuel 2 with the wrapped construction-time error. -/
theorem c6_variadic_tuple_rejection_witness :
    applyOnF 2 [] ctorEmpty (.dTuple [.dInt] true)
      = .error (.typeErr
          "Cannot create a type constructor: variable-length tuples are not supported by typeit") :=
  c6_variadic_tuple_rejection.1 2 [] ctorEmpty [.dInt] (le_refl 2) rfl rfl

theorem updateOv_empty (g : Overrides) (k : OvKey) :
    updateOv emptyOv g k = g k := by
  cases hg : g k <;> simp [updateOv, emptyOv, hg]

/-- Folding the right-biased entry lookup from an arbitrary accumulator. -/
theorem lookupPairs_acc (rest : List (OvKey × OvVal)) :
    ∀ (k : OvKey) (acc : Option OvVal),
      rest.foldl (fun a p => if OvKey.beq k p.1 then some p.2 else a) acc
        = (match lookupPairs rest k with
           | some v => some v
           | none => acc) := by
  induction rest with
  | nil => intro k acc; rfl
  | cons e rest ih =>
      intro k acc
      have hL : lookupPairs (e :: rest) k
          = rest.foldl (fun a p => if OvKey.beq k p.1 then some p.2 else a)
              (if OvKey.beq k e.1 then some e.2 else none) := rfl
      rw [List.foldl_cons, ih, hL, ih]
      cases hl : lookupPairs rest k with
      | some v => rfl
      | none => cases hb : OvKey.beq k e.1 <;> simp [hb]

/-- Python `dict`/`pmap.update` built from an entry list: later entries win,
absent keys fall back to the base map. -/
theorem pupdateFrom_apply (entries : List (OvKey × OvVal)) :
    ∀ (base : Overrides) (k : OvKey),
      pupdateFrom base entries k
        = (match lookupPairs entries k with
           | some v => some v
           | none => base k) := by
  induction entries with
  | nil => intro base k; rfl
  | cons e rest ih =>
      intro base k
      have h1 : pupdateFrom base (e :: rest)
          = pupdateFrom (psetOv base e.1 e.2) rest := rfl
      have h2 : lookupPairs (e :: rest) k
          = rest.foldl (fun a p => if OvKey.beq k p.1 then some p.2 else a)
              (if OvKey.beq k e.1 then some e.2 else none) := rfl
      rw [h1, ih, h2, lookupPairs_acc]
      cases hl : lookupPairs rest k with
      | some v => rfl
      | none => cases hb : OvKey.beq k e.1 <;> simp [psetOv, hb]

/-- C10: `c & o` builds a fresh constructor — its memo is the empty map of a
fresh `__init__`, and its overrides are the right-biased merge of `c`'s
overrides with the entries contributed by `o` (the override's entries win on
their keys; all other keys fall back to `c`'s map); `c` itself, being a value
in this model as `self.overrides`/`pmap` are never reassigned by `__and__`,
is unchanged. -/
theorem c10_override_composition :
    ∀ (c : Ctor) (o : Ov) (k : OvKey),
      (andOp c [o]).memo = []
      ∧ (andOp c [o]).overrides k
          = (match lookupPairs (ovEntries o) k with
             | some v => some v
             | none => c.overrides k) := by
  intro c o k
  refine ⟨rfl, ?_⟩
  cases o with
  | flagO f =>
      show updateOv emptyOv (psetOv c.overrides (.flagK f) (flagDefault f)) k
        = _
      rw [updateOv_empty]
      simp only [ovEntries, lookupPairs, List.foldl_cons, List.foldl_nil,
        psetOv]
      cases hb : OvKey.beq k (.flagK f) <;> simp [hb]
  | modFlagO f v =>
      show updateOv emptyOv (psetOv c.overrides (.flagK f) v) k = _
      rw [updateOv_empty]
      simp only [ovEntries, lookupPairs, List.foldl_cons, List.foldl_nil,
        psetOv]
      cases hb : OvKey.beq k (.flagK f) <;> simp [hb]
  | extO t n =>
      show updateOv emptyOv (psetOv c.overrides (.typeK t) (.extV n)) k = _
      rw [updateOv_empty]
      simp only [ovEntries, lookupPairs, List.foldl_cons, List.foldl_nil,
        psetOv]
      cases hb : OvKey.beq k (.typeK t) <;> simp [hb]
  | mapO m =>
      show updateOv emptyOv
          (pupdateFrom c.overrides
            (m.map (fun p => (OvKey.fieldK p.1.1 p.1.2, OvVal.strV p.2)))) k
        = _
      rw [updateOv_empty, pupdateFrom_apply]
      rfl

/-! ### Round-trip plumbing lemmas (claim C1) -/

theorem dinsert_fresh {α : Type} (l : List (String × α)) (k : String) (v : α)
    (h : l.any (fun p => p.1 == k) = false) :
    dinsert l k v = l ++ [(k, v)] := by
  simp only [dinsert, h]
  rfl

theorem lookAll_len (kvs : List (String × Value)) :
    ∀ ks vs, lookAll kvs ks vs → ks.length = vs.length := by
  intro ks
  induction ks with
  | nil => intro vs h; cases vs with
    | nil => rfl
    | cons v vs' => exact absurd h (by simp [lookAll])
  | cons k ks' ih =>
      intro vs h
      cases vs with
      | nil => exact absurd h (by simp [lookAll])
      | cons v vs' =>
          simp only [List.length_cons]
          rw [ih vs' h.2]

theorem lookAll_cons_fresh (kvs : List (String × Value)) (k : String) (v : Value) :
    ∀ ks vs, lookAll kvs ks vs → (∀ k' ∈ ks, (k' == k) = false) →
      lookAll ((k, v) :: kvs) ks vs := by
  intro ks
  induction ks with
  | nil => intro vs h _; cases vs with
    | nil => trivial
    | cons w ws => exact absurd h (by simp [lookAll])
  | cons k0 ks' ih =>
      intro vs h hfr
      cases vs with
      | nil => exact absurd h (by simp [lookAll])
      | cons w ws =>
          obtain ⟨h1, h2⟩ := h
          refine ⟨?_, ih ws h2 (fun k' hk' => hfr k' (List.mem_cons_of_mem _ hk'))⟩
          simp only [List.lookup, hfr k0 (List.mem_cons_self k0 ks')]
          exact h1

theorem lookAll_zip : ∀ (ks : List String) (vs : List Value),
    nodupB ks = true → ks.length = vs.length → lookAll (ks.zip vs) ks vs := by
  intro ks
  induction ks with
  | nil => intro vs _ hl
           cases vs with
           | nil => trivial
           | cons v vs' => simp at hl
  | cons k ks' ih =>
      intro vs hnd hl
      cases vs with
      | nil => simp at hl
      | cons v vs' =>
          simp only [nodupB, Bool.and_eq_true, Bool.not_eq_true'] at hnd
          obtain ⟨hnotin, hnd'⟩ := hnd
          simp only [List.length_cons, Nat.add_right_cancel_iff] at hl
          refine ⟨by simp [List.lookup], ?_⟩
          refine lookAll_cons_fresh _ k v ks' vs' (ih vs' hnd' hl) ?_
          intro k' hk'
          cases hb : k' == k with
          | false => rfl
          | true =>
              exfalso
              have hkk : k' = k := beq_iff_eq.mp hb
              subst hkk
              rw [List.any_eq_false] at hnotin
              exact absurd (beq_self_eq_true k') (by simpa using hnotin k' hk')

theorem mapM_lookup (kvs : List (String × Value)) :
    ∀ ks vs, lookAll kvs ks vs →
      ks.mapM (fun a => kvs.lookup a) = some vs := by
  intro ks
  induction ks with
  | nil => intro vs h
           cases vs with
           | nil => rfl
           | cons v vs' => exact absurd h (by simp [lookAll])
  | cons k ks' ih =>
      intro vs h
      cases vs with
      | nil => exact absurd h (by simp [lookAll])
      | cons v vs' =>
          obtain ⟨h1, h2⟩ := h
          simp only [List.mapM_cons, h1, ih vs' h2, Option.pure_def,
            Option.bind_eq_bind, Option.bind_some]
          rfl

theorem nodupB_any_false : ∀ (ks : List String) (k : String),
    nodupB (k :: ks) = true → ks.any (fun x => x == k) = false := by
  intro ks k h
  simp only [nodupB, Bool.and_eq_true, Bool.not_eq_true'] at h
  exact h.1

theorem foldl_dinsert_map {α β : Type} (h : α → String) (v : α → β) :
    ∀ (ps : List α) (acc : List (String × β)),
      nodupB (ps.map h) = true →
      (∀ p ∈ ps, acc.any (fun q => q.1 == h p) = false) →
      ps.foldl (fun a p => dinsert a (h p) (v p)) acc
        = acc ++ ps.map (fun p => (h p, v p)) := by
  intro ps
  induction ps with
  | nil => intro acc _ _; simp
  | cons p rest ih =>
      intro acc hnd hfr
      simp only [List.foldl_cons, List.map_cons]
      rw [dinsert_fresh acc (h p) (v p) (hfr p (List.mem_cons_self p rest))]
      rw [ih (acc ++ [(h p, v p)]) (by
            simp only [List.map_cons] at hnd
            simp only [nodupB, Bool.and_eq_true] at hnd
            exact hnd.2) ?_]
      · simp
      · intro q hq
        simp only [List.any_append, Bool.or_eq_false_iff]
        refine ⟨hfr q (List.mem_cons_of_mem _ hq), ?_⟩
        simp only [List.any_cons, List.any_nil, Bool.or_false]
        have hne := nodupB_any_false (rest.map h) (h p) (by
          simpa using hnd)
        cases hb : h p == h q with
        | false => rfl
        | true =>
            exfalso
            rw [List.any_eq_false] at hne
            exact absurd (by simpa using (beq_iff_eq.mp hb).symm)
              (by simpa using hne (h q) (List.mem_map_of_mem h hq))

theorem revLookup_acc (l : List (String × String)) :
    ∀ (a : String) (acc : Option String),
      l.foldl (fun r p => if p.2 == a then some p.1 else r) acc
        = (match revLookup l a with
           | some x => some x
           | none => acc) := by
  induction l with
  | nil => intro a acc; rfl
  | cons e rest ih =>
      intro a acc
      have hL : revLookup (e :: rest) a
          = rest.foldl (fun r p => if p.2 == a then some p.1 else r)
              (if e.2 == a then some e.1 else none) := rfl
      rw [List.foldl_cons, ih, hL, ih]
      cases hl : revLookup rest a with
      | some x => rfl
      | none => cases hb : e.2 == a <;> simp [hb]

theorem revLookup_map_none {α : Type} (w v : α → String) :
    ∀ (l : List α) (s : String), (∀ x ∈ l, (v x == s) = false) →
      revLookup (l.map (fun x => (w x, v x))) s = none := by
  intro l
  induction l with
  | nil => intro s _; rfl
  | cons x rest ih =>
      intro s hf
      have h1 : revLookup ((x :: rest).map (fun y => (w y, v y))) s
          = (rest.map (fun y => (w y, v y))).foldl
              (fun r p => if p.2 == s then some p.1 else r)
              (if v x == s then some (w x) else none) := rfl
      rw [h1, revLookup_acc, hf x (List.mem_cons_self x rest),
        ih s (fun y hy => hf y (List.mem_cons_of_mem _ hy))]
      rfl

theorem revLookup_map_pairs {α : Type} (w v : α → String) :
    ∀ (l : List α) (a : α), a ∈ l → nodupB (l.map v) = true →
      revLookup (l.map (fun x => (w x, v x))) (v a) = some (w a) := by
  intro l
  induction l with
  | nil => intro a ha; exact absurd ha (List.not_mem_nil a)
  | cons x rest ih =>
      intro a ha hnd
      have h1 : revLookup ((x :: rest).map (fun y => (w y, v y))) (v a)
          = (rest.map (fun y => (w y, v y))).foldl
              (fun r p => if p.2 == (v a) then some p.1 else r)
              (if v x == v a then some (w x) else none) := rfl
      have hnotin := nodupB_any_false (rest.map v) (v x) (by simpa using hnd)
      have hnd' : nodupB (rest.map v) = true := by
        simp only [List.map_cons, nodupB, Bool.and_eq_true] at hnd
        exact hnd.2
      rw [List.any_eq_false] at hnotin
      rcases List.mem_cons.mp ha with rfl | hmem
      · have hnone : revLookup (rest.map (fun y => (w y, v y))) (v a) = none := by
          apply revLookup_map_none
          intro y hy
          cases hb : v y == v a with
          | false => rfl
          | true => exact absurd hb (hnotin (v y) (List.mem_map_of_mem v hy))
        rw [h1, revLookup_acc, hnone, beq_self_eq_true]
        rfl
      · rw [h1, revLookup_acc, ih a hmem hnd']

theorem lookup_map_pairs {α β : Type} (key : α → String) (val : α → β) :
    ∀ (l : List α) (a : α), a ∈ l → nodupB (l.map key) = true →
      (l.map (fun x => (key x, val x))).lookup (key a) = some (val a) := by
  intro l
  induction l with
  | nil => intro a ha; exact absurd ha (List.not_mem_nil a)
  | cons x rest ih =>
      intro a ha hnd
      have hnotin := nodupB_any_false (rest.map key) (key x) (by simpa using hnd)
      rw [List.any_eq_false] at hnotin
      have hnd' : nodupB (rest.map key) = true := by
        simp only [List.map_cons, nodupB, Bool.and_eq_true] at hnd
        exact hnd.2
      rcases List.mem_cons.mp ha with rfl | hmem
      · simp [List.lookup]
      · have hne : (key a == key x) = false := by
          cases hb : key a == key x with
          | false => rfl
          | true => exact absurd hb (hnotin (key a) (List.mem_map_of_mem key hmem))
        simp only [List.map_cons, List.lookup, hne]
        exact ih a hmem hnd'

theorem structAppDict_spec (tn : String) (fvs : List (String × Value))
    (dOv : List (String × String)) :
    ∀ (ks : List String) (vs : List Value) (acc : List (String × Value)),
      lookAll fvs ks vs →
      nodupB (ks.map (fun a => (revLookup dOv a).getD a)) = true →
      (∀ a ∈ ks, acc.any (fun q => q.1 == (revLookup dOv a).getD a) = false) →
      structAppDict (.vrecord tn fvs) dOv ks acc
        = .ok (acc ++ (ks.map (fun a => (revLookup dOv a).getD a)).zip vs) := by
  intro ks
  induction ks with
  | nil =>
      intro vs acc h _ _
      cases vs with
      | nil => simp [structAppDict]
      | cons v vs' => exact absurd h (by simp [lookAll])
  | cons a ks' ih =>
      intro vs acc h hnd hfr
      cases vs with
      | nil => exact absurd h (by simp [lookAll])
      | cons v vs' =>
          obtain ⟨h1, h2⟩ := h
          have hget : pyGetattrStr (.vrecord tn fvs) a = some v := h1
          have hnd' : nodupB (ks'.map (fun x => (revLookup dOv x).getD x)) = true := by
            simp only [List.map_cons, nodupB, Bool.and_eq_true] at hnd
            exact hnd.2
          have hnotin := nodupB_any_false
            (ks'.map (fun x => (revLookup dOv x).getD x))
            ((revLookup dOv a).getD a) (by simpa using hnd)
          rw [List.any_eq_false] at hnotin
          simp only [structAppDict, hget]
          rw [dinsert_fresh acc _ v (hfr a (List.mem_cons_self a ks'))]
          have hfr' : ∀ b ∈ ks',
              (acc ++ [((revLookup dOv a).getD a, v)]).any
                (fun q => q.1 == (revLookup dOv b).getD b) = false := by
            intro b hb
            simp only [List.any_append, Bool.or_eq_false_iff]
            refine ⟨hfr b (List.mem_cons_of_mem _ hb), ?_⟩
            simp only [List.any_cons, List.any_nil, Bool.or_false]
            cases hbb : (revLookup dOv a).getD a == (revLookup dOv b).getD b with
            | false => rfl
            | true =>
                exfalso
                exact hnotin ((revLookup dOv b).getD b)
                  (List.mem_map_of_mem _ hb)
                  (beq_iff_eq.mpr (beq_iff_eq.mp hbb).symm)
          rw [ih vs' (acc ++ [((revLookup dOv a).getD a, v)]) h2 hnd' hfr']
          simp

theorem structChildrenSer_spec :
    ∀ (cs : List CNode) (ws rs : List Value) (kvs res : List (String × Value))
      (errs : List Inv),
      lookAll kvs (cs.map CNode.name) ws →
      serAll cs ws rs →
      nodupB (cs.map CNode.name) = true →
      (∀ c ∈ cs, res.any (fun q => q.1 == c.name) = false) →
      structChildrenSer cs kvs res errs
        = .ok (res ++ (cs.map CNode.name).zip rs, errs) := by
  intro cs
  induction cs with
  | nil =>
      intro ws rs kvs res errs hlk hser _ _
      cases ws with
      | cons w ws' => exact absurd hlk (by simp [lookAll])
      | nil =>
          cases rs with
          | cons r rs' => exact absurd hser (by simp [serAll])
          | nil => simp [structChildrenSer]
  | cons c cs' ih =>
      intro ws rs kvs res errs hlk hser hnd hfr
      cases ws with
      | nil => exact absurd hlk (by simp [lookAll])
      | cons w ws' =>
          cases rs with
          | nil => exact absurd hser (by simp [serAll])
          | cons r rs' =>
              obtain ⟨hlk1, hlk2⟩ := hlk
              obtain ⟨hser1, hser2⟩ := hser
              have hnd' : nodupB (cs'.map CNode.name) = true := by
                simp only [List.map_cons, nodupB, Bool.and_eq_true] at hnd
                exact hnd.2
              have hnotin := nodupB_any_false (cs'.map CNode.name) c.name
                (by simpa using hnd)
              rw [List.any_eq_false] at hnotin
              simp only [structChildrenSer, hlk1, hser1]
              rw [dinsert_fresh res c.name (CV.toVal (.val r))
                (hfr c (List.mem_cons_self c cs'))]
              have hfr' : ∀ c' ∈ cs',
                  (res ++ [(c.name, CV.toVal (.val r))]).any
                    (fun q => q.1 == c'.name) = false := by
                intro c' hc'
                simp only [List.any_append, Bool.or_eq_false_iff]
                refine ⟨hfr c' (List.mem_cons_of_mem _ hc'), ?_⟩
                simp only [List.any_cons, List.any_nil, Bool.or_false]
                cases hbb : c.name == CNode.name c' with
                | false => rfl
                | true =>
                    exfalso
                    exact hnotin c'.name (List.mem_map_of_mem CNode.name hc')
                      (beq_iff_eq.mpr (beq_iff_eq.mp hbb).symm)
              rw [ih ws' rs' kvs (res ++ [(c.name, CV.toVal (.val r))]) errs
                hlk2 hser2 hnd' hfr']
              simp [CV.toVal]

theorem structChildrenDes_spec :
    ∀ (cs : List CNode) (rs vs : List Value) (kvs res : List (String × Value))
      (errs : List Inv),
      lookAll kvs (cs.map CNode.name) rs →
      desAll cs rs vs →
      nodupB (cs.map CNode.name) = true →
      (∀ c ∈ cs, res.any (fun q => q.1 == c.name) = false) →
      structChildrenDes cs kvs res errs
        = .ok (res ++ (cs.map CNode.name).zip vs, errs) := by
  intro cs
  induction cs with
  | nil =>
      intro rs vs kvs res errs hlk hdes _ _
      cases rs with
      | cons r rs' => exact absurd hlk (by simp [lookAll])
      | nil =>
          cases vs with
          | cons v vs' => exact absurd hdes (by simp [desAll])
          | nil => simp [structChildrenDes]
  | cons c cs' ih =>
      intro rs vs kvs res errs hlk hdes hnd hfr
      cases rs with
      | nil => exact absurd hlk (by simp [lookAll])
      | cons r rs' =>
          cases vs with
          | nil => exact absurd hdes (by simp [desAll])
          | cons v vs' =>
              obtain ⟨hlk1, hlk2⟩ := hlk
              obtain ⟨hdes1, hdes2⟩ := hdes
              have hnd' : nodupB (cs'.map CNode.name) = true := by
                simp only [List.map_cons, nodupB, Bool.and_eq_true] at hnd
                exact hnd.2
              have hnotin := nodupB_any_false (cs'.map CNode.name) c.name
                (by simpa using hnd)
              rw [List.any_eq_false] at hnotin
              simp only [structChildrenDes, hlk1, hdes1]
              rw [dinsert_fresh res c.name v (hfr c (List.mem_cons_self c cs'))]
              have hfr' : ∀ c' ∈ cs',
                  (res ++ [(c.name, v)]).any (fun q => q.1 == c'.name)
                    = false := by
                intro c' hc'
                simp only [List.any_append, Bool.or_eq_false_iff]
                refine ⟨hfr c' (List.mem_cons_of_mem _ hc'), ?_⟩
                simp only [List.any_cons, List.any_nil, Bool.or_false]
                cases hbb : c.name == CNode.name c' with
                | false => rfl
                | true =>
                    exfalso
                    exact hnotin c'.name (List.mem_map_of_mem CNode.name hc')
                      (beq_iff_eq.mpr (beq_iff_eq.mp hbb).symm)
              rw [ih rs' vs' kvs (res ++ [(c.name, v)]) errs hlk2 hdes2 hnd'
                hfr']
              simp

theorem name_withName (n : CNode) (s : String) : (n.withName s).name = s := by
  cases n
  rfl

theorem cnodeSer_withName (n : CNode) (s : String) (c : CV) :
    cnodeSer (n.withName s) c = cnodeSer n c := by
  cases n
  rfl

theorem cnodeDes_withName (n : CNode) (s : String) (c : CV) :
    cnodeDes (n.withName s) c = cnodeDes n c := by
  cases n
  rfl

theorem zip_fst_snd : ∀ (l : List (String × Value)),
    (l.map (fun p => p.1)).zip (l.map (fun p => p.2)) = l := by
  intro l
  induction l with
  | nil => rfl
  | cons p rest ih => simp [ih]

theorem fieldsConform1_names : ∀ (fs : List (String × Desc1))
    (fvs : List (String × Value)), fieldsConform1 fs fvs = true →
    fs.map (fun p => p.1) = fvs.map (fun p => p.1) := by
  intro fs
  induction fs with
  | nil => intro fvs h
           cases fvs with
           | nil => rfl
           | cons q qs => simp [fieldsConform1] at h
  | cons p rest ih =>
      intro fvs h
      obtain ⟨f, fd⟩ := p
      cases fvs with
      | nil => simp [fieldsConform1] at h
      | cons q qs =>
          obtain ⟨f2, v⟩ := q
          simp only [fieldsConform1, Bool.and_eq_true, beq_iff_eq] at h
          simp only [List.map_cons, h.1.1, ih qs h.2]

theorem fieldsRT_len (ov : FieldOv) (g : String → String) :
    ∀ fs fvs rs, fieldsRT ov g fs fvs rs →
      fs.length = fvs.length ∧ fvs.length = rs.length := by
  intro fs
  induction fs with
  | nil => intro fvs rs h
           cases fvs with
           | cons q qs => cases rs <;> exact absurd h (by simp [fieldsRT])
           | nil => cases rs with
             | cons r rs' => exact absurd h (by simp [fieldsRT])
             | nil => exact ⟨rfl, rfl⟩
  | cons p rest ih =>
      intro fvs rs h
      obtain ⟨f, fd⟩ := p
      cases fvs with
      | nil => exact absurd h (by simp [fieldsRT])
      | cons q qs =>
          cases rs with
          | nil => exact absurd h (by simp [fieldsRT])
          | cons r rs' =>
              obtain ⟨q1, q2⟩ := q
              obtain ⟨-, -, h3⟩ := h
              obtain ⟨hl1, hl2⟩ := ih qs rs' h3
              exact ⟨by simp [hl1], by simp [hl2]⟩

theorem fieldsRT_serAll (ov : FieldOv) (g : String → String) (tn : String)
    (dOvE : Bool) :
    ∀ fs fvs rs, fieldsRT ov g fs fvs rs →
      serAll (mkChildren ov g false tn dOvE fs) (fvs.map (fun p => p.2)) rs := by
  intro fs
  induction fs with
  | nil => intro fvs rs h
           cases fvs with
           | cons q qs => cases rs <;> exact absurd h (by simp [fieldsRT])
           | nil => cases rs with
             | cons r rs' => exact absurd h (by simp [fieldsRT])
             | nil => trivial
  | cons p rest ih =>
      intro fvs rs h
      obtain ⟨f, fd⟩ := p
      cases fvs with
      | nil => exact absurd h (by simp [fieldsRT])
      | cons q qs =>
          cases rs with
          | nil => exact absurd h (by simp [fieldsRT])
          | cons r rs' =>
              obtain ⟨q1, q2⟩ := q
              obtain ⟨h1, -, h3⟩ := h
              exact ⟨by rw [cnodeSer_withName]; exact h1, ih qs rs' h3⟩

theorem fieldsRT_desAll (ov : FieldOv) (g : String → String) (tn : String)
    (dOvE : Bool) :
    ∀ fs fvs rs, fieldsRT ov g fs fvs rs →
      desAll (mkChildren ov g false tn dOvE fs) rs (fvs.map (fun p => p.2)) := by
  intro fs
  induction fs with
  | nil => intro fvs rs h
           cases fvs with
           | cons q qs => cases rs <;> exact absurd h (by simp [fieldsRT])
           | nil => cases rs with
             | cons r rs' => exact absurd h (by simp [fieldsRT])
             | nil => trivial
  | cons p rest ih =>
      intro fvs rs h
      obtain ⟨f, fd⟩ := p
      cases fvs with
      | nil => exact absurd h (by simp [fieldsRT])
      | cons q qs =>
          cases rs with
          | nil => exact absurd h (by simp [fieldsRT])
          | cons r rs' =>
              obtain ⟨q1, q2⟩ := q
              obtain ⟨-, h2, h3⟩ := h
              exact ⟨by rw [cnodeDes_withName]; exact h2, ih qs rs' h3⟩

theorem mkChildren_names (ov : FieldOv) (g : String → String) (ns : Bool)
    (tn : String) (dOvE : Bool) :
    ∀ fs, (mkChildren ov g ns tn dOvE fs).map CNode.name
      = fs.map (fun p => if dOvE then g p.1 else wireName ov g tn p.1) := by
  intro fs
  induction fs with
  | nil => rfl
  | cons p rest ih =>
      obtain ⟨f, fd⟩ := p
      simp only [mkChildren, List.map_cons, name_withName, ih]
      rfl

theorem mkCNode_rec (ov : FieldOv) (g : String → String) (ns : Bool)
    (tn : String) (fs : List (String × Desc1)) :
    mkCNode ov g ns (.d1Rec tn fs)
      = .mk "" (.structureT tn (fs.map (fun p => p.1)) (dOvOf ov g tn fs)
          (mkChildren ov g ns tn (dOvOf ov g tn fs).isEmpty fs)) .required := rfl

theorem dOvOf_eq_map (ov : FieldOv) (g : String → String) (tn : String)
    (fs : List (String × Desc1))
    (hC : fs.all (fun p => wireName ov g tn p.1 == p.1) = false)
    (hnw : nodupB (fs.map (fun p => wireName ov g tn p.1)) = true) :
    dOvOf ov g tn fs = fs.map (fun p => (wireName ov g tn p.1, p.1)) := by
  simp only [dOvOf, hC, Bool.false_eq_true, if_false]
  exact foldl_dinsert_map (fun p => wireName ov g tn p.1) (fun p => p.1) fs []
    hnw (by intro p _; rfl)

theorem dOvOf_isEmpty_false (ov : FieldOv) (g : String → String) (tn : String)
    (fs : List (String × Desc1))
    (hC : fs.all (fun p => wireName ov g tn p.1 == p.1) = false)
    (hnw : nodupB (fs.map (fun p => wireName ov g tn p.1)) = true) :
    (dOvOf ov g tn fs).isEmpty = false := by
  rw [dOvOf_eq_map ov g tn fs hC hnw]
  cases fs with
  | nil => simp at hC
  | cons p rest => rfl

theorem serName_eq (ov : FieldOv) (g : String → String) (tn : String)
    (fs : List (String × Desc1))
    (hnw : nodupB (fs.map (fun p => wireName ov g tn p.1)) = true)
    (hdg : (if fs.all (fun p => wireName ov g tn p.1 == p.1)
            then fs.all (fun p => g p.1 == p.1) else true) = true) :
    ∀ p ∈ fs, (if (dOvOf ov g tn fs).isEmpty then g p.1
               else wireName ov g tn p.1) = wireName ov g tn p.1 := by
  intro p hp
  cases hC : fs.all (fun p => wireName ov g tn p.1 == p.1) with
  | true =>
      have hOv : dOvOf ov g tn fs = [] := by simp [dOvOf, hC]
      rw [hOv]
      simp only [List.isEmpty_nil, if_true]
      rw [hC] at hdg
      simp only [if_true] at hdg
      rw [List.all_eq_true] at hC hdg
      rw [beq_iff_eq.mp (hdg p hp), beq_iff_eq.mp (hC p hp)]
  | false =>
      rw [dOvOf_isEmpty_false ov g tn fs hC hnw]
      simp

theorem children_names (ov : FieldOv) (g : String → String) (tn : String)
    (fs : List (String × Desc1))
    (hnw : nodupB (fs.map (fun p => wireName ov g tn p.1)) = true)
    (hdg : (if fs.all (fun p => wireName ov g tn p.1 == p.1)
            then fs.all (fun p => g p.1 == p.1) else true) = true) :
    (mkChildren ov g false tn (dOvOf ov g tn fs).isEmpty fs).map CNode.name
      = fs.map (fun p => wireName ov g tn p.1) := by
  rw [mkChildren_names]
  exact List.map_congr_left (serName_eq ov g tn fs hnw hdg)

theorem RK_eq (ov : FieldOv) (g : String → String) (tn : String)
    (fs : List (String × Desc1))
    (hna : nodupB (fs.map (fun p => p.1)) = true)
    (hnw : nodupB (fs.map (fun p => wireName ov g tn p.1)) = true) :
    ∀ p ∈ fs, (revLookup (dOvOf ov g tn fs) p.1).getD p.1
      = wireName ov g tn p.1 := by
  intro p hp
  cases hC : fs.all (fun p => wireName ov g tn p.1 == p.1) with
  | true =>
      have hOv : dOvOf ov g tn fs = [] := by simp [dOvOf, hC]
      rw [hOv]
      rw [List.all_eq_true] at hC
      simp only [revLookup, List.foldl_nil, Option.getD_none]
      exact (beq_iff_eq.mp (hC p hp)).symm
  | false =>
      rw [dOvOf_eq_map ov g tn fs hC hnw,
        revLookup_map_pairs (fun p => wireName ov g tn p.1) (fun p => p.1)
          fs p hp hna]
      rfl

theorem dOvLook_eq (ov : FieldOv) (g : String → String) (tn : String)
    (fs : List (String × Desc1))
    (hna : nodupB (fs.map (fun p => p.1)) = true)
    (hnw : nodupB (fs.map (fun p => wireName ov g tn p.1)) = true) :
    ∀ p ∈ fs, ((dOvOf ov g tn fs).lookup (wireName ov g tn p.1)).getD
        (wireName ov g tn p.1) = p.1 := by
  intro p hp
  cases hC : fs.all (fun p => wireName ov g tn p.1 == p.1) with
  | true =>
      have hOv : dOvOf ov g tn fs = [] := by simp [dOvOf, hC]
      rw [hOv]
      rw [List.all_eq_true] at hC
      simp only [List.lookup, Option.getD_none]
      exact beq_iff_eq.mp (hC p hp)
  | false =>
      rw [dOvOf_eq_map ov g tn fs hC hnw,
        lookup_map_pairs (fun p => wireName ov g tn p.1) (fun p => p.1)
          fs p hp hnw]
      rfl

theorem exactKeysF_to (ov : FieldOv) (g : String → String) (tn : String) :
    ∀ (fs : List (String × Desc1)) (kvs : List (String × Value)),
      exactKeysF ov g tn fs kvs = true →
      ∃ rrs, lookAll kvs (fs.map (fun p => wireName ov g tn p.1)) rrs
        ∧ ekAll ov g fs rrs := by
  intro fs
  induction fs with
  | nil => intro kvs _; exact ⟨[], trivial, trivial⟩
  | cons p rest ih =>
      intro kvs h
      obtain ⟨f, fd⟩ := p
      simp only [exactKeysF, Bool.and_eq_true] at h
      obtain ⟨h1, h2⟩ := h
      cases hlk : kvs.lookup (wireName ov g tn f) with
      | none => rw [hlk] at h1; simp at h1
      | some rv =>
          rw [hlk] at h1
          obtain ⟨rrs, hl, he⟩ := ih kvs h2
          exact ⟨rv :: rrs, ⟨hlk, hl⟩, ⟨h1, he⟩⟩

theorem pyEqDictSub_of : ∀ (ks : List String) (rs' rrs : List Value)
    (kvs : List (String × Value)),
    lookAll kvs ks rrs → pyEqAll rs' rrs →
    pyEqDictSub (ks.zip rs') kvs = true := by
  intro ks
  induction ks with
  | nil => intro rs' rrs kvs _ _; simp [pyEqDictSub]
  | cons k ks' ih =>
      intro rs' rrs kvs hlk hpe
      cases rrs with
      | nil => exact absurd hlk (by simp [lookAll])
      | cons r rrs' =>
          cases rs' with
          | nil => simp [pyEqDictSub]
          | cons r' rs'' =>
              obtain ⟨hl1, hl2⟩ := hlk
              obtain ⟨hp1, hp2⟩ := hpe
              simp only [List.zip_cons_cons, pyEqDictSub, hl1, hp1,
                Bool.true_and]
              exact ih rs'' rrs' kvs hl2 hp2

theorem any_zip_key : ∀ (ks : List String) (vs : List Value) (k : String),
    ks.length = vs.length →
    ((ks.zip vs).any (fun p => p.1 == k)) = ks.any (fun w => w == k) := by
  intro ks
  induction ks with
  | nil => intro vs k _; simp
  | cons k0 ks' ih =>
      intro vs k hl
      cases vs with
      | nil => simp at hl
      | cons v vs' =>
          simp only [List.length_cons, Nat.add_right_cancel_iff] at hl
          simp only [List.zip_cons_cons, List.any_cons, ih vs' k hl]

theorem keysSubB_of (kvs : List (String × Value)) (ks : List String)
    (vs : List Value)
    (h : kvs.all (fun q => ks.any (fun w => w == q.1)) = true)
    (hl : ks.length = vs.length) :
    keysSubB kvs (ks.zip vs) = true := by
  simp only [keysSubB, List.all_eq_true] at h ⊢
  intro q hq
  rw [any_zip_key ks vs q.1 hl]
  exact h q hq

theorem desAll_len : ∀ (cs : List CNode) (rs vs : List Value),
    desAll cs rs vs → cs.length = rs.length ∧ rs.length = vs.length := by
  intro cs
  induction cs with
  | nil => intro rs vs h
           cases rs with
           | cons r rs' => cases vs <;> exact absurd h (by simp [desAll])
           | nil => cases vs with
             | cons v vs' => exact absurd h (by simp [desAll])
             | nil => exact ⟨rfl, rfl⟩
  | cons c cs' ih =>
      intro rs vs h
      cases rs with
      | nil => exact absurd h (by simp [desAll])
      | cons r rs' =>
          cases vs with
          | nil => exact absurd h (by simp [desAll])
          | cons v vs' =>
              obtain ⟨hl1, hl2⟩ := ih rs' vs' h.2
              exact ⟨by simp [hl1], by simp [hl2]⟩

theorem serAll_len : ∀ (cs : List CNode) (ws rs : List Value),
    serAll cs ws rs → cs.length = ws.length ∧ ws.length = rs.length := by
  intro cs
  induction cs with
  | nil => intro ws rs h
           cases ws with
           | cons w ws' => cases rs <;> exact absurd h (by simp [serAll])
           | nil => cases rs with
             | cons r rs' => exact absurd h (by simp [serAll])
             | nil => exact ⟨rfl, rfl⟩
  | cons c cs' ih =>
      intro ws rs h
      cases ws with
      | nil => exact absurd h (by simp [serAll])
      | cons w ws' =>
          cases rs with
          | nil => exact absurd h (by simp [serAll])
          | cons r rs' =>
              obtain ⟨hl1, hl2⟩ := ih ws' rs' h.2
              exact ⟨by simp [hl1], by simp [hl2]⟩

theorem desAll_mkChildren (ov : FieldOv) (g : String → String) (tn : String)
    (dOvE : Bool) :
    ∀ fs (rs vs : List Value),
      desAll (mkChildren ov g false tn dOvE fs) rs vs →
      desAll (fs.map (fun p => mkCNode ov g false p.2)) rs vs := by
  intro fs
  induction fs with
  | nil => intro rs vs h; exact h
  | cons p rest ih =>
      intro rs vs h
      obtain ⟨f, fd⟩ := p
      cases rs with
      | nil => exact absurd h (by simp [mkChildren, desAll])
      | cons r rs' =>
          cases vs with
          | nil => exact absurd h (by simp [mkChildren, desAll])
          | cons v vs' =>
              obtain ⟨h1, h2⟩ := h
              rw [cnodeDes_withName] at h1
              exact ⟨h1, ih rs' vs' h2⟩

theorem serAll_mkChildren (ov : FieldOv) (g : String → String) (tn : String)
    (dOvE : Bool) :
    ∀ fs (ws rs : List Value),
      serAll (fs.map (fun p => mkCNode ov g false p.2)) ws rs →
      serAll (mkChildren ov g false tn dOvE fs) ws rs := by
  intro fs
  induction fs with
  | nil => intro ws rs h; exact h
  | cons p rest ih =>
      intro ws rs h
      obtain ⟨f, fd⟩ := p
      cases ws with
      | nil => exact absurd h (by simp [serAll])
      | cons w ws' =>
          cases rs with
          | nil => exact absurd h (by simp [serAll])
          | cons r rs' =>
              obtain ⟨h1, h2⟩ := h
              exact ⟨by rw [cnodeSer_withName]; exact h1, ih ws' rs' h2⟩

theorem zip_map_keys (t : String → String) :
    ∀ (ks : List String) (vs : List Value),
      (ks.zip vs).map (fun p => (t p.1, p.2)) = (ks.map t).zip vs := by
  intro ks
  induction ks with
  | nil => intro vs; rfl
  | cons k ks' ih =>
      intro vs
      cases vs with
      | nil => rfl
      | cons v vs' => simp [ih]

theorem zip_map_fst (t : String → String) :
    ∀ (ks : List String) (vs : List Value), ks.length = vs.length →
      (ks.zip vs).map (fun p => t p.1) = ks.map t := by
  intro ks
  induction ks with
  | nil => intro vs _; rfl
  | cons k ks' ih =>
      intro vs hl
      cases vs with
      | nil => simp at hl
      | cons v vs' =>
          simp only [List.length_cons, Nat.add_right_cancel_iff] at hl
          simp [ih vs' hl]

theorem intDes_vint (n : Int) :
    intDes true (.val (.vint n)) = .ok (.val (.vint n)) := by
  simp [intDes, strictCheck, Value.typeOf, numberDes, Value.eqZero,
    Value.truthy, pyToInt, bne, Bool.not_not, Bool.not_and_self]
  rfl

theorem intSer_vint (n : Int) :
    intSer true (.val (.vint n)) = .ok (.val (.vint n)) := by
  simp [intSer, strictCheck, Value.typeOf, numberSer, pyToInt]
  rfl

theorem boolDes_vbool (b : Bool) :
    boolDes true (.val (.vbool b)) = .ok (.val (.vbool b)) := by
  cases b <;> rfl

theorem boolSer_vbool (b : Bool) :
    boolSer true (.val (.vbool b)) = .ok (.val (.vbool b)) := by
  cases b <;> rfl

theorem d1IntSer_vint (ov : FieldOv) (g : String → String) (n : Int) :
    cnodeSer (mkCNode ov g false .d1Int) (.val (.vint n))
      = .ok (.val (.vint n)) := by
  simp only [mkCNode, cnodeSer, intSer_vint]
  rfl

theorem d1IntDes_vint (ov : FieldOv) (g : String → String) (n : Int) :
    cnodeDes (mkCNode ov g false .d1Int) (.val (.vint n)) = .ok (.vint n) := by
  simp only [mkCNode, cnodeDes]
  rw [show ctypDes (.intT (!false)) (.val (.vint n)) = intDes true (.val (.vint n)) from rfl]
  rw [intDes_vint]

theorem d1BoolSer_vbool (ov : FieldOv) (g : String → String) (b : Bool) :
    cnodeSer (mkCNode ov g false .d1Bool) (.val (.vbool b))
      = .ok (.val (.vbool b)) := by
  simp only [mkCNode, cnodeSer]
  rw [show ctypSer (.boolT (!false)) (.val (.vbool b)) = boolSer true (.val (.vbool b)) from rfl]
  rw [boolSer_vbool]

theorem d1BoolDes_vbool (ov : FieldOv) (g : String → String) (b : Bool) :
    cnodeDes (mkCNode ov g false .d1Bool) (.val (.vbool b)) = .ok (.vbool b) := by
  simp only [mkCNode, cnodeDes]
  rw [show ctypDes (.boolT (!false)) (.val (.vbool b)) = boolDes true (.val (.vbool b)) from rfl]
  rw [boolDes_vbool]

theorem d1OptIntDes_vint (ov : FieldOv) (g : String → String) (n : Int) :
    cnodeDes (mkCNode ov g false .d1OptInt) (.val (.vint n))
      = .ok (.vint n) := by
  simp only [mkCNode, cnodeDes, ctypDes, primLookup, Value.typeOf, CNode.typ,
    primTypEq, List.any_cons, List.any_nil, beq_self_eq_true, Bool.or_false,
    if_true, primTypDes, Bool.not_false, intDes_vint]

theorem d1OptIntSer_vint (ov : FieldOv) (g : String → String) (n : Int) :
    cnodeSer (mkCNode ov g false .d1OptInt) (.val (.vint n))
      = .ok (.val (.vint n)) := by
  simp only [mkCNode, cnodeSer, ctypSer, primLookup, Value.typeOf, CNode.typ,
    primTypEq, List.any_cons, List.any_nil, beq_self_eq_true, Bool.or_false,
    if_true, primTypSer, Bool.not_false, intSer_vint]

theorem d1OptIntDes_vnone (ov : FieldOv) (g : String → String) :
    cnodeDes (mkCNode ov g false .d1OptInt) (.val .vnone) = .ok .vnone := rfl

theorem d1OptIntSer_vnone (ov : FieldOv) (g : String → String) :
    cnodeSer (mkCNode ov g false .d1OptInt) (.val .vnone)
      = .ok (.val .vnone) := rfl

theorem structChildrenDes_errs_mono :
    ∀ (cs : List CNode) (kvs res : List (String × Value)) (errs : List Inv)
      (out : List (String × Value)) (errs2 : List Inv),
      structChildrenDes cs kvs res errs = .ok (out, errs2) →
      ∃ t, errs2 = errs ++ t := by
  intro cs
  induction cs with
  | nil =>
      intro kvs res errs out errs2 h
      simp only [structChildrenDes, Except.ok.injEq, Prod.mk.injEq] at h
      exact ⟨[], by rw [← h.2]; simp⟩
  | cons c cs' ih =>
      intro kvs res errs out errs2 h
      simp only [structChildrenDes] at h
      cases hd : cnodeDes c (match kvs.lookup c.name with
        | some w => CV.val w
        | none => CV.null) with
      | ok w =>
          rw [hd] at h
          exact ih kvs (dinsert res c.name w) errs out errs2 h
      | error e =>
          rw [hd] at h
          cases e with
          | invalid i =>
              obtain ⟨t, ht⟩ := ih kvs res (errs ++ [i]) out errs2 h
              exact ⟨[i] ++ t, by rw [ht]; simp⟩
          | typeError => simp at h
          | valueError => simp at h
          | indexError => simp at h
          | keyError => simp at h
          | attributeError => simp at h

theorem structChildrenDes_inv :
    ∀ (cs : List CNode) (rs : List Value) (kvs res : List (String × Value))
      (errs : List Inv) (out : List (String × Value)),
      lookAll kvs (cs.map CNode.name) rs →
      nodupB (cs.map CNode.name) = true →
      (∀ c ∈ cs, res.any (fun q => q.1 == c.name) = false) →
      structChildrenDes cs kvs res errs = .ok (out, []) →
      errs = [] ∧ ∃ vs, desAll cs rs vs
        ∧ out = res ++ (cs.map CNode.name).zip vs := by
  intro cs
  induction cs with
  | nil =>
      intro rs kvs res errs out hlk _ _ h
      simp only [structChildrenDes, Except.ok.injEq, Prod.mk.injEq] at h
      cases rs with
      | cons r rs' => exact absurd hlk (by simp [lookAll])
      | nil =>
          exact ⟨h.2, [], trivial, by rw [← h.1]; simp⟩
  | cons c cs' ih =>
      intro rs kvs res errs out hlk hnd hfr h
      cases rs with
      | nil => exact absurd hlk (by simp [lookAll])
      | cons r rs' =>
          obtain ⟨hlk1, hlk2⟩ := hlk
          simp only [structChildrenDes, hlk1] at h
          cases hd : cnodeDes c (.val r) with
          | ok v =>
              rw [hd] at h
              have hnd' : nodupB (cs'.map CNode.name) = true := by
                simp only [List.map_cons, nodupB, Bool.and_eq_true] at hnd
                exact hnd.2
              have hnotin := nodupB_any_false (cs'.map CNode.name) c.name
                (by simpa using hnd)
              rw [List.any_eq_false] at hnotin
              have hfr' : ∀ c' ∈ cs',
                  (dinsert res c.name v).any (fun q => q.1 == c'.name)
                    = false := by
                intro c' hc'
                rw [dinsert_fresh res c.name v (hfr c (List.mem_cons_self c cs'))]
                simp only [List.any_append, Bool.or_eq_false_iff]
                refine ⟨hfr c' (List.mem_cons_of_mem _ hc'), ?_⟩
                simp only [List.any_cons, List.any_nil, Bool.or_false]
                cases hbb : c.name == CNode.name c' with
                | false => rfl
                | true =>
                    exfalso
                    exact hnotin c'.name (List.mem_map_of_mem CNode.name hc')
                      (beq_iff_eq.mpr (beq_iff_eq.mp hbb).symm)
              obtain ⟨herr, vs, hdes, hout⟩ :=
                ih rs' kvs (dinsert res c.name v) errs out hlk2 hnd' hfr' h
              refine ⟨herr, v :: vs, ⟨hd, hdes⟩, ?_⟩
              rw [hout, dinsert_fresh res c.name v
                (hfr c (List.mem_cons_self c cs'))]
              simp
          | error e =>
              rw [hd] at h
              cases e with
              | invalid i =>
                  obtain ⟨t, ht⟩ := structChildrenDes_errs_mono cs' kvs res
                    (errs ++ [i]) out [] h
                  exact absurd ht.symm (by simp)
              | typeError => simp at h
              | valueError => simp at h
              | indexError => simp at h
              | keyError => simp at h
              | attributeError => simp at h

theorem recSerDes (ov : FieldOv) (g : String → String) (tn : String)
    (fs : List (String × Desc1))
    (hna : nodupB (fs.map (fun p => p.1)) = true)
    (hnw : nodupB (fs.map (fun p => wireName ov g tn p.1)) = true)
    (hdg : (if fs.all (fun p => wireName ov g tn p.1 == p.1)
            then fs.all (fun p => g p.1 == p.1) else true) = true)
    (fvs : List (String × Value)) (rs : List Value)
    (hcf : fieldsConform1 fs fvs = true)
    (hRT : fieldsRT ov g fs fvs rs) :
    cnodeSer (mkCNode ov g false (.d1Rec tn fs)) (.val (.vrecord tn fvs))
      = .ok (.val (.vdict
          ((fs.map (fun p => wireName ov g tn p.1)).zip rs)))
    ∧ cnodeDes (mkCNode ov g false (.d1Rec tn fs))
        (.val (.vdict ((fs.map (fun p => wireName ov g tn p.1)).zip rs)))
      = .ok (.vrecord tn fvs) := by
  obtain ⟨hlen1, hlen2⟩ := fieldsRT_len ov g fs fvs rs hRT
  have hnames := fieldsConform1_names fs fvs hcf
  have hnafvs : nodupB (fvs.map (fun p => p.1)) = true := by
    rw [← hnames]; exact hna
  have hcn := children_names ov g tn fs hnw hdg
  have hlkfvs : lookAll fvs (fvs.map (fun p => p.1))
      (fvs.map (fun p => p.2)) := by
    have h0 := lookAll_zip (fvs.map (fun p => p.1)) (fvs.map (fun p => p.2))
      hnafvs (by simp)
    rwa [zip_fst_snd] at h0
  have hlkA : lookAll fvs (fs.map (fun p => p.1))
      (fvs.map (fun p => p.2)) := by
    rw [hnames]; exact hlkfvs
  have hRKw : (fs.map (fun p => p.1)).map
      (fun a => (revLookup (dOvOf ov g tn fs) a).getD a)
      = fs.map (fun p => wireName ov g tn p.1) := by
    rw [List.map_map]
    exact List.map_congr_left (fun p hp => RK_eq ov g tn fs hna hnw p hp)
  have hndRK : nodupB ((fs.map (fun p => p.1)).map
      (fun a => (revLookup (dOvOf ov g tn fs) a).getD a)) = true := by
    rw [hRKw]; exact hnw
  have happ := structAppDict_spec tn fvs (dOvOf ov g tn fs)
    (fs.map (fun p => p.1)) (fvs.map (fun p => p.2)) [] hlkA hndRK
    (by intro a _; rfl)
  rw [hRKw] at happ
  simp only [List.nil_append] at happ
  have hwlen : (fs.map (fun p => wireName ov g tn p.1)).length
      = (fvs.map (fun p => p.2)).length := by simp [hlen1]
  have hlkW := lookAll_zip (fs.map (fun p => wireName ov g tn p.1))
    (fvs.map (fun p => p.2)) hnw hwlen
  have hserAll := fieldsRT_serAll ov g tn (dOvOf ov g tn fs).isEmpty fs fvs rs hRT
  have hndn : nodupB ((mkChildren ov g false tn
      (dOvOf ov g tn fs).isEmpty fs).map CNode.name) = true := by
    rw [hcn]; exact hnw
  have hfrnil : ∀ c ∈ mkChildren ov g false tn (dOvOf ov g tn fs).isEmpty fs,
      (([] : List (String × Value)).any (fun q => q.1 == c.name)) = false := by
    intro c _; rfl
  have hser := structChildrenSer_spec
    (mkChildren ov g false tn (dOvOf ov g tn fs).isEmpty fs)
    (fvs.map (fun p => p.2)) rs
    ((fs.map (fun p => wireName ov g tn p.1)).zip (fvs.map (fun p => p.2)))
    [] [] (by rw [hcn]; exact hlkW) hserAll hndn hfrnil
  rw [hcn] at hser
  simp only [List.nil_append] at hser
  have hrlen : (fs.map (fun p => wireName ov g tn p.1)).length = rs.length := by
    simp [hlen1, hlen2]
  have hlkR := lookAll_zip (fs.map (fun p => wireName ov g tn p.1)) rs hnw hrlen
  have hdesAll := fieldsRT_desAll ov g tn (dOvOf ov g tn fs).isEmpty fs fvs rs hRT
  have hdes := structChildrenDes_spec
    (mkChildren ov g false tn (dOvOf ov g tn fs).isEmpty fs)
    rs (fvs.map (fun p => p.2))
    ((fs.map (fun p => wireName ov g tn p.1)).zip rs)
    [] [] (by rw [hcn]; exact hlkR) hdesAll hndn hfrnil
  rw [hcn] at hdes
  simp only [List.nil_append] at hdes
  have hkeymap : (fs.map (fun p => wireName ov g tn p.1)).map
      (fun k => ((dOvOf ov g tn fs).lookup k).getD k)
      = fs.map (fun p => p.1) := by
    rw [List.map_map]
    exact List.map_congr_left (fun p hp => dOvLook_eq ov g tn fs hna hnw p hp)
  have hndh : nodupB ((((fs.map (fun p => wireName ov g tn p.1)).zip
      (fvs.map (fun p => p.2)))).map
      (fun p => ((dOvOf ov g tn fs).lookup p.1).getD p.1)) = true := by
    rw [zip_map_fst (fun k => ((dOvOf ov g tn fs).lookup k).getD k)
      (fs.map (fun p => wireName ov g tn p.1)) (fvs.map (fun p => p.2)) hwlen]
    rw [hkeymap]
    exact hna
  have hkw : ((fs.map (fun p => wireName ov g tn p.1)).zip
      (fvs.map (fun p => p.2))).foldl
      (fun acc p => dinsert acc (((dOvOf ov g tn fs).lookup p.1).getD p.1) p.2)
      []
      = (fs.map (fun p => p.1)).zip (fvs.map (fun p => p.2)) := by
    rw [foldl_dinsert_map
      (fun p => ((dOvOf ov g tn fs).lookup p.1).getD p.1)
      (fun p : String × Value => p.2)
      ((fs.map (fun p => wireName ov g tn p.1)).zip (fvs.map (fun p => p.2)))
      [] hndh (by intro p _; rfl)]
    simp only [List.nil_append]
    rw [zip_map_keys (fun k => ((dOvOf ov g tn fs).lookup k).getD k)]
    rw [hkeymap]
  have hstart : (fs.map (fun p => p.1)).length
      = (fvs.map (fun p => p.2)).length := by simp [hlen1]
  have hlkKW := lookAll_zip (fs.map (fun p => p.1)) (fvs.map (fun p => p.2))
    hna hstart
  have hmapM := mapM_lookup _ _ _ hlkKW
  have hzipfvs : (fs.map (fun p => p.1)).zip (fvs.map (fun p => p.2))
      = fvs := by
    rw [hnames]; exact zip_fst_snd fvs
  have hcr : constructRecord tn (fs.map (fun p => p.1))
      ((fs.map (fun p => p.1)).zip (fvs.map (fun p => p.2)))
      = .ok (.vrecord tn fvs) := by
    simp only [constructRecord, hmapM]
    rw [if_pos (by rw [List.length_zip, hstart, Nat.min_self])]
    rw [hzipfvs]
  constructor
  · simp only [mkCNode_rec, cnodeSer, ctypSer, happ, hser]
  · simp only [mkCNode_rec, cnodeDes, ctypDes, hdes, hkw, hcr]

mutual

theorem rtA : ∀ (d : Desc1) (ov : FieldOv) (g : String → String),
    wf1 ov g d = true → ∀ v, conforms1 d v = true →
    ∃ r, cnodeSer (mkCNode ov g false d) (.val v) = .ok (.val r)
      ∧ cnodeDes (mkCNode ov g false d) (.val r) = .ok v
  | .d1Int, ov, g, _, v, hc => by
      cases v <;> simp [conforms1] at hc
      case vint n =>
        exact ⟨.vint n, d1IntSer_vint ov g n, d1IntDes_vint ov g n⟩
  | .d1Bool, ov, g, _, v, hc => by
      cases v <;> simp [conforms1] at hc
      case vbool b =>
        exact ⟨.vbool b, d1BoolSer_vbool ov g b, d1BoolDes_vbool ov g b⟩
  | .d1OptInt, ov, g, _, v, hc => by
      cases v <;> simp [conforms1] at hc
      case vnone =>
        exact ⟨.vnone, d1OptIntSer_vnone ov g, d1OptIntDes_vnone ov g⟩
      case vint n =>
        exact ⟨.vint n, d1OptIntSer_vint ov g n, d1OptIntDes_vint ov g n⟩
  | .d1Rec tn fs, ov, g, hwf, v, hc => by
      cases v <;> simp only [conforms1] at hc
      case vnone => simp at hc
      case vbool b => simp at hc
      case vint n => simp at hc
      case vfloat q => simp at hc
      case vstr s => simp at hc
      case vbytes bs => simp at hc
      case vlist xs => simp at hc
      case vtuple xs => simp at hc
      case vdict kvs => simp at hc
      case vcolnull => simp at hc
      case vrecord tn2 fvs =>
        simp only [Bool.and_eq_true, beq_iff_eq] at hc
        obtain ⟨htn, hcf⟩ := hc
        subst htn
        simp only [wf1, Bool.and_eq_true] at hwf
        obtain ⟨⟨⟨hna, hnw⟩, hdg⟩, hwff⟩ := hwf
        obtain ⟨rs, hRT⟩ := rtAF fs ov g hwff fvs hcf
        obtain ⟨hser, hdes⟩ := recSerDes ov g tn fs hna hnw hdg fvs rs hcf hRT
        exact ⟨.vdict ((fs.map (fun p => wireName ov g tn p.1)).zip rs),
          hser, hdes⟩

theorem rtAF : ∀ (fs : List (String × Desc1)) (ov : FieldOv)
    (g : String → String), wfFields1 ov g fs = true →
    ∀ fvs, fieldsConform1 fs fvs = true → ∃ rs, fieldsRT ov g fs fvs rs
  | [], ov, g, _, fvs, hcf => by
      cases fvs with
      | nil => exact ⟨[], trivial⟩
      | cons q qs => simp [fieldsConform1] at hcf
  | (f, fd) :: rest, ov, g, hwff, fvs, hcf => by
      cases fvs with
      | nil => simp [fieldsConform1] at hcf
      | cons q qs =>
          obtain ⟨f2, w⟩ := q
          simp only [fieldsConform1, Bool.and_eq_true] at hcf
          obtain ⟨⟨-, hcw⟩, hcrest⟩ := hcf
          simp only [wfFields1, Bool.and_eq_true] at hwff
          obtain ⟨hwf1, hwfrest⟩ := hwff
          obtain ⟨r, hs, hd⟩ := rtA fd ov g hwf1 w hcw
          obtain ⟨rs, hRT⟩ := rtAF rest ov g hwfrest qs hcrest
          exact ⟨r :: rs, hs, hd, hRT⟩

end

theorem recBInv (ov : FieldOv) (g : String → String) (tn : String)
    (fs : List (String × Desc1))
    (hna : nodupB (fs.map (fun p => p.1)) = true)
    (hnw : nodupB (fs.map (fun p => wireName ov g tn p.1)) = true)
    (hdg : (if fs.all (fun p => wireName ov g tn p.1 == p.1)
            then fs.all (fun p => g p.1 == p.1) else true) = true)
    (kvs : List (String × Value)) (v : Value)
    (hdec : cnodeDes (mkCNode ov g false (.d1Rec tn fs)) (.val (.vdict kvs))
      = .ok v)
    (hF : exactKeysF ov g tn fs kvs = true) :
    ∃ rrs vs, lookAll kvs (fs.map (fun p => wireName ov g tn p.1)) rrs
      ∧ desAll (fs.map (fun p => mkCNode ov g false p.2)) rrs vs
      ∧ ekAll ov g fs rrs
      ∧ v = .vrecord tn ((fs.map (fun p => p.1)).zip vs) := by
  obtain ⟨rrs, hlkw, hek⟩ := exactKeysF_to ov g tn fs kvs hF
  have hcn := children_names ov g tn fs hnw hdg
  have hndn : nodupB ((mkChildren ov g false tn
      (dOvOf ov g tn fs).isEmpty fs).map CNode.name) = true := by
    rw [hcn]; exact hnw
  have hfrnil : ∀ c ∈ mkChildren ov g false tn (dOvOf ov g tn fs).isEmpty fs,
      (([] : List (String × Value)).any (fun q => q.1 == c.name)) = false := by
    intro c _; rfl
  simp only [mkCNode_rec, cnodeDes, ctypDes] at hdec
  cases hsd : structChildrenDes
      (mkChildren ov g false tn (dOvOf ov g tn fs).isEmpty fs) kvs [] [] with
  | error e => rw [hsd] at hdec; cases e <;> simp at hdec
  | ok pr =>
      obtain ⟨res', errs'⟩ := pr
      cases errs' with
      | cons i es => rw [hsd] at hdec; simp at hdec
      | nil =>
          obtain ⟨-, vs, hdesC, hout⟩ := structChildrenDes_inv
            (mkChildren ov g false tn (dOvOf ov g tn fs).isEmpty fs)
            rrs kvs [] [] res' (by rw [hcn]; exact hlkw) hndn hfrnil hsd
          rw [hcn] at hout
          simp only [List.nil_append] at hout
          subst hout
          obtain ⟨hdl1, hdl2⟩ := desAll_len _ rrs vs hdesC
          have hwrrs := lookAll_len kvs _ rrs hlkw
          have hlenwv : (fs.map (fun p => wireName ov g tn p.1)).length
              = vs.length := by rw [hwrrs, hdl2]
          have hkeymap : (fs.map (fun p => wireName ov g tn p.1)).map
              (fun k => ((dOvOf ov g tn fs).lookup k).getD k)
              = fs.map (fun p => p.1) := by
            rw [List.map_map]
            exact List.map_congr_left
              (fun p hp => dOvLook_eq ov g tn fs hna hnw p hp)
          have hndh : nodupB ((((fs.map (fun p => wireName ov g tn p.1)).zip
              vs)).map
              (fun p => ((dOvOf ov g tn fs).lookup p.1).getD p.1)) = true := by
            rw [zip_map_fst (fun k => ((dOvOf ov g tn fs).lookup k).getD k)
              (fs.map (fun p => wireName ov g tn p.1)) vs hlenwv]
            rw [hkeymap]
            exact hna
          have hkw : ((fs.map (fun p => wireName ov g tn p.1)).zip vs).foldl
              (fun acc p =>
                dinsert acc (((dOvOf ov g tn fs).lookup p.1).getD p.1) p.2)
              []
              = (fs.map (fun p => p.1)).zip vs := by
            rw [foldl_dinsert_map
              (fun p => ((dOvOf ov g tn fs).lookup p.1).getD p.1)
              (fun p : String × Value => p.2)
              ((fs.map (fun p => wireName ov g tn p.1)).zip vs)
              [] hndh (by intro p _; rfl)]
            simp only [List.nil_append]
            rw [zip_map_keys (fun k => ((dOvOf ov g tn fs).lookup k).getD k)]
            rw [hkeymap]
          have hstart : (fs.map (fun p => p.1)).length = vs.length := by
            simpa using hlenwv
          have hlkKW := lookAll_zip (fs.map (fun p => p.1)) vs hna hstart
          have hmapM := mapM_lookup _ _ _ hlkKW
          have hcr : constructRecord tn (fs.map (fun p => p.1))
              ((fs.map (fun p => p.1)).zip vs)
              = .ok (.vrecord tn ((fs.map (fun p => p.1)).zip vs)) := by
            simp only [constructRecord, hmapM]
            rw [if_pos (by rw [List.length_zip, hstart, Nat.min_self])]
          rw [hsd] at hdec
          simp only [hkw, hcr, Except.ok.injEq] at hdec
          exact ⟨rrs, vs, hlkw, desAll_mkChildren ov g tn _ fs rrs vs hdesC,
            hek, hdec.symm⟩

theorem recBSer (ov : FieldOv) (g : String → String) (tn : String)
    (fs : List (String × Desc1))
    (hna : nodupB (fs.map (fun p => p.1)) = true)
    (hnw : nodupB (fs.map (fun p => wireName ov g tn p.1)) = true)
    (hdg : (if fs.all (fun p => wireName ov g tn p.1 == p.1)
            then fs.all (fun p => g p.1 == p.1) else true) = true)
    (vs rs' : List Value)
    (hserB : serAll (fs.map (fun p => mkCNode ov g false p.2)) vs rs') :
    cnodeSer (mkCNode ov g false (.d1Rec tn fs))
        (.val (.vrecord tn ((fs.map (fun p => p.1)).zip vs)))
      = .ok (.val (.vdict
          ((fs.map (fun p => wireName ov g tn p.1)).zip rs'))) := by
  obtain ⟨hsl1, hsl2⟩ := serAll_len _ vs rs' hserB
  have hcn := children_names ov g tn fs hnw hdg
  have hserC := serAll_mkChildren ov g tn (dOvOf ov g tn fs).isEmpty fs vs rs'
    hserB
  have hstart : (fs.map (fun p => p.1)).length = vs.length := by
    simpa using hsl1
  have hlkA := lookAll_zip (fs.map (fun p => p.1)) vs hna hstart
  have hRKw : (fs.map (fun p => p.1)).map
      (fun a => (revLookup (dOvOf ov g tn fs) a).getD a)
      = fs.map (fun p => wireName ov g tn p.1) := by
    rw [List.map_map]
    exact List.map_congr_left (fun p hp => RK_eq ov g tn fs hna hnw p hp)
  have hndRK : nodupB ((fs.map (fun p => p.1)).map
      (fun a => (revLookup (dOvOf ov g tn fs) a).getD a)) = true := by
    rw [hRKw]; exact hnw
  have happ := structAppDict_spec tn ((fs.map (fun p => p.1)).zip vs)
    (dOvOf ov g tn fs) (fs.map (fun p => p.1)) vs [] hlkA hndRK
    (by intro a _; rfl)
  rw [hRKw] at happ
  simp only [List.nil_append] at happ
  have hwlen : (fs.map (fun p => wireName ov g tn p.1)).length
      = vs.length := by simpa using hsl1
  have hlkW := lookAll_zip (fs.map (fun p => wireName ov g tn p.1)) vs hnw
    hwlen
  have hndn : nodupB ((mkChildren ov g false tn
      (dOvOf ov g tn fs).isEmpty fs).map CNode.name) = true := by
    rw [hcn]; exact hnw
  have hfrnil : ∀ c ∈ mkChildren ov g false tn (dOvOf ov g tn fs).isEmpty fs,
      (([] : List (String × Value)).any (fun q => q.1 == c.name)) = false := by
    intro c _; rfl
  have hser := structChildrenSer_spec
    (mkChildren ov g false tn (dOvOf ov g tn fs).isEmpty fs)
    vs rs'
    ((fs.map (fun p => wireName ov g tn p.1)).zip vs)
    [] [] (by rw [hcn]; exact hlkW) hserC hndn hfrnil
  rw [hcn] at hser
  simp only [List.nil_append] at hser
  simp only [mkCNode_rec, cnodeSer, ctypSer, happ, hser]

mutual

theorem rtB : ∀ (d : Desc1) (ov : FieldOv) (g : String → String),
    wf1 ov g d = true → ∀ r v,
    cnodeDes (mkCNode ov g false d) (.val r) = .ok v →
    exactKeys1 ov g d r = true →
    ∃ r', cnodeSer (mkCNode ov g false d) (.val v) = .ok (.val r')
      ∧ pyEq r' r = true
  | .d1Int, ov, g, _, r, v, hdec, _ => by
      cases r with
      | vint n =>
          rw [d1IntDes_vint ov g n] at hdec
          simp only [Except.ok.injEq] at hdec
          subst hdec
          exact ⟨.vint n, d1IntSer_vint ov g n, by simp [pyEq]⟩
      | vnone =>
          have hE : (cnodeDes (mkCNode ov g false .d1Int)
            (.val .vnone)).toOption = none := rfl
          rw [hdec] at hE
          exact Option.noConfusion hE
      | vbool b =>
          have hE : (cnodeDes (mkCNode ov g false .d1Int)
            (.val (.vbool b))).toOption = none := rfl
          rw [hdec] at hE
          exact Option.noConfusion hE
      | vfloat q =>
          have hE : (cnodeDes (mkCNode ov g false .d1Int)
            (.val (.vfloat q))).toOption = none := rfl
          rw [hdec] at hE
          exact Option.noConfusion hE
      | vstr s =>
          have hE : (cnodeDes (mkCNode ov g false .d1Int)
            (.val (.vstr s))).toOption = none := rfl
          rw [hdec] at hE
          exact Option.noConfusion hE
      | vbytes bs =>
          have hE : (cnodeDes (mkCNode ov g false .d1Int)
            (.val (.vbytes bs))).toOption = none := rfl
          rw [hdec] at hE
          exact Option.noConfusion hE
      | vlist xs =>
          have hE : (cnodeDes (mkCNode ov g false .d1Int)
            (.val (.vlist xs))).toOption = none := rfl
          rw [hdec] at hE
          exact Option.noConfusion hE
      | vtuple xs =>
          have hE : (cnodeDes (mkCNode ov g false .d1Int)
            (.val (.vtuple xs))).toOption = none := rfl
          rw [hdec] at hE
          exact Option.noConfusion hE
      | vdict kvs =>
          have hE : (cnodeDes (mkCNode ov g false .d1Int)
            (.val (.vdict kvs))).toOption = none := rfl
          rw [hdec] at hE
          exact Option.noConfusion hE
      | vrecord tn2 fvs =>
          have hE : (cnodeDes (mkCNode ov g false .d1Int)
            (.val (.vrecord tn2 fvs))).toOption = none := rfl
          rw [hdec] at hE
          exact Option.noConfusion hE
      | vcolnull =>
          have hE : (cnodeDes (mkCNode ov g false .d1Int)
            (.val .vcolnull)).toOption = none := rfl
          rw [hdec] at hE
          exact Option.noConfusion hE
  | .d1Bool, ov, g, _, r, v, hdec, _ => by
      cases r with
      | vbool b =>
          rw [d1BoolDes_vbool ov g b] at hdec
          simp only [Except.ok.injEq] at hdec
          subst hdec
          exact ⟨.vbool b, d1BoolSer_vbool ov g b, by simp [pyEq]⟩
      | vnone =>
          have hE : (cnodeDes (mkCNode ov g false .d1Bool)
            (.val .vnone)).toOption = none := rfl
          rw [hdec] at hE
          exact Option.noConfusion hE
      | vint n =>
          have hE : (cnodeDes (mkCNode ov g false .d1Bool)
            (.val (.vint n))).toOption = none := rfl
          rw [hdec] at hE
          exact Option.noConfusion hE
      | vfloat q =>
          have hE : (cnodeDes (mkCNode ov g false .d1Bool)
            (.val (.vfloat q))).toOption = none := rfl
          rw [hdec] at hE
          exact Option.noConfusion hE
      | vstr s =>
          have hE : (cnodeDes (mkCNode ov g false .d1Bool)
            (.val (.vstr s))).toOption = none := rfl
          rw [hdec] at hE
          exact Option.noConfusion hE
      | vbytes bs =>
          have hE : (cnodeDes (mkCNode ov g false .d1Bool)
            (.val (.vbytes bs))).toOption = none := rfl
          rw [hdec] at hE
          exact Option.noConfusion hE
      | vlist xs =>
          have hE : (cnodeDes (mkCNode ov g false .d1Bool)
            (.val (.vlist xs))).toOption = none := rfl
          rw [hdec] at hE
          exact Option.noConfusion hE
      | vtuple xs =>
          have hE : (cnodeDes (mkCNode ov g false .d1Bool)
            (.val (.vtuple xs))).toOption = none := rfl
          rw [hdec] at hE
          exact Option.noConfusion hE
      | vdict kvs =>
          have hE : (cnodeDes (mkCNode ov g false .d1Bool)
            (.val (.vdict kvs))).toOption = none := rfl
          rw [hdec] at hE
          exact Option.noConfusion hE
      | vrecord tn2 fvs =>
          have hE : (cnodeDes (mkCNode ov g false .d1Bool)
            (.val (.vrecord tn2 fvs))).toOption = none := rfl
          rw [hdec] at hE
          exact Option.noConfusion hE
      | vcolnull =>
          have hE : (cnodeDes (mkCNode ov g false .d1Bool)
            (.val .vcolnull)).toOption = none := rfl
          rw [hdec] at hE
          exact Option.noConfusion hE
  | .d1OptInt, ov, g, _, r, v, hdec, _ => by
      cases r with
      | vnone =>
          rw [d1OptIntDes_vnone ov g] at hdec
          simp only [Except.ok.injEq] at hdec
          subst hdec
          exact ⟨.vnone, d1OptIntSer_vnone ov g, by simp [pyEq]⟩
      | vint n =>
          rw [d1OptIntDes_vint ov g n] at hdec
          simp only [Except.ok.injEq] at hdec
          subst hdec
          exact ⟨.vint n, d1OptIntSer_vint ov g n, by simp [pyEq]⟩
      | vbool b =>
          have hE : (cnodeDes (mkCNode ov g false .d1OptInt)
            (.val (.vbool b))).toOption = none := rfl
          rw [hdec] at hE
          exact Option.noConfusion hE
      | vfloat q =>
          have hE : (cnodeDes (mkCNode ov g false .d1OptInt)
            (.val (.vfloat q))).toOption = none := rfl
          rw [hdec] at hE
          exact Option.noConfusion hE
      | vstr s =>
          have hE : (cnodeDes (mkCNode ov g false .d1OptInt)
            (.val (.vstr s))).toOption = none := rfl
          rw [hdec] at hE
          exact Option.noConfusion hE
      | vbytes bs =>
          have hE : (cnodeDes (mkCNode ov g false .d1OptInt)
            (.val (.vbytes bs))).toOption = none := rfl
          rw [hdec] at hE
          exact Option.noConfusion hE
      | vlist xs =>
          have hE : (cnodeDes (mkCNode ov g false .d1OptInt)
            (.val (.vlist xs))).toOption = none := rfl
          rw [hdec] at hE
          exact Option.noConfusion hE
      | vtuple xs =>
          have hE : (cnodeDes (mkCNode ov g false .d1OptInt)
            (.val (.vtuple xs))).toOption = none := rfl
          rw [hdec] at hE
          exact Option.noConfusion hE
      | vdict kvs =>
          have hE : (cnodeDes (mkCNode ov g false .d1OptInt)
            (.val (.vdict kvs))).toOption = none := rfl
          rw [hdec] at hE
          exact Option.noConfusion hE
      | vrecord tn2 fvs =>
          have hE : (cnodeDes (mkCNode ov g false .d1OptInt)
            (.val (.vrecord tn2 fvs))).toOption = none := rfl
          rw [hdec] at hE
          exact Option.noConfusion hE
      | vcolnull =>
          have hE : (cnodeDes (mkCNode ov g false .d1OptInt)
            (.val .vcolnull)).toOption = none := rfl
          rw [hdec] at hE
          exact Option.noConfusion hE
  | .d1Rec tn fs, ov, g, hwf, r, v, hdec, hek => by
      cases r <;> simp only [exactKeys1] at hek
      case vnone => simp at hek
      case vbool b => simp at hek
      case vint n => simp at hek
      case vfloat q => simp at hek
      case vstr s => simp at hek
      case vbytes bs => simp at hek
      case vlist xs => simp at hek
      case vtuple xs => simp at hek
      case vrecord tn2 fvs => simp at hek
      case vcolnull => simp at hek
      case vdict kvs =>
        simp only [Bool.and_eq_true] at hek
        obtain ⟨⟨-, hsub⟩, hF⟩ := hek
        simp only [wf1, Bool.and_eq_true] at hwf
        obtain ⟨⟨⟨hna, hnw⟩, hdg⟩, hwff⟩ := hwf
        obtain ⟨rrs, vs, hlkw, hdesB, hek2, hveq⟩ :=
          recBInv ov g tn fs hna hnw hdg kvs v hdec hF
        subst hveq
        obtain ⟨rs', hserB, hpe⟩ := rtBF fs ov g hwff rrs vs hdesB hek2
        have e1 := lookAll_len kvs _ rrs hlkw
        obtain ⟨e2, e3⟩ := desAll_len _ rrs vs hdesB
        obtain ⟨e4, e5⟩ := serAll_len _ vs rs' hserB
        have hlenwr : (fs.map (fun p => wireName ov g tn p.1)).length
            = rs'.length := by rw [e1, e3, e5]
        refine ⟨.vdict ((fs.map (fun p => wireName ov g tn p.1)).zip rs'),
          recBSer ov g tn fs hna hnw hdg vs rs' hserB, ?_⟩
        simp only [pyEq]
        rw [pyEqDictSub_of (fs.map (fun p => wireName ov g tn p.1)) rs' rrs
          kvs hlkw hpe]
        rw [keysSubB_of kvs (fs.map (fun p => wireName ov g tn p.1)) rs' hsub
          hlenwr]
        rfl

theorem rtBF : ∀ (fs : List (String × Desc1)) (ov : FieldOv)
    (g : String → String), wfFields1 ov g fs = true →
    ∀ (rrs vs : List Value),
    desAll (fs.map (fun p => mkCNode ov g false p.2)) rrs vs →
    ekAll ov g fs rrs →
    ∃ rs', serAll (fs.map (fun p => mkCNode ov g false p.2)) vs rs'
      ∧ pyEqAll rs' rrs
  | [], ov, g, _, rrs, vs, hdes, _ => by
      cases rrs with
      | cons r rrs' => cases vs <;> exact absurd hdes (by simp [desAll])
      | nil =>
          cases vs with
          | cons w ws => exact absurd hdes (by simp [desAll])
          | nil => exact ⟨[], trivial, trivial⟩
  | (f, fd) :: rest, ov, g, hwff, rrs, vs, hdes, hekl => by
      cases rrs with
      | nil => exact absurd hdes (by simp [desAll])
      | cons r rrs' =>
          cases vs with
          | nil => exact absurd hdes (by simp [desAll])
          | cons w ws =>
              obtain ⟨hd1, hd2⟩ := hdes
              obtain ⟨he1, he2⟩ := hekl
              simp only [wfFields1, Bool.and_eq_true] at hwff
              obtain ⟨hwf1, hwfrest⟩ := hwff
              obtain ⟨r', hs, hp⟩ := rtB fd ov g hwf1 r w hd1 he1
              obtain ⟨rs', hsrest, hprest⟩ :=
                rtBF rest ov g hwfrest rrs' ws hd2 he2
              exact ⟨r' :: rs', ⟨hs, hsrest⟩, ⟨hp, hprest⟩⟩

end

/-- C1 (amended): over the static strict-mode fragment (int, bool,
`Optional[int]`, and nested NamedTuple records with per-field wire-name
overrides and a global name transform) under the well-formedness conditions
`wf1` (distinct field and wire names; when every wire name equals its field
name, the global transform is the identity on those fields — without this the
identity-discard optimisation desynchronizes child names from
`deserialize_overrides`), the codec round-trips both ways: (a) every
conforming appstruct value encodes successfully and the encoded raw decodes
back to the identical value; (b) every raw input that decodes successfully
re-encodes to a Python-`==`-equal raw structure *provided* it carries exactly
the wire keys of every record level.  Without that proviso direction (b) of
the spec's claim is false: unknown wire keys are silently dropped and missing
`Optional` keys materialize as explicit nulls on re-encode (see the
counterexample). -/
theorem c1_round_trip :
    (∀ (ov : FieldOv) (g : String → String) (d : Desc1), wf1 ov g d = true →
      ∀ v, conforms1 d v = true →
      ∃ r, cnodeSer (mkCNode ov g false d) (.val v) = .ok (.val r)
        ∧ cnodeDes (mkCNode ov g false d) (.val r) = .ok v)
    ∧ (∀ (ov : FieldOv) (g : String → String) (d : Desc1), wf1 ov g d = true →
      ∀ r v, cnodeDes (mkCNode ov g false d) (.val r) = .ok v →
      exactKeys1 ov g d r = true →
      ∃ r', cnodeSer (mkCNode ov g false d) (.val v) = .ok (.val r')
        ∧ pyEq r' r = true) :=
  ⟨fun ov g d => rtA d ov g, fun ov g d => rtB d ov g⟩

/-- C1 counterexample to the claim as stated: `encode(decode(r)) == r` fails
for raw inputs decode accepts.  First: an unknown key is dropped —
`{"a": 1, "b": 2}` decodes against `R{a: int}` and re-encodes to `{"a": 1}`.
Second: a missing `Optional` key materializes — `{}` decodes against
`S{a: Optional[int]}` and re-encodes to `{"a": None}`. -/
theorem c1_round_trip_cex :
    (cnodeDes (mkCNode [] (fun s => s) false (.d1Rec "R" [("a", .d1Int)]))
        (.val (.vdict [("a", .vint 1), ("b", .vint 2)]))
      = .ok (.vrecord "R" [("a", .vint 1)]))
    ∧ (cnodeSer (mkCNode [] (fun s => s) false (.d1Rec "R" [("a", .d1Int)]))
        (.val (.vrecord "R" [("a", .vint 1)]))
      = .ok (.val (.vdict [("a", .vint 1)])))
    ∧ pyEq (.vdict [("a", .vint 1)]) (.vdict [("a", .vint 1), ("b", .vint 2)])
        = false
    ∧ (cnodeDes (mkCNode [] (fun s => s) false
          (.d1Rec "S" [("a", .d1OptInt)]))
        (.val (.vdict []))
      = .ok (.vrecord "S" [("a", .vnone)]))
    ∧ (cnodeSer (mkCNode [] (fun s => s) false
          (.d1Rec "S" [("a", .d1OptInt)]))
        (.val (.vrecord "S" [("a", .vnone)]))
      = .ok (.val (.vdict [("a", .vnone)])))
    ∧ pyEq (.vdict [("a", .vnone)]) (.vdict []) = false :=
  ⟨rfl, rfl, rfl, rfl, rfl, rfl⟩

/-- Witness for `c1_round_trip`: a record with one overridden wire name and
one globally transformed wire name round-trips a concrete value. -/
theorem c1_round_trip_witness :
    wf1 [(("P", "x"), "wx")] (fun s => String.append "f_" s)
        (.d1Rec "P" [("x", .d1Int), ("y", .d1OptInt)]) = true
    ∧ conforms1 (.d1Rec "P" [("x", .d1Int), ("y", .d1OptInt)])
        (.vrecord "P" [("x", .vint 3), ("y", .vnone)]) = true
    ∧ (∃ r, cnodeSer (mkCNode [(("P", "x"), "wx")]
            (fun s => String.append "f_" s) false
            (.d1Rec "P" [("x", .d1Int), ("y", .d1OptInt)]))
          (.val (.vrecord "P" [("x", .vint 3), ("y", .vnone)]))
          = .ok (.val r)
        ∧ cnodeDes (mkCNode [(("P", "x"), "wx")]
            (fun s => String.append "f_" s) false
            (.d1Rec "P" [("x", .d1Int), ("y", .d1OptInt)]))
          (.val r)
          = .ok (.vrecord "P" [("x", .vint 3), ("y", .vnone)])) :=
  ⟨rfl, rfl,
    c1_round_trip.1 [(("P", "x"), "wx")] (fun s => String.append "f_" s)
      (.d1Rec "P" [("x", .d1Int), ("y", .d1OptInt)]) rfl
      (.vrecord "P" [("x", .vint 3), ("y", .vnone)]) rfl⟩

end Typeit
